import Mathlib

/-!
# go-swagger `scan` package: comment sectioning and directive value parsers

A shallow embedding of `scan/scanner.go` and `scan/validators.go`.

* Go strings are lists of characters (`Str`); a line list is `List Str`.
* `regexp` patterns are terms of `Regex`, executed by a backtracking matcher
  `run` that lists every way a pattern can match in priority order
  (leftmost-first, greedy repetition), which is the order Go's `regexp`
  package reports.
* The Unicode general-category tables of the Go standard library are a
  parameter `U : UnicodeTables`; `latin1` is their restriction to
  U+0000..U+00FF and is used to evaluate concrete lines.
* A run-time panic is the `none` of an `Option`.
* Functions of other files and packages (`spec.NewRef`, the classifier, the
  unit parsers) are parameters of the definitions that call them.
* Loops without a bound in the source (`processDiscovered`, the recursion of
  `TypeForSelector`) carry a bound on their passes; reaching it is a `none` or
  `outOfFuel`, and the statements about them show that a result is returned.
-/

namespace Scan

/-- A Go string, as its sequence of characters. -/
abbrev Str := List Char

/-! ## Unicode tables -/

/-- The Unicode general categories that the patterns of the package name. -/
inductive UCat
  | L | N | Zs | Pd | Pc | Po
  deriving DecidableEq, Repr

/-- The general-category tables of package `unicode`, as membership tests. -/
structure UnicodeTables where
  cat : UCat → Char → Bool

/-- Whether a code point lies in one of the listed inclusive ranges. -/
def inRanges (rs : List (Nat × Nat)) (c : Char) : Bool :=
  rs.any (fun r => r.1 ≤ c.toNat && c.toNat ≤ r.2)

/-- The general categories on Basic Latin and Latin-1 Supplement; every code
point above U+00FF is left out of every category. -/
def latin1 : UnicodeTables where
  cat
    | .L => inRanges [(0x41, 0x5A), (0x61, 0x7A), (0xAA, 0xAA), (0xB5, 0xB5), (0xBA, 0xBA),
        (0xC0, 0xD6), (0xD8, 0xF6), (0xF8, 0xFF)]
    | .N => inRanges [(0x30, 0x39), (0xB2, 0xB3), (0xB9, 0xB9), (0xBC, 0xBE)]
    | .Zs => inRanges [(0x20, 0x20), (0xA0, 0xA0)]
    | .Pd => inRanges [(0x2D, 0x2D)]
    | .Pc => inRanges [(0x5F, 0x5F)]
    | .Po => inRanges [(0x21, 0x23), (0x25, 0x27), (0x2A, 0x2A), (0x2C, 0x2C), (0x2E, 0x2F),
        (0x3A, 0x3B), (0x3F, 0x40), (0x5C, 0x5C), (0xA1, 0xA1), (0xA7, 0xA7), (0xB6, 0xB7),
        (0xBF, 0xBF)]

/-- The characters `unicode.IsSpace` accepts (the White_Space property). -/
def isSpace (c : Char) : Bool :=
  inRanges [(0x09, 0x0D), (0x20, 0x20), (0x85, 0x85), (0xA0, 0xA0), (0x1680, 0x1680),
    (0x2000, 0x200A), (0x2028, 0x2029), (0x202F, 0x202F), (0x205F, 0x205F), (0x3000, 0x3000)] c

/-- The function `strings.TrimSpace`. -/
def trimSpace (s : Str) : Str :=
  ((s.dropWhile isSpace).reverse.dropWhile isSpace).reverse

/-! ## Regular expressions -/

/-- One item of a bracketed character class. -/
inductive ClassItem
  | ch (c : Char)
  | cat (k : UCat)
  deriving DecidableEq, Repr

/-- The syntax of the patterns used by the package. `grp n r` is the `n`-th
capturing group; non-capturing groups `(?:r)` are plain sub-terms. -/
inductive Regex
  | eps
  | chr (c : Char)
  | cls (neg : Bool) (items : List ClassItem)
  | any
  | seq (a b : Regex)
  | alt (a b : Regex)
  | star (a : Regex)
  | grp (n : Nat) (a : Regex)
  | eot
  deriving DecidableEq, Repr

namespace Regex

/-- The pattern `r?`: prefer `r`, else match nothing. -/
def opt (r : Regex) : Regex := alt r eps

/-- The pattern `r+`: `r` followed by `r*`. -/
def plus (r : Regex) : Regex := seq r (star r)

/-- The literal text `s`. -/
def str : Str → Regex
  | [] => eps
  | [c] => chr c
  | c :: t => seq (chr c) (str t)

/-- The concatenation of a list of patterns. -/
def cat : List Regex → Regex
  | [] => eps
  | [r] => r
  | r :: t => seq r (cat t)

/-- The number of capturing groups (`Regexp.NumSubexp`). -/
def numGroups : Regex → Nat
  | seq a b => numGroups a + numGroups b
  | alt a b => numGroups a + numGroups b
  | star a => numGroups a
  | grp _ a => numGroups a + 1
  | _ => 0

end Regex

/-- Membership of a character in a class item. -/
def ClassItem.mem (U : UnicodeTables) : ClassItem → Char → Bool
  | .ch d, c => c == d
  | .cat k, c => U.cat k c

/-- Membership of a character in a bracketed class. -/
def classMem (U : UnicodeTables) (neg : Bool) (items : List ClassItem) (c : Char) : Bool :=
  neg != items.any (fun i => i.mem U c)

/-- A matcher thread: the input still to be read and the groups captured so
far (most recent first). -/
structure MState where
  rest : Str
  caps : List (Nat × Str)
  deriving DecidableEq, Repr

/-- Greedy repetition: iterate `step` as long as it consumes input, preferring
more iterations. The fuel bounds the number of iterations by the input length. -/
def starLoop (step : MState → List MState) : Nat → MState → List MState
  | 0, s => [s]
  | n + 1, s =>
    ((step s).filter (fun x => x.rest.length < s.rest.length)).flatMap (starLoop step n) ++ [s]

/-- Every way `r` matches a prefix of the thread's input, in the priority
order of a backtracking matcher. -/
def run (U : UnicodeTables) : Regex → MState → List MState
  | .eps, s => [s]
  | .chr c, s =>
    match s.rest with
    | d :: t => if d = c then [{ s with rest := t }] else []
    | [] => []
  | .cls neg items, s =>
    match s.rest with
    | d :: t => if classMem U neg items d then [{ s with rest := t }] else []
    | [] => []
  | .any, s =>
    match s.rest with
    | d :: t => if d = '\n' then [] else [{ s with rest := t }]
    | [] => []
  | .seq a b, s => (run U a s).flatMap (fun x => run U b x)
  | .alt a b, s => run U a s ++ run U b s
  | .star a, s => starLoop (fun x => run U a x) s.rest.length s
  | .grp n a, s =>
    (run U a s).map (fun x =>
      { x with caps := (n, s.rest.take (s.rest.length - x.rest.length)) :: x.caps })
  | .eot, s => if s.rest = [] then [s] else []

/-- The leftmost match of `r` in `s`: the text from the match's start on, and
the preferred thread there. -/
def find (U : UnicodeTables) (r : Regex) : Str → Option (Str × MState)
  | [] => ((run U r ⟨[], []⟩).head?).map (fun x => ([], x))
  | c :: t =>
    match (run U r ⟨c :: t, []⟩).head? with
    | some x => some (c :: t, x)
    | none => find U r t

/-- The method `Regexp.MatchString`. -/
def MatchString (U : UnicodeTables) (r : Regex) (s : Str) : Bool :=
  (find U r s).isSome

/-- The text of group `n` in a capture list; empty when the group did not
take part in the match. -/
def capture (caps : List (Nat × Str)) (n : Nat) : Str :=
  ((caps.find? (fun p => p.1 == n)).map (fun p => p.2)).getD []

/-- The method `Regexp.FindStringSubmatch`: nil without a match, else the whole
match followed by the text of each group. -/
def FindStringSubmatch (U : UnicodeTables) (r : Regex) (s : Str) : List Str :=
  match find U r s with
  | none => []
  | some (start, x) =>
    start.take (start.length - x.rest.length) ::
      (List.range r.numGroups).map (fun i => capture x.caps (i + 1))

/-! ## The patterns of `scanner.go` -/

/-- Abbreviation for a `\p{..}` class item. -/
abbrev pZs : Regex := .cls false [.cat .Zs]

/-- Abbreviation for `\p{N}`. -/
abbrev pN : Regex := .cls false [.cat .N]

/-- The signed decimal `[\+-]?(?:\p{N}+\.)?\p{N}+`. -/
def rxSignedDecimal : Regex :=
  .cat [Regex.opt (.cls false [.ch '+', .ch '-']),
    Regex.opt (.seq (Regex.plus pN) (.chr '.')),
    Regex.plus pN]

/-- The pattern `rxMaximumFmt` with its `%s` replaced by `pre`. -/
def rxMaximumFmt (pre : Regex) : Regex :=
  .cat [pre, .cls false [.ch 'M', .ch 'm'], .str "ax".toList, Regex.opt (.str "imum".toList),
    .star pZs, .chr ':', .star pZs,
    Regex.opt (.grp 1 (.cls false [.ch '<', .ch '='])), .star pZs,
    .grp 2 rxSignedDecimal, .eot]

/-- The pattern `rxMinimumFmt` with its `%s` replaced by `pre`. -/
def rxMinimumFmt (pre : Regex) : Regex :=
  .cat [pre, .cls false [.ch 'M', .ch 'm'], .str "in".toList, Regex.opt (.str "imum".toList),
    .star pZs, .chr ':', .star pZs,
    Regex.opt (.grp 1 (.cls false [.ch '>', .ch '='])), .star pZs,
    .grp 2 rxSignedDecimal, .eot]

/-- The pattern `rxMultipleOfFmt` with its `%s` replaced by `pre`. -/
def rxMultipleOfFmt (pre : Regex) : Regex :=
  .cat [pre, .cls false [.ch 'M', .ch 'm'], .str "ultiple".toList, .star pZs,
    .cls false [.ch 'O', .ch 'o'], .chr 'f', .star pZs, .chr ':', .star pZs,
    .grp 1 rxSignedDecimal, .eot]

/-- The pattern `rxMaxLengthFmt` with its `%s` replaced by `pre`. -/
def rxMaxLengthFmt (pre : Regex) : Regex :=
  .cat [pre, .cls false [.ch 'M', .ch 'm'], .str "ax".toList, Regex.opt (.str "imum".toList),
    .cat [.star pZs, Regex.opt (.cls false [.cat .Pd, .cat .Pc]), .cls false [.ch 'L', .ch 'l'],
      .str "en".toList, Regex.opt (.str "gth".toList)],
    .star pZs, .chr ':', .star pZs, .grp 1 (Regex.plus pN), .eot]

/-- The pattern `rxMinLengthFmt` with its `%s` replaced by `pre`. -/
def rxMinLengthFmt (pre : Regex) : Regex :=
  .cat [pre, .cls false [.ch 'M', .ch 'm'], .str "in".toList, Regex.opt (.str "imum".toList),
    .cat [.star pZs, Regex.opt (.cls false [.cat .Pd, .cat .Pc]), .cls false [.ch 'L', .ch 'l'],
      .str "en".toList, Regex.opt (.str "gth".toList)],
    .star pZs, .chr ':', .star pZs, .grp 1 (Regex.plus pN), .eot]

/-- The pattern `rxPatternFmt` with its `%s` replaced by `pre`. -/
def rxPatternFmt (pre : Regex) : Regex :=
  .cat [pre, .cls false [.ch 'P', .ch 'p'], .str "attern".toList, .star pZs, .chr ':',
    .star pZs, .grp 1 (.star .any), .eot]

/-- The pattern `rxCollectionFormatFmt` with its `%s` replaced by `pre`. -/
def rxCollectionFormatFmt (pre : Regex) : Regex :=
  .cat [pre, .cls false [.ch 'C', .ch 'c'], .str "ollection".toList,
    .cat [.star pZs, Regex.opt (.cls false [.cat .Pd, .cat .Pc]), .cls false [.ch 'F', .ch 'f'],
      .str "ormat".toList],
    .star pZs, .chr ':', .star pZs, .grp 1 (.star .any), .eot]

/-- The pattern `rxMaxItemsFmt` with its `%s` replaced by `pre`. -/
def rxMaxItemsFmt (pre : Regex) : Regex :=
  .cat [pre, .cls false [.ch 'M', .ch 'm'], .str "ax".toList, Regex.opt (.str "imum".toList),
    Regex.opt (.alt (.star pZs) (.alt (.cls false [.cat .Pd, .cat .Pc]) (.chr '.'))),
    .cls false [.ch 'I', .ch 'i'], .str "tems".toList,
    .star pZs, .chr ':', .star pZs, .grp 1 (Regex.plus pN), .eot]

/-- The pattern `rxMinItemsFmt` with its `%s` replaced by `pre`. -/
def rxMinItemsFmt (pre : Regex) : Regex :=
  .cat [pre, .cls false [.ch 'M', .ch 'm'], .str "in".toList, Regex.opt (.str "imum".toList),
    Regex.opt (.alt (.star pZs) (.alt (.cls false [.cat .Pd, .cat .Pc]) (.chr '.'))),
    .cls false [.ch 'I', .ch 'i'], .str "tems".toList,
    .star pZs, .chr ':', .star pZs, .grp 1 (Regex.plus pN), .eot]

/-- The pattern `rxUniqueFmt` with its `%s` replaced by `pre`. -/
def rxUniqueFmt (pre : Regex) : Regex :=
  .cat [pre, .cls false [.ch 'U', .ch 'u'], .str "nique".toList, .star pZs, .chr ':',
    .star pZs, .grp 1 (.alt (.str "true".toList) (.str "false".toList)), .eot]

/-- The pattern `rxIn`,
`(?:[Ii]n|[Ss]ource)\p{Zs}*:\p{Zs}*(query|path|header|body)$`. -/
def rxIn : Regex :=
  .cat [.alt (.seq (.cls false [.ch 'I', .ch 'i']) (.chr 'n'))
      (.seq (.cls false [.ch 'S', .ch 's']) (.str "ource".toList)),
    .star pZs, .chr ':', .star pZs,
    .grp 1 (.alt (.str "query".toList) (.alt (.str "path".toList)
      (.alt (.str "header".toList) (.str "body".toList)))), .eot]

/-- The pattern `rxReadOnly`,
`[Rr]ead(?:\p{Zs}*|[\p{Pd}\p{Pc}])?[Oo]nly\p{Zs}*:\p{Zs}*(true|false)$`. -/
def rxReadOnly : Regex :=
  .cat [.cls false [.ch 'R', .ch 'r'], .str "ead".toList,
    Regex.opt (.alt (.star pZs) (.cls false [.cat .Pd, .cat .Pc])),
    .cls false [.ch 'O', .ch 'o'], .str "nly".toList, .star pZs, .chr ':', .star pZs,
    .grp 1 (.alt (.str "true".toList) (.str "false".toList)), .eot]

/-- The pattern `rxItemsPrefix`, `(?:[Ii]tems[\.\p{Zs}]?)+`. -/
def rxItemsPrefix : Regex :=
  Regex.plus (.cat [.cls false [.ch 'I', .ch 'i'], .str "tems".toList,
    Regex.opt (.cls false [.ch '.', .cat .Zs])])

/-- The function `rxf`: a format pattern with its `%s` filled in. -/
def rxf (rxp : Regex → Regex) (ar : Regex) : Regex := rxp ar

/-- The pattern `rxSwaggerAnnotation`,
`[^+]*\+\p{Zs}*swagger:([\p{L}\p{N}\p{Pd}\p{Pc}]+)`. -/
def rxSwaggerAnnotation : Regex :=
  .cat [.star (.cls true [.ch '+']), .chr '+', .star pZs, .str "swagger:".toList,
    .grp 1 (Regex.plus (.cls false [.cat .L, .cat .N, .cat .Pd, .cat .Pc]))]

/-- The pattern `rxModelOverride`,
`\+swagger:model\p{Zs}*(\p{L}[\p{L}\p{N}\p{Pd}\p{Pc}]+)?$`. -/
def rxModelOverride : Regex :=
  .cat [.str "+swagger:model".toList, .star pZs,
    Regex.opt (.grp 1 (.seq (.cls false [.cat .L])
      (Regex.plus (.cls false [.cat .L, .cat .N, .cat .Pd, .cat .Pc])))), .eot]

/-- The pattern `rxRequired`, `[Rr]equired\p{Zs}*:\p{Zs}*(true|false)$`. -/
def rxRequired : Regex :=
  .cat [.cls false [.ch 'R', .ch 'r'], .str "equired".toList, .star pZs, .chr ':', .star pZs,
    .grp 1 (.alt (.str "true".toList) (.str "false".toList)), .eot]

/-- The pattern `rxPunctuationEnd`, `\p{Po}$`. -/
def rxPunctuationEnd : Regex := .seq (.cls false [.cat .Po]) .eot

/-- The pattern `rxConsumes`, `[Cc]onsumes\p{Zs}*:`. -/
def rxConsumes : Regex :=
  .cat [.cls false [.ch 'C', .ch 'c'], .str "onsumes".toList, .star pZs, .chr ':']

/-! ## Errors and the line helpers of `scanner.go` -/

/-- The errors the value parsers return; `errorf` is a call of `fmt.Errorf`
with its format and its arguments. -/
inductive GoError
  | badNumber (func : String) (input : Str)
  | outOfRange (func : String) (input : Str)
  | message (text : Str)
  | errorf (format : String) (args : List Str)
  deriving DecidableEq, Repr

/-- The call `strings.Split(s, "\n")`. -/
def splitLines : Str → List Str
  | [] => [[]]
  | c :: t =>
    if c = '\n' then [] :: splitLines t
    else
      match splitLines t with
      | h :: r => (c :: h) :: r
      | [] => [[c]]

/-- The function `removeEmptyLines`. -/
def removeEmptyLines (lines : List Str) : List Str :=
  lines.filter (fun l => (trimSpace l).length > 0)

/-- The replacement `regexp.MustCompile("^[^\\p{L}\\p{N}\\+]*").ReplaceAllString(v, "")`
of `cleanup`: the pattern is anchored at the start of the text and greedy, so it
removes the longest leading run of characters outside the class. -/
def stripComment (U : UnicodeTables) (v : Str) : Str :=
  v.dropWhile (classMem U true [.cat .L, .cat .N, .ch '+'])

/-- A Go slice expression `xs[lo:hi]`; `none` is the run-time panic for bounds
out of range. The slices taken in this package have their length as capacity
bound whenever `hi` is in range. -/
def goSlice {α : Type} (xs : List α) (lo hi : Int) : Option (List α) :=
  if 0 ≤ lo ∧ lo ≤ hi ∧ hi ≤ xs.length then some ((xs.take hi.toNat).drop lo.toNat) else none

/-- The local variables of the loop of `cleanup`. -/
structure CleanupVars where
  seenLine : Int
  lastContent : Int
  uncommented : List Str
  deriving DecidableEq, Repr

/-- One iteration of the loop of `cleanup`, at index `i` with line `v`. -/
def cleanupStep (U : UnicodeTables) (vars : CleanupVars) (i : Nat) (v : Str) : CleanupVars :=
  let str := stripComment U v
  let vars := { vars with uncommented := vars.uncommented ++ [str] }
  if str ≠ [] then
    { vars with
      seenLine := if vars.seenLine < 0 then (i : Int) else vars.seenLine
      lastContent := (i : Int) }
  else vars

/-- The loop `for i, v := range lines` of `cleanup`, from index `i` on. -/
def cleanupLoop (U : UnicodeTables) : List Str → Nat → CleanupVars → CleanupVars
  | [], _, vars => vars
  | v :: rest, i, vars => cleanupLoop U rest (i + 1) (cleanupStep U vars i v)

/-- The method `sectionedParser.cleanup`; `none` is a run-time panic. -/
def cleanup (U : UnicodeTables) (lines : List Str) : Option (List Str) :=
  let vars := cleanupLoop U lines 0 ⟨-1, 0, []⟩
  goSlice vars.uncommented vars.seenLine (vars.lastContent + 1)

/-! ## The sectioned comment parser -/

/-- The interface `valueParser`. The targets a parser writes to (a builder, a
schema, a document) are the state `σ`; `Parse` returns its error, if any, and
the targets afterwards. -/
structure valueParser (σ : Type) where
  Matches : Str → Bool
  Parse : List Str → σ → Option GoError × σ

/-- The struct `tagParser`. -/
structure tagParser (σ : Type) where
  Name : Str
  MultiLine : Bool
  Lines : List Str
  Parser : valueParser σ

/-- The function `newMultiLineTagParser`. -/
def newMultiLineTagParser {σ : Type} (name : Str) (p : valueParser σ) : tagParser σ :=
  { Name := name, MultiLine := true, Lines := [], Parser := p }

/-- The function `newSingleLineTagParser`. -/
def newSingleLineTagParser {σ : Type} (name : Str) (p : valueParser σ) : tagParser σ :=
  { Name := name, MultiLine := false, Lines := [], Parser := p }

/-- The method `tagParser.Matches`. -/
def tagParser.Matches {σ : Type} (st : tagParser σ) (line : Str) : Bool :=
  st.Parser.Matches line

/-- The method `tagParser.Parse`. -/
def tagParser.Parse {σ : Type} (st : tagParser σ) (lines : List Str) (w : σ) :
    Option GoError × σ :=
  st.Parser.Parse lines w

/-- Reading a Go `map[string]V`, kept as a list of entries with distinct keys. -/
def mapGet {V : Type} (m : List (Str × V)) (k : Str) : Option V :=
  (m.find? (fun e => e.1 == k)).map (fun e => e.2)

/-- Writing a Go `map[string]V`: replace the entry of the key or add one. -/
def mapSet {V : Type} : List (Str × V) → Str → V → List (Str × V)
  | [], k, v => [(k, v)]
  | e :: m, k, v => if e.1 == k then (k, v) :: m else e :: mapSet m k v

/-- The struct `sectionedParser`. A nil function field is `none`. -/
structure sectionedParser (σ : Type) where
  header : List Str
  matched : List (Str × tagParser σ)
  annotation : Option (valueParser σ)
  seenTag : Bool
  skipHeader : Bool
  setTitle : Option (List Str → σ → σ)
  setDescription : Option (List Str → σ → σ)
  workedOutTitle : Bool
  taggers : List (tagParser σ)
  currentTagger : Option (tagParser σ)
  title : List Str
  description : List Str

/-- The index of the first line that is blank after `strings.TrimSpace`, or
`-1`: the loop over `hdrs` in `collectTitleDescription`. -/
def firstBlank : List Str → Nat → Int
  | [], _ => -1
  | line :: rest, i => if trimSpace line = [] then (i : Int) else firstBlank rest (i + 1)

/-- The method `sectionedParser.collectTitleDescription`; `none` is a run-time
panic (raised by `cleanup`). -/
def sectionedParser.collectTitleDescription {σ : Type} (U : UnicodeTables)
    (st : sectionedParser σ) : Option (sectionedParser σ) :=
  if st.workedOutTitle then some st
  else if st.setTitle.isNone then
    (cleanup U st.header).map (fun h => { st with header := h })
  else
    (cleanup U st.header).map (fun hdrs =>
      let st := { st with workedOutTitle := true }
      let idx := firstBlank hdrs 0
      if idx > -1 then
        { st with
          title := hdrs.take idx.toNat
          header := if (hdrs.length : Int) > idx + 1 then hdrs.drop (idx.toNat + 1) else [] }
      else
        match hdrs with
        | line :: rest =>
          if MatchString U rxPunctuationEnd line then
            { st with title := [line], header := rest }
          else { st with header := hdrs }
        | [] => st)

/-- The method `sectionedParser.Title`: the title and the parser afterwards. -/
def sectionedParser.Title {σ : Type} (U : UnicodeTables) (st : sectionedParser σ) :
    Option (List Str × sectionedParser σ) :=
  (st.collectTitleDescription U).map (fun st => (st.title, st))

/-- The method `sectionedParser.Description`. -/
def sectionedParser.Description {σ : Type} (U : UnicodeTables) (st : sectionedParser σ) :
    Option (List Str × sectionedParser σ) :=
  (st.collectTitleDescription U).map (fun st => (st.header, st))

/-- The body of the inner loop of `sectionedParser.Parse` for one line; `none`
is `break COMMENTS`. -/
def sectionedParser.parseLine {σ : Type} (U : UnicodeTables) (st : sectionedParser σ) (w : σ)
    (line : Str) : Option (sectionedParser σ × σ) :=
  if MatchString U rxSwaggerAnnotation line then
    match st.annotation with
    | none => none
    | some a =>
      if !a.Matches line then none
      else
        let w := (a.Parse [line] w).2
        some (if st.header.length > 0 then { st with seenTag := true } else st, w)
  else
    let (st, matched) :=
      match st.taggers.find? (fun tagger => tagger.Matches line) with
      | some tagger => ({ st with seenTag := true, currentTagger := some tagger }, true)
      | none => (st, false)
    match st.currentTagger with
    | none =>
      some (if !st.skipHeader && !st.seenTag then { st with header := st.header ++ [line] }
        else st, w)
    | some cur =>
      if cur.MultiLine && matched then some (st, w)
      else
        let ts := (mapGet st.matched cur.Name).getD cur
        let ts := { ts with Lines := ts.Lines ++ [line] }
        let st := { st with matched := mapSet st.matched cur.Name ts }
        some (if !cur.MultiLine then { st with currentTagger := none } else st, w)

/-- The inner loop of `sectionedParser.Parse` over the lines of one comment;
the flag tells whether `break COMMENTS` was taken. -/
def sectionedParser.parseComment {σ : Type} (U : UnicodeTables) :
    List Str → sectionedParser σ → σ → sectionedParser σ × σ × Bool
  | [], st, w => (st, w, false)
  | line :: rest, st, w =>
    match st.parseLine U w line with
    | none => (st, w, true)
    | some (st, w) => sectionedParser.parseComment U rest st w

/-- The loop `COMMENTS` of `sectionedParser.Parse` over the comments of a
group, each given by its text. -/
def sectionedParser.parseComments {σ : Type} (U : UnicodeTables) :
    List Str → sectionedParser σ → σ → sectionedParser σ × σ
  | [], st, w => (st, w)
  | c :: rest, st, w =>
    match sectionedParser.parseComment U (splitLines c) st w with
    | (st, w, true) => (st, w)
    | (st, w, false) => sectionedParser.parseComments U rest st w

/-- The last loop of `sectionedParser.Parse`, over the entries of `matched`
(visited here in the order in which they were first stored; Go leaves the order
open). The outer `none` is a run-time panic. -/
def sectionedParser.parseMatched {σ : Type} (U : UnicodeTables) :
    List (Str × tagParser σ) → σ → Option (Option GoError × σ)
  | [], w => some (none, w)
  | (_, mt) :: rest, w =>
    match cleanup U mt.Lines with
    | none => none
    | some lines =>
      match mt.Parse lines w with
      | (some err, w) => some (some err, w)
      | (none, w) => sectionedParser.parseMatched U rest w

/-- The method `sectionedParser.Parse` on a comment group (`none` for a nil
group). It yields the error returned, the parser and the targets afterwards;
the outer `none` is a run-time panic. -/
def sectionedParser.Parse {σ : Type} (U : UnicodeTables) (st : sectionedParser σ) (w : σ)
    (doc : Option (List Str)) : Option (Option GoError × sectionedParser σ × σ) :=
  match doc with
  | none => some (none, st, w)
  | some comments =>
    let (st, w) := sectionedParser.parseComments U comments st w
    let afterTitle : Option (sectionedParser σ × σ) :=
      match st.setTitle with
      | some set => (st.Title U).map (fun r => (r.2, set r.1 w))
      | none => some (st, w)
    match afterTitle with
    | none => none
    | some (st, w) =>
      let afterDescription : Option (sectionedParser σ × σ) :=
        match st.setDescription with
        | some set => (st.Description U).map (fun r => (r.2, set r.1 w))
        | none => some (st, w)
      match afterDescription with
      | none => none
      | some (st, w) =>
        (sectionedParser.parseMatched U st.matched w).map (fun r => (r.1, st, r.2))

/-! ## The directive value parsers of `validators.go` -/

/-- A decimal number `(-1)^neg * mant / 10^scale`. It stands for the `float64`
that `strconv.ParseFloat` rounds it to. -/
structure Decimal where
  neg : Bool
  mant : Nat
  scale : Nat
  deriving DecidableEq, Repr

/-- The value of an ASCII decimal digit. -/
def digitVal (c : Char) : Option Nat :=
  if 48 ≤ c.toNat ∧ c.toNat ≤ 57 then some (c.toNat - 48) else none

/-- The number written by a string of ASCII decimal digits, continuing from
`acc`; `none` when a character is not such a digit. -/
def parseDigits : Str → Nat → Option Nat
  | [], acc => some acc
  | c :: t, acc =>
    match digitVal c with
    | some d => parseDigits t (acc * 10 + d)
    | none => none

/-- The least magnitude that rounds beyond the largest `float64`,
`2^1024 - 2^970`, halfway between the largest `float64` and `2^1024`. -/
def float64Limit : Nat :=
  179769313486231580793728971405303415079934132710037826936173778980444968292764750946649017977587207096330286416692887910946555547851940402630657488671505820681908902000708383676273854845817711531764475730270069855571366959622842914819860834936475292719074168444365510704342711559699508093042880177904174497792

/-- The function `strconv.ParseFloat(s, 64)`, modelled on the texts the
patterns of this package hand to it: an optional sign, then digit characters
with at most one point. On these a character that is not an ASCII digit (or a
second point) is a syntax error, and a magnitude that rounds beyond the largest
`float64` (at least `float64Limit`) is a range error. Texts with an exponent,
hexadecimal digits, underscores, `inf` or `nan` lie outside the model. -/
def ParseFloat (s : Str) : Except GoError Decimal :=
  let (neg, body) : Bool × Str :=
    match s with
    | '+' :: t => (false, t)
    | '-' :: t => (true, t)
    | _ => (false, s)
  let intPart := body.takeWhile (fun c => c ≠ '.')
  let fracPart := (body.dropWhile (fun c => c ≠ '.')).drop 1
  if intPart ++ fracPart = [] then .error (.badNumber "ParseFloat" s)
  else
    match parseDigits (intPart ++ fracPart) 0 with
    | none => .error (.badNumber "ParseFloat" s)
    | some mant =>
      if float64Limit * 10 ^ fracPart.length ≤ mant then
        .error (.outOfRange "ParseFloat" s)
      else .ok ⟨neg, mant, fracPart.length⟩

/-- The function `strconv.ParseBool`. -/
def ParseBool (s : Str) : Except GoError Bool :=
  if s ∈ ["1".toList, "t".toList, "T".toList, "TRUE".toList, "true".toList, "True".toList] then
    .ok true
  else if s ∈ ["0".toList, "f".toList, "F".toList, "FALSE".toList, "false".toList,
      "False".toList] then
    .ok false
  else .error (.badNumber "ParseBool" s)

/-- A call received through the interface `validationBuilder`. -/
inductive BuilderCall
  | SetMaximum (v : Decimal) (exclusive : Bool)
  | SetMinimum (v : Decimal) (exclusive : Bool)
  | SetMultipleOf (v : Decimal)
  | SetMinItems (n : Int)
  | SetMaxItems (n : Int)
  | SetMinLength (n : Int)
  | SetMaxLength (n : Int)
  | SetPattern (p : Str)
  | SetUnique (u : Bool)
  deriving DecidableEq, Repr

/-- A `validationBuilder`, as the calls it has received, oldest first. -/
abbrev validationBuilder := List BuilderCall

/-- The struct `setMaximum` (its builder is passed to `Parse`). -/
structure setMaximum where
  rx : Regex

/-- The method `setMaximum.Matches`. -/
def setMaximum.Matches (U : UnicodeTables) (sm : setMaximum) (line : Str) : Bool :=
  MatchString U sm.rx line

/-- The method `setMaximum.Parse`. -/
def setMaximum.Parse (U : UnicodeTables) (sm : setMaximum) (lines : List Str)
    (builder : validationBuilder) : Option GoError × validationBuilder :=
  match lines with
  | [] => (none, builder)
  | l0 :: tl =>
    if tl.length = 0 ∧ l0.length = 0 then (none, builder)
    else
      let submatches := FindStringSubmatch U sm.rx l0
      if submatches.length > 2 ∧ (submatches.getD 2 []).length > 0 then
        match ParseFloat (submatches.getD 2 []) with
        | .error err => (some err, builder)
        | .ok max => (none, builder ++ [.SetMaximum max (submatches.getD 1 [] == "<".toList)])
      else (none, builder)

/-- The struct `setMinimum`. -/
structure setMinimum where
  rx : Regex

/-- The method `setMinimum.Matches`. -/
def setMinimum.Matches (U : UnicodeTables) (sm : setMinimum) (line : Str) : Bool :=
  MatchString U sm.rx line

/-- The method `setMinimum.Parse`. -/
def setMinimum.Parse (U : UnicodeTables) (sm : setMinimum) (lines : List Str)
    (builder : validationBuilder) : Option GoError × validationBuilder :=
  match lines with
  | [] => (none, builder)
  | l0 :: tl =>
    if tl.length = 0 ∧ l0.length = 0 then (none, builder)
    else
      let submatches := FindStringSubmatch U sm.rx l0
      if submatches.length > 2 ∧ (submatches.getD 2 []).length > 0 then
        match ParseFloat (submatches.getD 2 []) with
        | .error err => (some err, builder)
        | .ok min => (none, builder ++ [.SetMinimum min (submatches.getD 1 [] == ">".toList)])
      else (none, builder)

/-- The struct `setMultipleOf`. -/
structure setMultipleOf where
  rx : Regex

/-- The method `setMultipleOf.Matches`. -/
def setMultipleOf.Matches (U : UnicodeTables) (sm : setMultipleOf) (line : Str) : Bool :=
  MatchString U sm.rx line

/-- The method `setMultipleOf.Parse`. -/
def setMultipleOf.Parse (U : UnicodeTables) (sm : setMultipleOf) (lines : List Str)
    (builder : validationBuilder) : Option GoError × validationBuilder :=
  match lines with
  | [] => (none, builder)
  | l0 :: tl =>
    if tl.length = 0 ∧ l0.length = 0 then (none, builder)
    else
      let submatches := FindStringSubmatch U sm.rx l0
      if submatches.length > 2 ∧ (submatches.getD 1 []).length > 0 then
        match ParseFloat (submatches.getD 1 []) with
        | .error err => (some err, builder)
        | .ok multipleOf => (none, builder ++ [.SetMultipleOf multipleOf])
      else (none, builder)

/-- The part of `spec.Schema` that `setRequiredSchema` writes. -/
structure Schema where
  Required : List Str
  deriving DecidableEq, Repr

/-- The struct `setRequiredSchema` (its schema is passed to `Parse`). -/
structure setRequiredSchema where
  field : Str

/-- The method `setRequiredSchema.Matches`. -/
def setRequiredSchema.Matches (U : UnicodeTables) (_su : setRequiredSchema) (line : Str) : Bool :=
  MatchString U rxRequired line

/-- The index of the first entry equal to `field`, or `-1`: the loop over
`su.schema.Required` in `setRequiredSchema.Parse`. -/
def requiredIndex (field : Str) : List Str → Nat → Int
  | [], _ => -1
  | nm :: rest, i => if nm = field then (i : Int) else requiredIndex field rest (i + 1)

/-- The method `setRequiredSchema.Parse`. -/
def setRequiredSchema.Parse (U : UnicodeTables) (su : setRequiredSchema) (lines : List Str)
    (schema : Schema) : Option GoError × Schema :=
  match lines with
  | [] => (none, schema)
  | l0 :: tl =>
    if tl.length = 0 ∧ l0.length = 0 then (none, schema)
    else
      let submatches := FindStringSubmatch U rxRequired l0
      if submatches.length > 1 ∧ (submatches.getD 1 []).length > 0 then
        match ParseBool (submatches.getD 1 []) with
        | .error err => (some err, schema)
        | .ok req =>
          let midx := requiredIndex su.field schema.Required 0
          if req then
            if midx < 0 then (none, { schema with Required := schema.Required ++ [su.field] })
            else (none, schema)
          else if midx ≥ 0 then
            (none, { schema with
              Required := schema.Required.take midx.toNat ++ schema.Required.drop (midx.toNat + 1) })
          else (none, schema)
      else (none, schema)

/-- The struct `multiLineDropEmptyParser`. -/
structure multiLineDropEmptyParser (σ : Type) where
  set : List Str → σ → σ
  rx : Regex

/-- The methods `Matches` and `Parse` of `multiLineDropEmptyParser`, as a
`valueParser`. -/
def multiLineDropEmptyParser.toValueParser {σ : Type} (U : UnicodeTables)
    (m : multiLineDropEmptyParser σ) : valueParser σ where
  Matches line := MatchString U m.rx line
  Parse lines w := (none, m.set (removeEmptyLines lines) w)

/-- The function `newMultilineDropEmptyParser`. -/
def newMultilineDropEmptyParser {σ : Type} (rx : Regex) (set : List Str → σ → σ) :
    multiLineDropEmptyParser σ :=
  { rx := rx, set := set }

/-! ## Auxiliary definitions for the statements -/

/-- The tail shared by `rxMaximumFmt` and `rxMinimumFmt`: an optional marker
from `[ab]` in group 1, spaces, a signed decimal in group 2, end of text. -/
def boundTail (a b : Char) : List Regex :=
  [Regex.opt (.grp 1 (.cls false [.ch a, .ch b])), .star pZs, .grp 2 rxSignedDecimal, .eot]

/-- The line grammars of the validation, location, required and read-only
directives (without an items scope), each with the lower-case and the
upper-case form of the first letter of a keyword it accepts. -/
def directiveGrammars : List (Regex × Char × Char) :=
  [(rxf rxMaximumFmt .eps, 'm', 'M'), (rxf rxMinimumFmt .eps, 'm', 'M'),
    (rxf rxMultipleOfFmt .eps, 'm', 'M'), (rxf rxMaxLengthFmt .eps, 'm', 'M'),
    (rxf rxMinLengthFmt .eps, 'm', 'M'), (rxf rxPatternFmt .eps, 'p', 'P'),
    (rxf rxCollectionFormatFmt .eps, 'c', 'C'), (rxf rxMaxItemsFmt .eps, 'm', 'M'),
    (rxf rxMinItemsFmt .eps, 'm', 'M'), (rxf rxUniqueFmt .eps, 'u', 'U'),
    (rxIn, 'i', 'I'), (rxIn, 's', 'S'), (rxRequired, 'r', 'R'), (rxReadOnly, 'r', 'R')]

variable {σ : Type}

/-- The index of the first line with content after stripping. -/
def firstContent (U : UnicodeTables) : List Str → Option Nat
  | [] => none
  | v :: rest => if stripComment U v ≠ [] then some 0 else (firstContent U rest).map (· + 1)

/-- The index of the last line with content after stripping. -/
def lastContent (U : UnicodeTables) : List Str → Option Nat
  | [] => none
  | v :: rest =>
    match lastContent U rest with
    | some k => some (k + 1)
    | none => if stripComment U v ≠ [] then some 0 else none

/-- A blank line: nothing is left of it after `strings.TrimSpace`. -/
def isBlank (l : Str) : Bool := trimSpace l == []

/-- Whether the last character of a line is in the class Po. -/
def endsInPunctuation (U : UnicodeTables) (l : Str) : Bool :=
  match l.getLast? with
  | some c => U.cat .Po c
  | none => false

/-- The title of a cleaned header, in the words of the specification. -/
def titleOf (U : UnicodeTables) (H : List Str) : List Str :=
  if H.any isBlank then H.takeWhile (fun l => !isBlank l)
  else
    match H with
    | l :: _ => if endsInPunctuation U l then [l] else []
    | [] => []

/-- The description of a cleaned header, in the words of the specification. -/
def descriptionOf (U : UnicodeTables) (H : List Str) : List Str :=
  if H.any isBlank then (H.dropWhile (fun l => !isBlank l)).drop 1
  else
    match H with
    | l :: rest => if endsInPunctuation U l then rest else H
    | [] => []

/-- The lines of a comment group in reading order. -/
def commentLines (doc : List Str) : List Str := doc.flatMap splitLines

/-- The lines captured so far under a tag name. -/
def sectionedParser.captured (st : sectionedParser σ) (name : Str) : List Str :=
  ((mapGet st.matched name).map (fun t => t.Lines)).getD []

/-- A line with the swagger marker that the parser's own grammar does not
accept (or that meets a parser without such a grammar). -/
def foreignLine (U : UnicodeTables) (ann : Option (valueParser σ)) (line : Str) : Bool :=
  MatchString U rxSwaggerAnnotation line &&
    (match ann with
     | none => true
     | some a => !a.Matches line)

/-- The tagger that the loop over the taggers selects for a line: none for a
line with the swagger marker, which never reaches that loop, else the first
tagger whose `Matches` accepts the line. -/
def tagMatch (U : UnicodeTables) (taggers : List (tagParser σ)) (line : Str) :
    Option (tagParser σ) :=
  if MatchString U rxSwaggerAnnotation line then none
  else taggers.find? (fun tagger => tagger.Matches line)

/-- The lines that follow a tag match up to the next one, without the lines
that carry the swagger marker. -/
def following (U : UnicodeTables) (taggers : List (tagParser σ)) (lines : List Str) : List Str :=
  (lines.takeWhile (fun x => (tagMatch U taggers x).isNone)).filter
    (fun x => !MatchString U rxSwaggerAnnotation x)

/-- The content of a multi-line tag, in the words of the specification: after
every line on which the tag is matched, the following lines up to the next tag
match. -/
def capturedSpec (U : UnicodeTables) (taggers : List (tagParser σ)) (name : Str) :
    List Str → List Str
  | [] => []
  | l :: rest =>
    (if (tagMatch U taggers l).map (fun t => t.Name) = some name then following U taggers rest
      else []) ++ capturedSpec U taggers name rest

/-- The name of the active tagger after a line, from the name before it. -/
def nextCur (U : UnicodeTables) (taggers : List (tagParser σ)) (cur : Option Str) (l : Str) :
    Option Str :=
  if MatchString U rxSwaggerAnnotation l then cur
  else
    match taggers.find? (fun tagger => tagger.Matches l) with
    | some tg => if tg.MultiLine then some tg.Name else none
    | none => cur

/-- The lines a line adds to the content kept under `name`. -/
def emit (U : UnicodeTables) (taggers : List (tagParser σ)) (cur : Option Str) (l : Str)
    (name : Str) : List Str :=
  if MatchString U rxSwaggerAnnotation l then []
  else
    match taggers.find? (fun tagger => tagger.Matches l) with
    | some tg => if tg.MultiLine then [] else if tg.Name = name then [l] else []
    | none => if cur = some name then [l] else []

/-- The lines a run of lines adds to the content kept under `name`. -/
def emits (U : UnicodeTables) (taggers : List (tagParser σ)) (name : Str) :
    Option Str → List Str → List Str
  | _, [] => []
  | cur, l :: rest => emit U taggers cur l name ++ emits U taggers name (nextCur U taggers cur l) rest

/-- The active tagger, if any, is a registered multi-line tagger. -/
def sectionedParser.curOK (st : sectionedParser σ) : Prop :=
  ∀ c, st.currentTagger = some c → c ∈ st.taggers ∧ c.MultiLine = true

/-- A parser as `new(sectionedParser)` leaves it: every field zero. -/
def sectionedParser.new {σ : Type} : sectionedParser σ :=
  { header := [], matched := [], annotation := none, seenTag := false, skipHeader := false,
    setTitle := none, setDescription := none, workedOutTitle := false, taggers := [],
    currentTagger := none, title := [], description := [] }

/-- A parser with a title setter whose header has been collected. -/
def headerParser (header : List Str) : sectionedParser Unit :=
  { sectionedParser.new with setTitle := some (fun _ w => w), header := header }

/-- The consumes and produces lists of an operation. -/
structure Operation where
  Consumes : List Str
  Produces : List Str
  deriving DecidableEq, Repr

/-- The pattern `rxProduces`, `[Pp]roduces\p{Zs}*:`. -/
def rxProduces : Regex :=
  .cat [.cls false [.ch 'P', .ch 'p'], .str "roduces".toList, .star pZs, .chr ':']

/-- The multi-line tag of the consumes directive of an operation. -/
def consumesTag : tagParser Operation :=
  newMultiLineTagParser "Consumes".toList
    (multiLineDropEmptyParser.toValueParser latin1 (newMultilineDropEmptyParser rxConsumes
      (fun lines (op : Operation) => { op with Consumes := lines })))

/-- The multi-line tag of the produces directive of an operation. -/
def producesTag : tagParser Operation :=
  newMultiLineTagParser "Produces".toList
    (multiLineDropEmptyParser.toValueParser latin1 (newMultilineDropEmptyParser rxProduces
      (fun lines (op : Operation) => { op with Produces := lines })))

/-- A parser with the two multi-line tags of an operation's media types and a
title and a description setter of no effect. -/
def mediaParser : sectionedParser Operation :=
  { sectionedParser.new with
    setTitle := some (fun _ w => w)
    setDescription := some (fun _ w => w)
    taggers := [consumesTag, producesTag] }

/-- The methods of `setRequiredSchema` as a `valueParser`. -/
def setRequiredSchema.toValueParser (U : UnicodeTables) (su : setRequiredSchema) :
    valueParser Schema where
  Matches := su.Matches U
  Parse := su.Parse U

/-- The single-line tag of the required directive of the schema field `id`. -/
def requiredTag : tagParser Schema :=
  newSingleLineTagParser "required".toList (setRequiredSchema.toValueParser latin1 ⟨"id".toList⟩)

/-- A parser for the comment of the schema field `id`, with the single-line
tag of the required directive and a title setter of no effect. -/
def fieldParser : sectionedParser Schema :=
  { sectionedParser.new with
    setTitle := some (fun _ w => w)
    taggers := [requiredTag] }

/-- A parser restricted to the model grammar `rxModelOverride`, with the
multi-line tag of the consumes directive. -/
def modelParser : sectionedParser Operation :=
  { sectionedParser.new with
    annotation := some
      { Matches := fun line => MatchString latin1 rxModelOverride line
        Parse := fun _ w => (none, w) }
    taggers := [consumesTag] }

/-- A comment with a consumes and a produces section. -/
def mediaComment : Str :=
  "// Lists pets.\n// Consumes:\n// application/json\n// Produces:\n// text/plain".toList

/-- A line with a maximum far beyond the largest `float64`: `Max: 1` followed
by 309 zeros. -/
def hugeMaximumLine : Str := "Max: 1".toList ++ List.replicate 309 '0'

/-! ## More patterns, string helpers and value parsers -/

/-- The pattern `rxSecurity`, `[Ss]ecurity\p{Zs}*:`. -/
def rxSecurity : Regex :=
  .cat [.cls false [.ch 'S', .ch 's'], .str "ecurity".toList, .star pZs, .chr ':']

/-- The pattern `rxResponses`, `[Rr]esponses\p{Zs}*:`. -/
def rxResponses : Regex :=
  .cat [.cls false [.ch 'R', .ch 'r'], .str "esponses".toList, .star pZs, .chr ':']

/-- The pattern `rxSchemes`,
`[Ss]chemes\p{Zs}*:\p{Zs}*((?:(?:https?|HTTPS?|wss?|WSS?)[\p{Zs},]*)+)$`. -/
def rxSchemes : Regex :=
  .cat [.cls false [.ch 'S', .ch 's'], .str "chemes".toList, .star pZs, .chr ':', .star pZs,
    .grp 1 (Regex.plus (.seq
      (.alt (.seq (.str "http".toList) (Regex.opt (.chr 's')))
        (.alt (.seq (.str "HTTP".toList) (Regex.opt (.chr 'S')))
          (.alt (.seq (.str "ws".toList) (Regex.opt (.chr 's')))
            (.seq (.str "WS".toList) (Regex.opt (.chr 'S'))))))
      (.star (.cls false [.cat .Zs, .ch ','])))),
    .eot]

/-- The loop of `Split`: `skip` characters of a separator just found are still
to be passed over, `cur` is the piece read so far. -/
def splitLoop (sep : Str) : Str → Nat → Str → List Str
  | [], _, cur => [cur]
  | _ :: t, skip + 1, cur => splitLoop sep t skip cur
  | c :: t, 0, cur =>
    if sep.isPrefixOf (c :: t) then cur :: splitLoop sep t (sep.length - 1) []
    else splitLoop sep t 0 (cur ++ [c])

/-- The function `strings.Split(s, sep)` for a non-empty separator: the pieces
between the occurrences of `sep`, found from left to right. -/
def Split (s sep : Str) : List Str := splitLoop sep s 0 []

/-- The call `strings.SplitN(s, sep, 2)` for a separator of one character: the
text alone when it has no separator, else the text before the first separator
and the text after it. -/
def SplitN (s : Str) (sep : Char) : List Str :=
  match s.dropWhile (fun c => c ≠ sep) with
  | [] => [s]
  | _ :: after => [s.takeWhile (fun c => c ≠ sep), after]

/-- The replacement `rxNotAlNumSpaceComma.ReplaceAllString(s, "")`: the pattern
`[^\p{L}\p{N}\p{Zs},]` matches one character, so every character outside the
letters, the numbers, the space separators and the comma is removed. -/
def stripNotAlNumSpaceComma (U : UnicodeTables) (s : Str) : Str :=
  s.filter (fun c => !classMem U true [.cat .L, .cat .N, .cat .Zs, .ch ','] c)

/-- The largest `int` (64 bits). -/
def maxInt : Nat := 9223372036854775807

/-- The function `strconv.Atoi` with an `int` of 64 bits: an optional sign and
ASCII decimal digits, within the range of `int`. -/
def Atoi (s : Str) : Except GoError Int :=
  let (neg, body) : Bool × Str :=
    match s with
    | '+' :: t => (false, t)
    | '-' :: t => (true, t)
    | _ => (false, s)
  if body = [] then .error (.badNumber "Atoi" s)
  else
    match parseDigits body 0 with
    | none => .error (.badNumber "Atoi" s)
    | some n =>
      if neg then
        if n ≤ maxInt + 1 then .ok (-(n : Int)) else .error (.outOfRange "Atoi" s)
      else if n ≤ maxInt then .ok (n : Int) else .error (.outOfRange "Atoi" s)

/-- The upper-case ASCII letters brought to lower case. -/
def asciiLower (c : Char) : Char :=
  if 65 ≤ c.toNat ∧ c.toNat ≤ 90 then Char.ofNat (c.toNat + 32) else c

/-- The function `strings.EqualFold` when one of the texts is made of ASCII
letters other than `k` and `s` (the two with a further case variant outside
ASCII): equality up to the case of the ASCII letters. -/
def EqualFold (s t : Str) : Bool :=
  s.map asciiLower == t.map asciiLower

/-- The struct `setSchemes` (the target of its setter is passed to `Parse`). -/
structure setSchemes (σ : Type) where
  set : List Str → σ → σ
  rx : Regex

/-- The function `newSetSchemes`. -/
def newSetSchemes {σ : Type} (set : List Str → σ → σ) : setSchemes σ :=
  { set := set, rx := rxSchemes }

/-- The method `setSchemes.Matches`. -/
def setSchemes.Matches {σ : Type} (U : UnicodeTables) (ss : setSchemes σ) (line : Str) : Bool :=
  MatchString U ss.rx line

/-- The loop over `sch` in `setSchemes.Parse`. -/
def schemesLoop : List Str → List Str → List Str
  | [], schemes => schemes
  | s :: rest, schemes =>
    let ts := trimSpace s
    if ts ≠ [] then schemesLoop rest (schemes ++ [ts]) else schemesLoop rest schemes

/-- The method `setSchemes.Parse`. -/
def setSchemes.Parse {σ : Type} (U : UnicodeTables) (ss : setSchemes σ) (lines : List Str)
    (w : σ) : Option GoError × σ :=
  match lines with
  | [] => (none, w)
  | l0 :: tl =>
    if tl.length = 0 ∧ l0.length = 0 then (none, w)
    else
      let submatches := FindStringSubmatch U ss.rx l0
      if submatches.length > 1 ∧ (submatches.getD 1 []).length > 0 then
        let sch := Split (submatches.getD 1 []) ", ".toList
        (none, ss.set (schemesLoop sch []) w)
      else (none, w)

/-- A Go `map[string][]string`, as its entries. -/
abbrev ScopeMap := List (Str × List Str)

/-- The struct `setSecurityDefinitions`. -/
structure setSecurityDefinitions (σ : Type) where
  set : List ScopeMap → σ → σ
  rx : Regex

/-- The function `newSetSecurityDefinitions`. -/
def newSetSecurityDefinitions {σ : Type} (setter : List ScopeMap → σ → σ) :
    setSecurityDefinitions σ :=
  { set := setter, rx := rxSecurity }

/-- The method `setSecurityDefinitions.Matches`. -/
def setSecurityDefinitions.Matches {σ : Type} (U : UnicodeTables)
    (ss : setSecurityDefinitions σ) (line : Str) : Bool :=
  MatchString U ss.rx line

/-- The loop over `scs` in `setSecurityDefinitions.Parse`. -/
def scopesLoop : List Str → List Str → List Str
  | [], scopes => scopes
  | scope :: rest, scopes =>
    let tr := trimSpace scope
    if tr ≠ [] then scopesLoop rest (scopes ++ [trimSpace scope]) else scopesLoop rest scopes

/-- The loop over `lines` in `setSecurityDefinitions.Parse`. -/
def securityLoop (U : UnicodeTables) : List Str → List ScopeMap → List ScopeMap
  | [], result => result
  | line :: rest, result =>
    let kv := SplitN line ':'
    if kv.length > 1 then
      let scs := Split (stripNotAlNumSpaceComma U (kv.getD 1 [])) ",".toList
      let scopes := scopesLoop scs []
      let key := trimSpace (kv.getD 0 [])
      securityLoop U rest (result ++ [[(key, scopes)]])
    else securityLoop U rest result

/-- The method `setSecurityDefinitions.Parse`. -/
def setSecurityDefinitions.Parse {σ : Type} (U : UnicodeTables) (ss : setSecurityDefinitions σ)
    (lines : List Str) (w : σ) : Option GoError × σ :=
  match lines with
  | [] => (none, w)
  | l0 :: tl =>
    if tl.length = 0 ∧ l0.length = 0 then (none, w)
    else (none, ss.set (securityLoop U lines []) w)

/-- The type `spec.Ref`, as the text of the reference. -/
structure Ref where
  uri : Str
  deriving DecidableEq, Repr

/-- The part of `spec.Response` that `setOpResponses` writes. -/
structure Response where
  Ref : Ref
  deriving DecidableEq, Repr

/-- Reading a Go `map[int]V`, kept as a list of entries with distinct keys. -/
def codeGet {V : Type} (m : List (Int × V)) (k : Int) : Option V :=
  (m.find? (fun e => e.1 == k)).map (fun e => e.2)

/-- Writing a Go `map[int]V`: replace the entry of the key or add one. -/
def codeSet {V : Type} : List (Int × V) → Int → V → List (Int × V)
  | [], k, v => [(k, v)]
  | e :: m, k, v => if e.1 == k then (k, v) :: m else e :: codeSet m k v

/-- The struct `setOpResponses`. -/
structure setOpResponses (σ : Type) where
  set : Option Response → List (Int × Response) → σ → σ
  rx : Regex
  definitions : List (Str × Schema)
  responses : List (Str × Response)

/-- The function `newSetResponses2`. -/
def newSetResponses2 {σ : Type} (definitions : List (Str × Schema))
    (responses : List (Str × Response))
    (setter : Option Response → List (Int × Response) → σ → σ) : setOpResponses σ :=
  { set := setter, rx := rxResponses, definitions := definitions, responses := responses }

/-- The function `newSetResponses`. -/
def newSetResponses {σ : Type} (setter : Option Response → List (Int × Response) → σ → σ) :
    setOpResponses σ :=
  { set := setter, rx := rxResponses, definitions := [], responses := [] }

/-- The method `setOpResponses.Matches`. -/
def setOpResponses.Matches {σ : Type} (U : UnicodeTables) (ss : setOpResponses σ)
    (line : Str) : Bool :=
  MatchString U ss.rx line

/-- The reference of a line of `setOpResponses.Parse` with name `value`:
`#/responses/value`, replaced by `#/definitions/value` when `value` is no known
response but a known definition; with the error of the last call of
`spec.NewRef`, which is the parameter `newRef`. -/
def responseRef {σ : Type} (newRef : Str → Except GoError Ref) (ss : setOpResponses σ)
    (value : Str) : Except GoError Ref :=
  let first := newRef ("#/responses/".toList ++ value)
  if (mapGet ss.responses value).isNone then
    if (mapGet ss.definitions value).isSome then newRef ("#/definitions/".toList ++ value)
    else first
  else first

/-- The loop over `lines` in `setOpResponses.Parse`, from the default `d` and
the status map `scr` so far; an error is the error returned from inside the
loop. -/
def responsesLoop {σ : Type} (newRef : Str → Except GoError Ref) (ss : setOpResponses σ) :
    List Str → Option Response → List (Int × Response) →
      Except GoError (Option Response × List (Int × Response))
  | [], d, scr => .ok (d, scr)
  | line :: rest, d, scr =>
    let kv := SplitN line ':'
    if kv.length > 1 then
      let key := trimSpace (kv.getD 0 [])
      if key = [] then responsesLoop newRef ss rest d scr
      else
        let value := trimSpace (kv.getD 1 [])
        if value = [] then .error (.errorf "no name for %q response" [key])
        else
          match responseRef newRef ss value with
          | .error err => .error err
          | .ok ref =>
            let resp : Response := { Ref := ref }
            if EqualFold "default".toList key then
              responsesLoop newRef ss rest (if d.isNone then some resp else d) scr
            else
              match Atoi key with
              | .ok sc => responsesLoop newRef ss rest d (codeSet scr sc resp)
              | .error _ => responsesLoop newRef ss rest d scr
    else responsesLoop newRef ss rest d scr

/-- The method `setOpResponses.Parse`; `newRef` is the function `spec.NewRef`. -/
def setOpResponses.Parse {σ : Type} (newRef : Str → Except GoError Ref)
    (ss : setOpResponses σ) (lines : List Str) (w : σ) : Option GoError × σ :=
  match lines with
  | [] => (none, w)
  | l0 :: tl =>
    if tl.length = 0 ∧ l0.length = 0 then (none, w)
    else
      match responsesLoop newRef ss lines none [] with
      | .error err => (some err, w)
      | .ok (d, scr) => (none, ss.set d scr w)

/-- Modelled from the spec: the function `spec.NewRef` of package `spec`, which
is not among the source files; a reference is the text it is made from, and
every text makes one (`ref(name)` in the specification). -/
def NewRef (uri : Str) : Except GoError Ref := .ok { uri := uri }

/-! ## Type resolution of `scanner.go` -/

/-- A call received through the interface `swaggerTypable`. -/
inductive TypableCall
  | Typed (tpe format : Str)
  | SetRef (ref : Ref)
  deriving DecidableEq, Repr

/-- A `swaggerTypable`, as the calls it has received, oldest first. -/
abbrev swaggerTypable := List TypableCall

/-- The function `swaggerSchemaForType`. -/
def swaggerSchemaForType (typeName : Str) (prop : swaggerTypable) :
    Option GoError × swaggerTypable :=
  if typeName = "bool".toList then (none, prop ++ [.Typed "boolean".toList []])
  else if typeName = "rune".toList ∨ typeName = "string".toList then
    (none, prop ++ [.Typed "string".toList []])
  else if typeName = "int8".toList then (none, prop ++ [.Typed "number".toList "int8".toList])
  else if typeName = "int16".toList then (none, prop ++ [.Typed "number".toList "int16".toList])
  else if typeName = "int32".toList then (none, prop ++ [.Typed "number".toList "int32".toList])
  else if typeName = "int".toList ∨ typeName = "int64".toList then
    (none, prop ++ [.Typed "number".toList "int64".toList])
  else if typeName = "uint8".toList then (none, prop ++ [.Typed "number".toList "uint8".toList])
  else if typeName = "uint16".toList then
    (none, prop ++ [.Typed "number".toList "uint16".toList])
  else if typeName = "uint32".toList then
    (none, prop ++ [.Typed "number".toList "uint32".toList])
  else if typeName = "uint".toList ∨ typeName = "uint64".toList then
    (none, prop ++ [.Typed "number".toList "uint64".toList])
  else if typeName = "float32".toList then
    (none, prop ++ [.Typed "number".toList "float".toList])
  else if typeName = "float64".toList then
    (none, prop ++ [.Typed "number".toList "double".toList])
  else (none, prop)

/-- The expressions of package `ast` that `TypeForSelector` tells apart. -/
inductive Expr
  | Ident (Name : Str)
  | SelectorExpr (X : Expr) (Sel : Str)
  | StructType
  | other
  deriving DecidableEq, Repr

/-- The struct `ast.TypeSpec`; a nil `Name` is `none`, and `Typ` is its field
`Type`. -/
structure TypeSpec where
  Name : Option Str
  Typ : Expr
  deriving DecidableEq, Repr

/-- The specs of a general declaration: type specs and the others. -/
inductive Spec
  | TypeSpec (ts : TypeSpec)
  | other
  deriving DecidableEq, Repr

/-- The struct `ast.GenDecl`; `Doc` holds the texts of the comments of its
comment group, `none` for a nil group. -/
structure GenDecl where
  Doc : Option (List Str)
  Specs : List Spec
  deriving DecidableEq, Repr

/-- The declarations of a file: general declarations and the others. -/
inductive Decl
  | GenDecl (gd : GenDecl)
  | other
  deriving DecidableEq, Repr

/-- The struct `ast.ImportSpec`: the local name, `none` when nil, and
`Path.Value`, the path as written, with its quotes. -/
structure ImportSpec where
  Name : Option Str
  Path : Str
  deriving DecidableEq, Repr

/-- The struct `ast.File`, as far as `TypeForSelector` reads it. -/
structure File where
  Imports : List ImportSpec
  Decls : List Decl
  deriving DecidableEq, Repr

/-- A package of the loaded program: its files. -/
structure PackageInfo where
  Files : List File
  deriving DecidableEq, Repr

/-- The struct `schemaDecl`. -/
structure schemaDecl where
  File : File
  Decl : GenDecl
  TypeSpec : TypeSpec
  GoName : Str
  Name : Str
  deriving DecidableEq, Repr

/-- The functions `TypeForSelector` calls that are not among the source files:
`strconv.Unquote`, `strfmtName`, `schemaDecl.inferNames`, `spec.NewRef` and
the lookup `program.Package` of the loaded program (`none` for nil). -/
structure Collaborators where
  Unquote : Str → Except GoError Str
  strfmtName : Option (List Str) → Option Str
  inferNames : schemaDecl → schemaDecl
  NewRef : Str → Except GoError Ref
  Package : Str → Option PackageInfo

/-- The property being typed and the declarations passed to `AddPostDecl`. -/
structure Typing where
  prop : swaggerTypable
  postDecls : List schemaDecl
  deriving DecidableEq, Repr

/-- The loop over `gofile.Imports` of `TypeForSelector`: the value of `selPath`
when the loop ends. -/
def importPath (co : Collaborators) (name : Str) : List ImportSpec → Str
  | [] => []
  | imp :: rest =>
    let pv : Str :=
      match co.Unquote imp.Path with
      | .ok v => v
      | .error _ => imp.Path
    match imp.Name with
    | some n => if n = name then pv else importPath co name rest
    | none =>
      let parts := Split pv "/".toList
      if parts.length > 0 ∧ parts.getLast? = some name then pv
      else importPath co name rest

/-- The type specs of a package in the order in which the nested loops over
files, declarations and specs visit them, each with its file and declaration. -/
def typeSpecs (pkg : PackageInfo) : List (File × GenDecl × TypeSpec) :=
  pkg.Files.flatMap (fun file =>
    file.Decls.flatMap (fun decl =>
      match decl with
      | .GenDecl gd =>
        gd.Specs.filterMap (fun gs =>
          match gs with
          | .TypeSpec ts => some (file, gd, ts)
          | .other => none)
      | .other => []))

/-- The reference to a struct declaration: `inferNames`, `spec.NewRef`,
`prop.SetRef` and `AddPostDecl`, as in both struct branches of
`TypeForSelector`. -/
def refToStruct (co : Collaborators) (file : File) (gd : GenDecl) (ts : TypeSpec)
    (t : Typing) : Option GoError × Typing :=
  let sd := co.inferNames { File := file, Decl := gd, TypeSpec := ts, GoName := [], Name := [] }
  match co.NewRef ("#/definitions/".toList ++ sd.Name) with
  | .error err => (some err, t)
  | .ok ref => (none, { prop := t.prop ++ [.SetRef ref], postDecls := t.postDecls ++ [sd] })

/-- The inner loops of the case `*ast.Ident` of `TypeForSelector`, looking for
the declaration named `name`; `none` when they end without a return. -/
def identLoop (co : Collaborators) (name : Str) (t : Typing) :
    List (File × GenDecl × TypeSpec) → Option (Option GoError × Typing)
  | [] => none
  | (fl, gdd, st) :: rest =>
    if st.Name = some name then
      if st.Typ = .StructType then some (refToStruct co fl gdd st t)
      else
        match co.strfmtName gdd.Doc with
        | some sfn => some (none, { t with prop := t.prop ++ [.Typed "string".toList sfn] })
        | none => identLoop co name t rest
    else identLoop co name t rest

/-- The outcome of a run of `TypeForSelector` with bounded recursion depth. -/
inductive Outcome
  | returned (err : Option GoError) (t : Typing)
  | outOfFuel
  deriving DecidableEq, Repr

/-- The outer loops of `TypeForSelector`, looking for the declaration named
`sel` in the package `pkg`; `again` is the recursive call on a selector, `none`
means the loops end without a return. -/
def selectorLoop (co : Collaborators) (again : File → Expr → Str → Typing → Outcome)
    (pkg : PackageInfo) (sel : Str) (t : Typing) :
    List (File × GenDecl × TypeSpec) → Option Outcome
  | [] => none
  | (file, gd, ts) :: rest =>
    if ts.Name = some sel then
      match co.strfmtName gd.Doc with
      | some name =>
        some (.returned none { t with prop := t.prop ++ [.Typed "string".toList name] })
      | none =>
        match ts.Typ with
        | .StructType =>
          let r := refToStruct co file gd ts t
          some (.returned r.1 r.2)
        | .Ident name =>
          match identLoop co name t (typeSpecs pkg) with
          | some r => some (.returned r.1 r.2)
          | none =>
            let r := swaggerSchemaForType name t.prop
            some (.returned r.1 { t with prop := r.2 })
        | .SelectorExpr x s => some (again file x s t)
        | .other => selectorLoop co again pkg sel t rest
    else selectorLoop co again pkg sel t rest

/-- The method `selectorParser.TypeForSelector` on the selector `x.sel` met in
`gofile`, with recursion depth bounded by the first argument. -/
def TypeForSelector (co : Collaborators) : Nat → File → Expr → Str → Typing → Outcome
  | 0, _, _, _, _ => .outOfFuel
  | fuel + 1, gofile, x, sel, t =>
    match x with
    | .Ident pth =>
      let selPath := importPath co pth gofile.Imports
      if selPath = [] then .returned (some (.errorf "no import found for %s" [pth])) t
      else
        match co.Package selPath with
        | none => .returned (some (.errorf "no package found for %s" [selPath])) t
        | some pkg =>
          match selectorLoop co (TypeForSelector co fuel) pkg sel t (typeSpecs pkg) with
          | some r => r
          | none =>
            .returned (some (.errorf "schema parser: no string format for %s.%s" [pth, sel])) t
    | _ => .returned (some (.errorf "schema parser: no string format for %v" [sel])) t

/-- The primitive kinds by type name, in the words of the specification: the
type and the format of the property. -/
def primitiveTable : List (Str × Str × Str) :=
  [("bool".toList, "boolean".toList, []), ("string".toList, "string".toList, []),
    ("rune".toList, "string".toList, []),
    ("int8".toList, "number".toList, "int8".toList),
    ("int16".toList, "number".toList, "int16".toList),
    ("int32".toList, "number".toList, "int32".toList),
    ("int".toList, "number".toList, "int64".toList),
    ("int64".toList, "number".toList, "int64".toList),
    ("uint8".toList, "number".toList, "uint8".toList),
    ("uint16".toList, "number".toList, "uint16".toList),
    ("uint32".toList, "number".toList, "uint32".toList),
    ("uint".toList, "number".toList, "uint64".toList),
    ("uint64".toList, "number".toList, "uint64".toList),
    ("float32".toList, "number".toList, "float".toList),
    ("float64".toList, "number".toList, "double".toList)]

/-! ## Auxiliary definitions for the statements on the value parsers -/

/-- Whether a line has a colon. -/
def hasColon (l : Str) : Bool := l.any (fun c => c == ':')

/-- The key of a line: the trimmed text before its first colon. -/
def lineKey (l : Str) : Str := trimSpace (l.takeWhile (fun c => c ≠ ':'))

/-- The text of a line after its first colon. -/
def afterColon (l : Str) : Str := (l.dropWhile (fun c => c ≠ ':')).drop 1

/-- The name of a line: the trimmed text after its first colon. -/
def lineValue (l : Str) : Str := trimSpace (afterColon l)

/-- The scope list of a security line as the code builds it: the text after
the first colon without the characters outside letters, numbers, space
separators and commas, cut at the commas, each piece trimmed, the empty pieces
dropped. -/
def scopesOf (U : UnicodeTables) (l : Str) : List Str :=
  ((Split (stripNotAlNumSpaceComma U (afterColon l)) ",".toList).map trimSpace).filter
    (fun s => s ≠ [])

/-- The scope list of a security line in the words of the claim: the pieces of
the text after the first colon between the commas, each trimmed and otherwise
verbatim, the empty pieces dropped. -/
def verbatimScopes (l : Str) : List Str :=
  ((Split (afterColon l) ",".toList).map trimSpace).filter (fun s => s ≠ [])

/-- A setter that keeps the value it is given. -/
def keep {α : Type} (v : α) (_ : α) : α := v

/-- A schemes parser whose setter keeps the schemes it is given. -/
def schemesParser : setSchemes (List Str) := newSetSchemes keep

/-- A security parser whose setter keeps the requirements it is given. -/
def securityParser : setSecurityDefinitions (List ScopeMap) := newSetSecurityDefinitions keep

/-- A line that `setOpResponses.Parse` reads as `key: name`: it has a colon and
a non-empty key. -/
def isEntry (l : Str) : Bool := hasColon l && lineKey l != []

/-- A line with a key and an empty name. -/
def emptyName (l : Str) : Bool := isEntry l && lineValue l == []

/-- A line whose key is `default` in any letter case. -/
def isDefaultLine (l : Str) : Bool := isEntry l && EqualFold "default".toList (lineKey l)

/-- A line whose key is the decimal integer `c` (as `strconv.Atoi` reads it). -/
def hasCode (l : Str) (c : Int) : Bool :=
  isEntry l &&
    (match Atoi (lineKey l) with
     | .ok v => v == c
     | .error _ => false)

/-- The text of the reference for a name: `#/definitions/name` for a name that
is no known response but a known definition, else `#/responses/name`. -/
def refURI {σ : Type} (ss : setOpResponses σ) (value : Str) : Str :=
  if (mapGet ss.responses value).isNone && (mapGet ss.definitions value).isSome then
    "#/definitions/".toList ++ value
  else "#/responses/".toList ++ value

/-- The default response of a list of lines: the reference of the first line
whose key is `default`. -/
def defaultOf {σ : Type} (mk : Str → Ref) (ss : setOpResponses σ) (lines : List Str) :
    Option Response :=
  (lines.find? isDefaultLine).map (fun l => { Ref := mk (refURI ss (lineValue l)) })

/-- The response of a status code in a list of lines: the reference of the
last line whose key is that code. -/
def statusOf {σ : Type} (mk : Str → Ref) (ss : setOpResponses σ) (lines : List Str) (c : Int) :
    Option Response :=
  (lines.reverse.find? (fun l => hasCode l c)).map
    (fun l => { Ref := mk (refURI ss (lineValue l)) })

/-- One iteration of the loop of `setOpResponses.Parse`. -/
def responsesStep {σ : Type} (newRef : Str → Except GoError Ref) (ss : setOpResponses σ)
    (line : Str) (d : Option Response) (scr : List (Int × Response)) :
    Except GoError (Option Response × List (Int × Response)) :=
  if isEntry line then
    if lineValue line = [] then .error (.errorf "no name for %q response" [lineKey line])
    else
      match responseRef newRef ss (lineValue line) with
      | .error err => .error err
      | .ok ref =>
        if EqualFold "default".toList (lineKey line) then
          .ok (if d.isNone then some { Ref := ref } else d, scr)
        else
          match Atoi (lineKey line) with
          | .ok sc => .ok (d, codeSet scr sc { Ref := ref })
          | .error _ => .ok (d, scr)
  else .ok (d, scr)

/-- A responses parser over known definitions and responses whose setter keeps
the default and the status map it is given. -/
def responsesParser (definitions : List (Str × Schema)) (responses : List (Str × Response)) :
    setOpResponses (Option Response × List (Int × Response)) :=
  newSetResponses2 definitions responses (fun d scr _ => (d, scr))

/-- A line with a non-empty name whose key is neither `default` nor a decimal
integer. -/
def otherKey (l : Str) : Bool :=
  isEntry l && lineValue l != [] && !EqualFold "default".toList (lineKey l) &&
    (match Atoi (lineKey l) with
     | .ok _ => false
     | .error _ => true)

/-- The text of the reference for a known name, in the words of the claim:
`#/responses/name` for a known response, `#/definitions/name` for a name
known only as a schema. -/
def knownURI {σ : Type} (ss : setOpResponses σ) (value : Str) : Str :=
  if (mapGet ss.responses value).isSome then "#/responses/".toList ++ value
  else "#/definitions/".toList ++ value

/-- A responses parser that knows the responses `widgetResponse` and
`errorResponse` and the definition `Widget`. -/
def widgetResponses : setOpResponses (Option Response × List (Int × Response)) :=
  responsesParser [("Widget".toList, { Required := [] })]
    [("widgetResponse".toList, { Ref := { uri := [] } }),
      ("errorResponse".toList, { Ref := { uri := [] } })]

/-- The pattern `rxStrFmt`:
`\+swagger:strfmt\p{Zs}*(\p{L}[\p{L}\p{N}\p{Pd}\p{Pc}]+)$`. -/
def rxStrFmt : Regex :=
  .cat [.str "+swagger:strfmt".toList, .star pZs,
    .grp 1 (.seq (.cls false [.cat .L])
      (.plus (.cls false [.cat .L, .cat .N, .cat .Pd, .cat .Pc]))), .eot]

/-- The double quote. -/
def dquote : Char := Char.ofNat 34

/-- The function `strconv.Unquote` on an interpreted string literal without
escape sequences, which stands for its own inside; the model gives an error on
every other text, and only the literals of this kind are used. -/
def unquotePlain (s : Str) : Except GoError Str :=
  match s with
  | c :: rest =>
    if c = dquote ∧ rest.getLast? = some dquote ∧
        rest.dropLast.all (fun x => x ≠ dquote ∧ x ≠ Char.ofNat 92 ∧ x ≠ Char.ofNat 10) then
      .ok rest.dropLast
    else .error (.message "invalid syntax".toList)
  | [] => .error (.message "invalid syntax".toList)

/-- Modelled from the spec: the function `strfmtName`, which is not among the
source files; the name of a `strfmt` marker is the first capture of `rxStrFmt`
in the first comment line that has one, and a declaration without comments has
none. -/
def strfmtName (U : UnicodeTables) (doc : Option (List Str)) : Option Str :=
  match doc with
  | none => none
  | some comments =>
    (comments.flatMap splitLines).findSome? (fun ln =>
      let found := FindStringSubmatch U rxStrFmt ln
      if found.length > 1 ∧ trimSpace (found.getD 1 []) ≠ [] then
        some (trimSpace (found.getD 1 []))
      else none)

/-- Modelled from the spec: the method `schemaDecl.inferNames`, which is not
among the source files; the name of a referenced declaration is its own
identifier. -/
def inferNames (sd : schemaDecl) : schemaDecl :=
  { File := sd.File, Decl := sd.Decl, TypeSpec := sd.TypeSpec,
    GoName := (schemaDecl.TypeSpec sd).Name.getD [],
    Name := (schemaDecl.TypeSpec sd).Name.getD [] }

/-- The type spec of `type A B`. -/
def aliasA : TypeSpec := { Name := some "A".toList, Typ := .Ident "B".toList }

/-- The type spec of `type B string`. -/
def aliasB : TypeSpec := { Name := some "B".toList, Typ := .Ident "string".toList }

/-- The declaration `type A B`, without a comment. -/
def declA : GenDecl := { Doc := none, Specs := [.TypeSpec aliasA] }

/-- The declaration `type B string`, without a comment. -/
def declB : GenDecl := { Doc := none, Specs := [.TypeSpec aliasB] }

/-- The file of package `example.com/models` with the declarations `type A B`
and `type B string`. -/
def aliasModels : File := { Imports := [], Decls := [.GenDecl declA, .GenDecl declB] }

/-- The package `example.com/models`. -/
def aliasPackage : PackageInfo := { Files := [aliasModels] }

/-- A file that imports `"example.com/models"` without a local name. -/
def aliasUser : File :=
  { Imports := [{ Name := none, Path := dquote :: "example.com/models".toList ++ [dquote] }],
    Decls := [] }

/-- A loaded program whose only package is `example.com/models`. -/
def aliasProgram : Collaborators :=
  { Unquote := unquotePlain
    strfmtName := strfmtName latin1
    inferNames := inferNames
    NewRef := NewRef
    Package := fun path => if path = "example.com/models".toList then some aliasPackage else none }

/-! ## The length and item-count parsers of `validators.go` -/

/-- The function `strconv.ParseInt(s, 10, 64)`: an optional sign and ASCII
decimal digits, within the range of `int64`. -/
def ParseInt (s : Str) : Except GoError Int :=
  let (neg, body) : Bool × Str :=
    match s with
    | '+' :: t => (false, t)
    | '-' :: t => (true, t)
    | _ => (false, s)
  if body = [] then .error (.badNumber "ParseInt" s)
  else
    match parseDigits body 0 with
    | none => .error (.badNumber "ParseInt" s)
    | some n =>
      if neg then
        if n ≤ maxInt + 1 then .ok (-(n : Int)) else .error (.outOfRange "ParseInt" s)
      else if n ≤ maxInt then .ok (n : Int) else .error (.outOfRange "ParseInt" s)

/-- The struct `setMaxItems` (its builder is passed to `Parse`). -/
structure setMaxItems where
  rx : Regex

/-- The method `setMaxItems.Matches`. -/
def setMaxItems.Matches (U : UnicodeTables) (sm : setMaxItems) (line : Str) : Bool :=
  MatchString U sm.rx line

/-- The method `setMaxItems.Parse`. -/
def setMaxItems.Parse (U : UnicodeTables) (sm : setMaxItems) (lines : List Str)
    (builder : validationBuilder) : Option GoError × validationBuilder :=
  match lines with
  | [] => (none, builder)
  | l0 :: tl =>
    if tl.length = 0 ∧ l0.length = 0 then (none, builder)
    else
      let submatches := FindStringSubmatch U sm.rx l0
      if submatches.length > 1 ∧ (submatches.getD 1 []).length > 0 then
        match ParseInt (submatches.getD 1 []) with
        | .error err => (some err, builder)
        | .ok maxItems => (none, builder ++ [.SetMaxItems maxItems])
      else (none, builder)

/-- The struct `setMinItems`. -/
structure setMinItems where
  rx : Regex

/-- The method `setMinItems.Matches`. -/
def setMinItems.Matches (U : UnicodeTables) (sm : setMinItems) (line : Str) : Bool :=
  MatchString U sm.rx line

/-- The method `setMinItems.Parse`. -/
def setMinItems.Parse (U : UnicodeTables) (sm : setMinItems) (lines : List Str)
    (builder : validationBuilder) : Option GoError × validationBuilder :=
  match lines with
  | [] => (none, builder)
  | l0 :: tl =>
    if tl.length = 0 ∧ l0.length = 0 then (none, builder)
    else
      let submatches := FindStringSubmatch U sm.rx l0
      if submatches.length > 1 ∧ (submatches.getD 1 []).length > 0 then
        match ParseInt (submatches.getD 1 []) with
        | .error err => (some err, builder)
        | .ok minItems => (none, builder ++ [.SetMinItems minItems])
      else (none, builder)

/-- The struct `setMaxLength`. -/
structure setMaxLength where
  rx : Regex

/-- The method `setMaxLength.Parse`. -/
def setMaxLength.Parse (U : UnicodeTables) (sm : setMaxLength) (lines : List Str)
    (builder : validationBuilder) : Option GoError × validationBuilder :=
  match lines with
  | [] => (none, builder)
  | l0 :: tl =>
    if tl.length = 0 ∧ l0.length = 0 then (none, builder)
    else
      let submatches := FindStringSubmatch U sm.rx l0
      if submatches.length > 1 ∧ (submatches.getD 1 []).length > 0 then
        match ParseInt (submatches.getD 1 []) with
        | .error err => (some err, builder)
        | .ok maxLength => (none, builder ++ [.SetMaxLength maxLength])
      else (none, builder)

/-- The method `setMaxLength.Matches`. -/
def setMaxLength.Matches (U : UnicodeTables) (sm : setMaxLength) (line : Str) : Bool :=
  MatchString U sm.rx line

/-- The struct `setMinLength`. -/
structure setMinLength where
  rx : Regex

/-- The method `setMinLength.Parse`. -/
def setMinLength.Parse (U : UnicodeTables) (sm : setMinLength) (lines : List Str)
    (builder : validationBuilder) : Option GoError × validationBuilder :=
  match lines with
  | [] => (none, builder)
  | l0 :: tl =>
    if tl.length = 0 ∧ l0.length = 0 then (none, builder)
    else
      let submatches := FindStringSubmatch U sm.rx l0
      if submatches.length > 1 ∧ (submatches.getD 1 []).length > 0 then
        match ParseInt (submatches.getD 1 []) with
        | .error err => (some err, builder)
        | .ok minLength => (none, builder ++ [.SetMinLength minLength])
      else (none, builder)

/-- The method `setMinLength.Matches`. -/
def setMinLength.Matches (U : UnicodeTables) (sm : setMinLength) (line : Str) : Bool :=
  MatchString U sm.rx line

/-! ## The application scanner of `scanner.go` -/

/-- The struct `classifiedProgram` of the classifier, which is not among the
source files, as far as `appScanner.Parse` reads it. -/
structure classifiedProgram where
  Parameters : List File
  Responses : List File
  Operations : List File
  Meta : List File
  deriving DecidableEq, Repr

/-- The document `spec.Swagger`: its map `Definitions`, and in `rest` all the
other parts (the paths with their operations, the responses, the info). -/
structure Swagger (W : Type) where
  Definitions : List (Str × Schema)
  rest : W

/-- The struct `appScanner`. The document `input` points to is held in
`input`; the maps `definitions`, `responses` and `operations` are parts of
that document (`newAppScanner` sets them so), and the program, the loader and
the classifier are never written. The last field is a ghost, not in the
source: the calls of `parseSchema` made by `processDiscovered` so far, each
with the declaration it is made for and the definitions at that moment. -/
structure appScanner (W : Type) where
  discovered : List schemaDecl
  input : Swagger W
  calls : List (schemaDecl × List (Str × Schema))

/-- The field `definitions` of `appScanner`, the map `input.Definitions`. -/
def appScanner.definitions {W : Type} (a : appScanner W) : List (Str × Schema) :=
  a.input.Definitions

/-- The parsers `appScanner` calls that are not among the source files.
`Classify` is `a.classifier.Classify(a.prog)`. `schemaParse` is
`schemaParser.Parse(file, a.definitions)`: the error, the definitions
afterwards and `sp.postDecls`. `parameterParse` is the `Parse(file,
a.operations)` of the parameter parser and `responseParse` the `Parse(file,
a.responses)` of the response parser: the error, the document parts
afterwards and `rp.postDecls`. `routesParse` is the `Parse(file,
a.input.Paths)` of the routes parser, which also holds the operations,
definitions and responses, and `metaParse` is
`newMetaParser(a.input).Parse(file.Doc)`. -/
structure Parsers (W : Type) where
  Classify : Except GoError classifiedProgram
  schemaParse : File → List (Str × Schema) →
    Option GoError × List (Str × Schema) × List schemaDecl
  parameterParse : File → W → Option GoError × W × List schemaDecl
  responseParse : File → W → Option GoError × W × List schemaDecl
  routesParse : File → Swagger W → Option GoError × Swagger W
  metaParse : File → Swagger W → Option GoError × Swagger W

/-- The method `appScanner.parseSchema`. -/
def parseSchema {W : Type} (co : Parsers W) (file : File) (a : appScanner W) :
    Option GoError × appScanner W :=
  match co.schemaParse file a.definitions with
  | (some err, defs, _) => (some err, { a with input := { a.input with Definitions := defs } })
  | (none, defs, postDecls) =>
    (none, { a with input := { a.input with Definitions := defs },
                    discovered := a.discovered ++ postDecls })

/-- The method `appScanner.parseRoutes`. -/
def parseRoutes {W : Type} (co : Parsers W) (file : File) (a : appScanner W) :
    Option GoError × appScanner W :=
  match co.routesParse file a.input with
  | (some err, doc) => (some err, { a with input := doc })
  | (none, doc) => (none, { a with input := doc })

/-- The method `appScanner.parseParameters`. -/
def parseParameters {W : Type} (co : Parsers W) (file : File) (a : appScanner W) :
    Option GoError × appScanner W :=
  match co.parameterParse file a.input.rest with
  | (some err, w, _) => (some err, { a with input := { a.input with rest := w } })
  | (none, w, postDecls) =>
    (none, { a with input := { a.input with rest := w },
                    discovered := a.discovered ++ postDecls })

/-- The method `appScanner.parseResponses`. -/
def parseResponses {W : Type} (co : Parsers W) (file : File) (a : appScanner W) :
    Option GoError × appScanner W :=
  match co.responseParse file a.input.rest with
  | (some err, w, _) => (some err, { a with input := { a.input with rest := w } })
  | (none, w, postDecls) =>
    (none, { a with input := { a.input with rest := w },
                    discovered := a.discovered ++ postDecls })

/-- The method `appScanner.parseMeta`. -/
def parseMeta {W : Type} (co : Parsers W) (file : File) (a : appScanner W) :
    Option GoError × appScanner W :=
  match co.metaParse file a.input with
  | (err, doc) => (err, { a with input := doc })

/-- The loop `for _, sd := range queue` of `processDiscovered`; each call of
`parseSchema` is first noted in the ghost field. -/
def queueLoop {W : Type} (co : Parsers W) : List schemaDecl → appScanner W →
    Option GoError × appScanner W
  | [], a => (none, a)
  | sd :: rest, a =>
    match parseSchema co sd.File { a with calls := a.calls ++ [(sd, a.definitions)] } with
    | (some err, a1) => (some err, a1)
    | (none, a1) => queueLoop co rest a1

/-- The loop `for keepGoing` of `processDiscovered`, with the value of
`keepGoing`; the first argument bounds the number of passes, and `none` means
that the bound is reached. -/
def discoverLoop {W : Type} (co : Parsers W) : Nat → Bool → appScanner W →
    Option (Option GoError × appScanner W)
  | _, false, a => some (none, a)
  | 0, true, _ => none
  | fuel + 1, true, a =>
    let queue := a.discovered.filter (fun d => (mapGet a.definitions d.Name).isNone)
    match queueLoop co queue { a with discovered := [] } with
    | (some err, a1) => some (some err, a1)
    | (none, a1) => discoverLoop co fuel (decide (a1.discovered.length > 0)) a1

/-- The method `appScanner.processDiscovered`, with a bound on the number of
passes of its loop. -/
def processDiscovered {W : Type} (co : Parsers W) (fuel : Nat) (a : appScanner W) :
    Option (Option GoError × appScanner W) :=
  discoverLoop co fuel (decide (a.discovered.length > 0)) a

/-- A loop `for _, file := range files` of `appScanner.Parse` around one of the
`parse` methods, leaving at the first error. -/
def rangeFiles {W : Type} (parse : File → appScanner W → Option GoError × appScanner W) :
    List File → appScanner W → Option GoError × appScanner W
  | [], a => (none, a)
  | file :: rest, a =>
    match parse file a with
    | (some err, a1) => (some err, a1)
    | (none, a1) => rangeFiles parse rest a1

/-- The method `appScanner.Parse`, with a bound on the passes of
`processDiscovered`: the document returned (`none` for nil), the error, and
the scanner afterwards; the outer `none` means that the bound is reached. -/
def appScanner.Parse {W : Type} (co : Parsers W) (fuel : Nat) (a : appScanner W) :
    Option (Option (Swagger W) × Option GoError × appScanner W) :=
  match co.Classify with
  | .error err => some (none, some err, a)
  | .ok cp =>
    match rangeFiles (parseParameters co) cp.Parameters a with
    | (some err, a1) => some (none, some err, a1)
    | (none, a1) =>
      match rangeFiles (parseResponses co) cp.Responses a1 with
      | (some err, a2) => some (none, some err, a2)
      | (none, a2) =>
        match processDiscovered co fuel a2 with
        | none => none
        | some (some err, a3) => some (none, some err, a3)
        | some (none, a3) =>
          match rangeFiles (parseRoutes co) cp.Operations a3 with
          | (some err, a4) => some (none, some err, a4)
          | (none, a4) =>
            match rangeFiles (parseMeta co) cp.Meta a4 with
            | (some err, a5) => some (none, some err, a5)
            | (none, a5) => some (some a5.input, none, a5)

/-! ## Auxiliary definitions for the statements on the scanner and the counts -/

/-- The tail shared by the four length and item-count patterns: spaces, a
colon, spaces, one or more `\p{N}` in group 1, end of text. -/
def countTail : List Regex :=
  [.star pZs, .chr ':', .star pZs, .grp 1 (Regex.plus pN), .eot]

/-- The outcome of a length or item-count directive with digit text `d`, in
the words of the claim: the setter `set` is called with the value of `d` when
`d` is an ASCII decimal numeral of at most `2^63 - 1`; otherwise an error is
returned and the builder is left as it was. -/
def countOutcome (set : Int → BuilderCall) (d : Str) (builder : validationBuilder) :
    Option GoError × validationBuilder :=
  match parseDigits d 0 with
  | some n =>
    if n ≤ maxInt then (none, builder ++ [set (n : Int)])
    else (some (.outOfRange "ParseInt" d), builder)
  | none => (some (.badNumber "ParseInt" d), builder)

/-- The number of declarations of `decls` whose name is not yet a key of the
definitions. -/
def undefinedCount {W : Type} (decls : List schemaDecl) (a : appScanner W) : Nat :=
  (decls.filter (fun d => (mapGet a.definitions d.Name).isNone)).length

/-- A step of the orchestration: the error and the scanner afterwards, `none`
when the bound on the passes of the discovery is reached. -/
abbrev Step (W : Type) := appScanner W → Option (Option GoError × appScanner W)

/-- Running steps in order, in the words of the specification: each step runs
on the state left by the one before, and the first error ends the run. -/
def runSteps {W : Type} : List (Step W) → appScanner W →
    Option (Option GoError × appScanner W)
  | [], a => some (none, a)
  | s :: rest, a =>
    match s a with
    | none => none
    | some (some err, a1) => some (some err, a1)
    | some (none, a1) => runSteps rest a1

/-- The steps of the orchestration after the classification, in the order of
the specification: every parameter unit, every response unit, the schema fixed
point, every route unit, every meta unit. -/
def phases {W : Type} (co : Parsers W) (fuel : Nat) (cp : classifiedProgram) : List (Step W) :=
  cp.Parameters.map (fun file a => some (parseParameters co file a)) ++
    cp.Responses.map (fun file a => some (parseResponses co file a)) ++
    [processDiscovered co fuel] ++
    cp.Operations.map (fun file a => some (parseRoutes co file a)) ++
    cp.Meta.map (fun file a => some (parseMeta co file a))

/-- The type spec of `type name struct`. -/
def structSpec (name : Str) : TypeSpec := { Name := some name, Typ := .StructType }

/-- The declaration `type name struct`, without a comment. -/
def structGen (name : Str) : GenDecl := { Doc := none, Specs := [.TypeSpec (structSpec name)] }

/-- A file whose only declaration is `type name struct`. -/
def structFile (name : Str) : File := { Imports := [], Decls := [.GenDecl (structGen name)] }

/-- The pending declaration of `type name struct` in its file. -/
def structDecl (name : Str) : schemaDecl :=
  { File := structFile name, Decl := structGen name, TypeSpec := structSpec name,
    GoName := name, Name := name }

/-- A schema parser for the files `structFile name` of the names listed in
`links`: it adds the name to the definitions and reports the declarations of
the names listed with it as discovered; any other file is an error. -/
def linkedParse (links : List (Str × List Str)) (file : File) (defs : List (Str × Schema)) :
    Option GoError × List (Str × Schema) × List schemaDecl :=
  match links.find? (fun e => structFile e.1 == file) with
  | some e => (none, mapSet defs e.1 { Required := [] }, e.2.map structDecl)
  | none => (some (.message "unknown file".toList), defs, [])

/-- A program without units to classify whose schema parser is
`linkedParse links`. -/
def linkedProgram (links : List (Str × List Str)) : Parsers Unit :=
  { Classify := .ok { Parameters := [], Responses := [], Operations := [], Meta := [] }
    schemaParse := linkedParse links
    parameterParse := fun _ w => (none, w, [])
    responseParse := fun _ w => (none, w, [])
    routesParse := fun _ doc => (none, doc)
    metaParse := fun _ doc => (none, doc) }

/-- The links of the declarations `Parent` and `Child`, each of which refers
to the other, and of `Node`, which refers to itself. -/
def family : List (Str × List Str) :=
  [("Parent".toList, ["Child".toList]), ("Child".toList, ["Parent".toList]),
    ("Node".toList, ["Node".toList])]

/-- The declarations of `family`. -/
def familyDecls : List schemaDecl :=
  [structDecl "Parent".toList, structDecl "Child".toList, structDecl "Node".toList]

/-- A scanner with an empty document and the given pending declarations. -/
def scannerWith {W : Type} (w : W) (pending : List schemaDecl) : appScanner W :=
  { discovered := pending, input := { Definitions := [], rest := w }, calls := [] }

/-- The outcome of one traced parser: the unit is noted in the log, and the
unit `bad` is an error. -/
def traced (kind : String) (bad : Option File) (file : File) (log : List (String × File)) :
    Option GoError × List (String × File) :=
  (if bad = some file then some (.message kind.toList) else none, log ++ [(kind, file)])

/-- A program with two parameter units, one response unit, one route unit and
one meta unit, whose parsers note every unit they are given in the log of the
document and fail on the unit `bad`; the first parameter unit discovers the
declaration `Node`. -/
def tracing (bad : Option File) : Parsers (List (String × File)) :=
  { Classify := .ok
      { Parameters := [structFile "P1".toList, structFile "P2".toList],
        Responses := [structFile "R1".toList],
        Operations := [structFile "O1".toList],
        Meta := [structFile "M1".toList] }
    schemaParse := linkedParse family
    parameterParse := fun file w =>
      ((traced "parameters" bad file w).1, (traced "parameters" bad file w).2,
        if file = structFile "P1".toList then [structDecl "Node".toList] else [])
    responseParse := fun file w =>
      ((traced "responses" bad file w).1, (traced "responses" bad file w).2, [])
    routesParse := fun file doc =>
      ((traced "routes" bad file doc.rest).1,
        { doc with rest := (traced "routes" bad file doc.rest).2 })
    metaParse := fun file doc =>
      ((traced "meta" bad file doc.rest).1,
        { doc with rest := (traced "meta" bad file doc.rest).2 }) }

/-! ## Auxiliary definitions for the statements on the references of the responses -/

/-- Whether `spec.NewRef` accepts a text. -/
def accepts (newRef : Str → Except GoError Ref) (uri : Str) : Bool :=
  match newRef uri with
  | .ok _ => true
  | .error _ => false

/-- The reference `spec.NewRef` makes from a text it accepts; the empty
reference stands in for a text it rejects. -/
def refOr (newRef : Str → Except GoError Ref) (uri : Str) : Ref :=
  match newRef uri with
  | .ok ref => ref
  | .error _ => { uri := [] }

/-- A line that is no error of `setOpResponses.Parse`: it is no `key: name`
line, or it has a name and `spec.NewRef` accepts the reference of that name. -/
def lineAccepted {σ : Type} (newRef : Str → Except GoError Ref) (ss : setOpResponses σ)
    (l : Str) : Bool :=
  !isEntry l || (lineValue l != [] && accepts newRef (refURI ss (lineValue l)))

/-- A `spec.NewRef` that rejects the texts with a percent sign and makes the
reference of every other text; the function of package `spec` parses its text
as a URL, which fails on a malformed percent escape such as `%of`. -/
def rejectPercent (uri : Str) : Except GoError Ref :=
  if uri.any (fun c => c == '%') then .error (.message "invalid URL escape".toList)
  else .ok { uri := uri }

/-- A responses parser that knows the responses `widgetResponse` and `50%off`
and whose setter counts its calls. -/
def countingResponses : setOpResponses Nat :=
  newSetResponses2 []
    [("widgetResponse".toList, { Ref := { uri := [] } }),
      ("50%off".toList, { Ref := { uri := [] } })]
    (fun _ _ n => n + 1)

/-! ## Lemmas -/

/-- The literal `float64Limit` is `2^1024 - 2^970`. -/
theorem float64Limit_eq : float64Limit = 2 ^ 1024 - 2 ^ 970 := by
  norm_num [float64Limit]

/-- The replacement in `cleanup` agrees with the matcher: the preferred match
of `[^\p{L}\p{N}\+]*` at the start of a line leaves `stripComment` of it. -/
theorem stripComment_eq_run (U : UnicodeTables) (v : Str) (caps : List (Nat × Str)) :
    (run U (.star (.cls true [.cat .L, .cat .N, .ch '+'])) ⟨v, caps⟩).head? =
      some ⟨stripComment U v, caps⟩ := by
  simp only [run]
  induction v with
  | nil => simp [starLoop, stripComment]
  | cons c t ih =>
    by_cases hc : classMem U true [.cat .L, .cat .N, .ch '+'] c = true
    · simp only [List.length_cons, starLoop, hc, if_true, List.filter_cons, List.filter_nil,
        Nat.lt_succ_self, decide_True, List.flatMap_cons, List.flatMap_nil, List.append_nil,
        stripComment, List.dropWhile_cons]
      simp only [stripComment] at ih
      rw [List.head?_append_of_ne_nil]
      · exact ih
      · intro h; rw [h] at ih; simp at ih
    · simp [starLoop, hc, stripComment, List.dropWhile_cons]

theorem mem_run_seq {U : UnicodeTables} {a b : Regex} {s x : MState} :
    x ∈ run U (.seq a b) s ↔ ∃ y, y ∈ run U a s ∧ x ∈ run U b y := by
  simp [run, List.mem_flatMap]

theorem mem_run_alt {U : UnicodeTables} {a b : Regex} {s x : MState} :
    x ∈ run U (.alt a b) s ↔ x ∈ run U a s ∨ x ∈ run U b s := by
  simp [run]

theorem mem_run_opt {U : UnicodeTables} {a : Regex} {s x : MState} :
    x ∈ run U (Regex.opt a) s ↔ x ∈ run U a s ∨ x = s := by
  simp [Regex.opt, run]

theorem mem_run_grp {U : UnicodeTables} {n : Nat} {a : Regex} {s x : MState} :
    x ∈ run U (.grp n a) s ↔ ∃ y, y ∈ run U a s ∧
      x = { y with caps := (n, s.rest.take (s.rest.length - y.rest.length)) :: y.caps } := by
  simp [run, eq_comm]

theorem mem_run_eot {U : UnicodeTables} {s x : MState} :
    x ∈ run U .eot s ↔ x = s ∧ s.rest = [] := by
  by_cases h : s.rest = [] <;> simp [run, h]

theorem mem_run_cls {U : UnicodeTables} {neg : Bool} {items : List ClassItem} {s x : MState} :
    x ∈ run U (.cls neg items) s ↔
      ∃ d t, s.rest = d :: t ∧ classMem U neg items d = true ∧ x = { s with rest := t } := by
  cases hs : s.rest with
  | nil => simp [run, hs]
  | cons d t =>
    by_cases h : classMem U neg items d = true
    · simp only [run, hs, h, if_true, List.mem_singleton]
      constructor
      · intro hx; exact ⟨d, t, rfl, h, hx⟩
      · rintro ⟨d', t', hdt, _, hx⟩
        simp only [List.cons.injEq] at hdt
        obtain ⟨rfl, rfl⟩ := hdt
        exact hx
    · simp only [run, hs, h, Bool.false_eq_true, if_false, List.not_mem_nil, false_iff]
      rintro ⟨d', t', hdt, hc, _⟩
      simp only [List.cons.injEq] at hdt
      obtain ⟨rfl, rfl⟩ := hdt
      exact h hc

/-- The effect of a pattern on a thread, shared by every result: no longer
input, and the same captures when the pattern has no group. -/
theorem starLoop_inv {P : MState → MState → Prop} (hrefl : ∀ s, P s s)
    (htrans : ∀ a b c, P a b → P b c → P a c) {step : MState → List MState}
    (hstep : ∀ s x, x ∈ step s → P s x) :
    ∀ (n : Nat) (s x : MState), x ∈ starLoop step n s → P s x := by
  intro n
  induction n with
  | zero => intro s x hx; simp [starLoop] at hx; subst hx; exact hrefl _
  | succ n ih =>
    intro s x hx
    simp only [starLoop, List.mem_append, List.mem_flatMap, List.mem_filter,
      List.mem_singleton] at hx
    rcases hx with ⟨y, ⟨hy, _⟩, hxy⟩ | rfl
    · exact htrans _ _ _ (hstep _ _ hy) (ih _ _ hxy)
    · exact hrefl _

theorem run_length_le (U : UnicodeTables) :
    ∀ (r : Regex) (s x : MState), x ∈ run U r s → x.rest.length ≤ s.rest.length := by
  intro r
  induction r with
  | eps => intro s x hx; simp [run] at hx; subst hx; exact le_refl _
  | chr c =>
    intro s x hx
    cases hs : s.rest with
    | nil => simp [run, hs] at hx
    | cons d t =>
      by_cases h : d = c
      · simp [run, hs, h] at hx; subst hx; simp
      · simp [run, hs, h] at hx
  | cls neg items =>
    intro s x hx
    obtain ⟨d, t, hs, _, rfl⟩ := mem_run_cls.1 hx
    simp [hs]
  | any =>
    intro s x hx
    cases hs : s.rest with
    | nil => simp [run, hs] at hx
    | cons d t =>
      by_cases h : d = '\n'
      · simp [run, hs, h] at hx
      · simp [run, hs, h] at hx; subst hx; simp
  | seq a b iha ihb =>
    intro s x hx
    obtain ⟨y, hy, hxy⟩ := mem_run_seq.1 hx
    exact le_trans (ihb _ _ hxy) (iha _ _ hy)
  | alt a b iha ihb =>
    intro s x hx
    rcases mem_run_alt.1 hx with h | h
    · exact iha _ _ h
    · exact ihb _ _ h
  | star a iha =>
    intro s x hx
    simp only [run] at hx
    exact starLoop_inv (P := fun s x => x.rest.length ≤ s.rest.length) (fun _ => le_refl _)
      (fun _ _ _ h1 h2 => le_trans h2 h1) (fun s x h => iha s x h) _ _ _ hx
  | grp n a iha =>
    intro s x hx
    obtain ⟨y, hy, rfl⟩ := mem_run_grp.1 hx
    exact iha s y hy
  | eot => intro s x hx; obtain ⟨rfl, _⟩ := mem_run_eot.1 hx; exact le_refl _

theorem run_caps_eq (U : UnicodeTables) :
    ∀ (r : Regex), r.numGroups = 0 → ∀ (s x : MState), x ∈ run U r s → x.caps = s.caps := by
  intro r
  induction r with
  | eps => intro _ s x hx; simp [run] at hx; subst hx; rfl
  | chr c =>
    intro _ s x hx
    cases hs : s.rest with
    | nil => simp [run, hs] at hx
    | cons d t =>
      by_cases h : d = c
      · simp [run, hs, h] at hx; subst hx; rfl
      · simp [run, hs, h] at hx
  | cls neg items =>
    intro _ s x hx
    obtain ⟨d, t, hs, _, rfl⟩ := mem_run_cls.1 hx
    rfl
  | any =>
    intro _ s x hx
    cases hs : s.rest with
    | nil => simp [run, hs] at hx
    | cons d t =>
      by_cases h : d = '\n'
      · simp [run, hs, h] at hx
      · simp [run, hs, h] at hx; subst hx; rfl
  | seq a b iha ihb =>
    intro hg s x hx
    simp only [Regex.numGroups, Nat.add_eq_zero] at hg
    obtain ⟨y, hy, hxy⟩ := mem_run_seq.1 hx
    rw [ihb hg.2 _ _ hxy, iha hg.1 _ _ hy]
  | alt a b iha ihb =>
    intro hg s x hx
    simp only [Regex.numGroups, Nat.add_eq_zero] at hg
    rcases mem_run_alt.1 hx with h | h
    · exact iha hg.1 _ _ h
    · exact ihb hg.2 _ _ h
  | star a iha =>
    intro hg s x hx
    simp only [Regex.numGroups] at hg
    simp only [run] at hx
    exact starLoop_inv (P := fun s x => x.caps = s.caps) (fun _ => rfl)
      (fun _ _ _ h1 h2 => h2.trans h1) (fun s x h => iha hg s x h) _ _ _ hx
  | grp n a _ => intro hg; simp [Regex.numGroups] at hg
  | eot => intro _ s x hx; obtain ⟨rfl, _⟩ := mem_run_eot.1 hx; rfl

theorem find_mem {U : UnicodeTables} {r : Regex} :
    ∀ {s start : Str} {x : MState}, find U r s = some (start, x) →
      x ∈ run U r ⟨start, []⟩ ∧ start.length ≤ s.length := by
  intro s
  induction s with
  | nil =>
    intro start x h
    simp only [find, Option.map_eq_some'] at h
    obtain ⟨y, hy, hxy⟩ := h
    simp only [Prod.mk.injEq] at hxy
    obtain ⟨rfl, rfl⟩ := hxy
    exact ⟨List.mem_of_mem_head? hy, le_refl _⟩
  | cons c t ih =>
    intro start x h
    simp only [find] at h
    split at h
    · next y hy =>
      simp only [Option.some.injEq, Prod.mk.injEq] at h
      obtain ⟨rfl, rfl⟩ := h
      exact ⟨List.mem_of_mem_head? hy, le_refl _⟩
    · obtain ⟨h1, h2⟩ := ih h
      exact ⟨h1, by simp; omega⟩

theorem FindStringSubmatch_length_le (U : UnicodeTables) (r : Regex) (s : Str) :
    (FindStringSubmatch U r s).length ≤ r.numGroups + 1 := by
  unfold FindStringSubmatch
  split <;> simp

theorem mem_run_cat_cons {U : UnicodeTables} {r : Regex} {rs : List Regex} {s x : MState} :
    x ∈ run U (Regex.cat (r :: rs)) s ↔ ∃ y, y ∈ run U r s ∧ x ∈ run U (Regex.cat rs) y := by
  cases rs with
  | nil => simp [Regex.cat, run]
  | cons r' rs => simp only [Regex.cat]; exact mem_run_seq

theorem mem_run_cat_append {U : UnicodeTables} (l1 l2 : List Regex) :
    ∀ {s x : MState}, x ∈ run U (Regex.cat (l1 ++ l2)) s ↔
      ∃ y, y ∈ run U (Regex.cat l1) s ∧ x ∈ run U (Regex.cat l2) y := by
  induction l1 with
  | nil => intro s x; simp [Regex.cat, run]
  | cons r l1 ih =>
    intro s x
    rw [List.cons_append, mem_run_cat_cons]
    constructor
    · rintro ⟨y, hy, hx⟩
      obtain ⟨z, hz, hxz⟩ := ih.1 hx
      exact ⟨z, mem_run_cat_cons.2 ⟨y, hy, hz⟩, hxz⟩
    · rintro ⟨z, hz, hxz⟩
      obtain ⟨y, hy, hyz⟩ := mem_run_cat_cons.1 hz
      exact ⟨y, hy, ih.2 ⟨z, hyz, hxz⟩⟩

theorem numGroups_str (s : Str) : (Regex.str s).numGroups = 0 := by
  induction s with
  | nil => rfl
  | cons c t ih =>
    cases t with
    | nil => rfl
    | cons d t => simp only [Regex.str, Regex.numGroups] at ih ⊢; omega

theorem numGroups_cat (l : List Regex) :
    (Regex.cat l).numGroups = (l.map Regex.numGroups).sum := by
  induction l with
  | nil => rfl
  | cons r t ih =>
    cases t with
    | nil => simp [Regex.cat]
    | cons r' t => simp only [Regex.cat, Regex.numGroups, ih, List.map_cons, List.sum_cons]

theorem numGroups_rxSignedDecimal : rxSignedDecimal.numGroups = 0 := by decide

theorem run_pN_plus_lt {U : UnicodeTables} {s x : MState}
    (hx : x ∈ run U (Regex.plus pN) s) : x.rest.length < s.rest.length := by
  obtain ⟨y, hy, hxy⟩ := mem_run_seq.1 hx
  obtain ⟨d, t, hs, _, rfl⟩ := mem_run_cls.1 hy
  have := run_length_le U _ _ _ hxy
  simp only [hs, List.length_cons] at this ⊢
  omega

theorem run_rxSignedDecimal {U : UnicodeTables} {s x : MState}
    (hx : x ∈ run U rxSignedDecimal s) :
    x.rest.length < s.rest.length ∧ x.caps = s.caps := by
  refine ⟨?_, run_caps_eq U _ numGroups_rxSignedDecimal _ _ hx⟩
  obtain ⟨y1, hy1, hx⟩ := mem_run_cat_cons.1 hx
  obtain ⟨y2, hy2, hx⟩ := mem_run_cat_cons.1 hx
  have h1 := run_length_le U _ _ _ hy1
  have h2 := run_length_le U _ _ _ hy2
  simp only [Regex.cat] at hx
  have h3 := run_pN_plus_lt hx
  omega

/-- The tail shared by `rxMaximumFmt` and `rxMinimumFmt`: an optional marker
from `[ab]` in group 1, spaces, a signed decimal in group 2, end of text. -/
theorem run_boundTail {U : UnicodeTables} {a b : Char} {s x : MState} (hs : s.caps = [])
    (hx : x ∈ run U (Regex.cat [Regex.opt (.grp 1 (.cls false [.ch a, .ch b])), .star pZs,
      .grp 2 rxSignedDecimal, .eot]) s) :
    (capture x.caps 1 = [] ∨ capture x.caps 1 = [a] ∨ capture x.caps 1 = [b]) ∧
      capture x.caps 2 ≠ [] ∧ s.rest ≠ [] := by
  obtain ⟨y1, hy1, hx⟩ := mem_run_cat_cons.1 hx
  obtain ⟨y2, hy2, hx⟩ := mem_run_cat_cons.1 hx
  obtain ⟨y3, hy3, hx⟩ := mem_run_cat_cons.1 hx
  simp only [Regex.cat] at hx
  obtain ⟨rfl, _⟩ := mem_run_eot.1 hx
  obtain ⟨y, hy, rfl⟩ := mem_run_grp.1 hy3
  obtain ⟨hlt, hcaps⟩ := run_rxSignedDecimal hy
  have hc2 : y2.caps = y1.caps := run_caps_eq U (.star pZs) rfl _ _ hy2
  have hl2 := run_length_le U _ _ _ hy2
  have hl1 := run_length_le U _ _ _ hy1
  have hd : List.take (y2.rest.length - y.rest.length) y2.rest ≠ [] := by
    intro h
    have := congrArg List.length h
    simp only [List.length_take, List.length_nil] at this
    omega
  have hs' : s.rest ≠ [] := by
    intro h
    rw [h] at hl1
    simp only [List.length_nil] at hl1
    omega
  rcases mem_run_opt.1 hy1 with h | rfl
  · obtain ⟨z, hz, rfl⟩ := mem_run_grp.1 h
    obtain ⟨d, t, hst, hd', rfl⟩ := mem_run_cls.1 hz
    have hm : d = a ∨ d = b := by
      simpa [classMem, ClassItem.mem] using hd'
    refine ⟨?_, ?_, hs'⟩
    · simp only [capture, hcaps, hc2, hst, List.find?, List.length_cons]
      simp
      rcases hm with rfl | rfl <;> simp
    · simpa [capture, hcaps, hc2, List.find?] using hd
  · refine ⟨Or.inl ?_, ?_, hs'⟩
    · simp [capture, hcaps, hc2, hs, List.find?]
    · simpa [capture, hcaps, hc2, List.find?] using hd

theorem bound_submatch {U : UnicodeTables} {head : List Regex} {a b : Char}
    (hhead : (Regex.cat head).numGroups = 0) {line : Str}
    (hm : MatchString U (Regex.cat (head ++ boundTail a b)) line = true) :
    ∃ whole m d, FindStringSubmatch U (Regex.cat (head ++ boundTail a b)) line = [whole, m, d] ∧
      (m = [] ∨ m = [a] ∨ m = [b]) ∧ d ≠ [] ∧ line ≠ [] := by
  unfold MatchString at hm
  obtain ⟨⟨start, x⟩, hf⟩ := Option.isSome_iff_exists.1 hm
  obtain ⟨hx, hlen⟩ := find_mem hf
  obtain ⟨y, hy, hxy⟩ := (mem_run_cat_append head (boundTail a b)).1 hx
  have hyc : y.caps = [] := run_caps_eq U _ hhead _ _ hy
  have hyl := run_length_le U _ _ _ hy
  obtain ⟨h1, h2, h3⟩ := run_boundTail hyc hxy
  have hn : (Regex.cat (head ++ boundTail a b)).numGroups = 2 := by
    rw [numGroups_cat, List.map_append, List.sum_append, ← numGroups_cat, hhead]
    simp [boundTail, Regex.numGroups, Regex.opt, numGroups_rxSignedDecimal]
  refine ⟨start.take (start.length - x.rest.length), capture x.caps 1, capture x.caps 2,
    ?_, h1, h2, ?_⟩
  · simp only [FindStringSubmatch, hf, hn]
    rfl
  · intro h
    subst h
    simp only [List.length_nil, Nat.le_zero, List.length_eq_zero] at hlen
    subst hlen
    simp only [List.length_nil, Nat.le_zero, List.length_eq_zero] at hyl
    exact h3 hyl

theorem rxMaximumFmt_eq (pre : Regex) :
    rxf rxMaximumFmt pre = Regex.cat ([pre, .cls false [.ch 'M', .ch 'm'], .str "ax".toList,
      Regex.opt (.str "imum".toList), .star pZs, .chr ':', .star pZs] ++ boundTail '<' '=') := rfl

theorem rxMinimumFmt_eq (pre : Regex) :
    rxf rxMinimumFmt pre = Regex.cat ([pre, .cls false [.ch 'M', .ch 'm'], .str "in".toList,
      Regex.opt (.str "imum".toList), .star pZs, .chr ':', .star pZs] ++ boundTail '>' '=') := rfl

theorem maximum_submatch {U : UnicodeTables} {pre : Regex} (hpre : pre.numGroups = 0) {line : Str}
    (hm : MatchString U (rxf rxMaximumFmt pre) line = true) :
    ∃ whole m d, FindStringSubmatch U (rxf rxMaximumFmt pre) line = [whole, m, d] ∧
      (m = [] ∨ m = ['<'] ∨ m = ['=']) ∧ d ≠ [] ∧ line ≠ [] := by
  rw [rxMaximumFmt_eq] at hm ⊢
  refine bound_submatch ?_ hm
  rw [numGroups_cat]
  simp [Regex.numGroups, Regex.opt, hpre, numGroups_str]

theorem minimum_submatch {U : UnicodeTables} {pre : Regex} (hpre : pre.numGroups = 0) {line : Str}
    (hm : MatchString U (rxf rxMinimumFmt pre) line = true) :
    ∃ whole m d, FindStringSubmatch U (rxf rxMinimumFmt pre) line = [whole, m, d] ∧
      (m = [] ∨ m = ['>'] ∨ m = ['=']) ∧ d ≠ [] ∧ line ≠ [] := by
  rw [rxMinimumFmt_eq] at hm ⊢
  refine bound_submatch ?_ hm
  rw [numGroups_cat]
  simp [Regex.numGroups, Regex.opt, hpre, numGroups_str]

theorem numGroups_rxMultipleOfFmt {pre : Regex} (hpre : pre.numGroups = 0) :
    (rxf rxMultipleOfFmt pre).numGroups = 1 := by
  simp only [rxf, rxMultipleOfFmt]
  rw [numGroups_cat]
  simp [Regex.numGroups, hpre, numGroups_str, numGroups_rxSignedDecimal]

theorem setMultipleOf_Parse_noop (U : UnicodeTables) {pre : Regex} (hpre : pre.numGroups = 0)
    (lines : List Str) (builder : validationBuilder) :
    setMultipleOf.Parse U ⟨rxf rxMultipleOfFmt pre⟩ lines builder = (none, builder) := by
  have h := FindStringSubmatch_length_le U (rxf rxMultipleOfFmt pre)
  rw [numGroups_rxMultipleOfFmt hpre] at h
  unfold setMultipleOf.Parse
  split
  · rfl
  · next l0 tl =>
    split
    · rfl
    · have := h l0
      simp only []
      rw [if_neg]
      intro hc
      omega

theorem numGroups_rxItemsPrefix : rxItemsPrefix.numGroups = 0 := by decide

/-- The index loop of `setRequiredSchema.Parse` finds nothing exactly when the
field is not in the list. -/
theorem requiredIndex_neg (field : Str) :
    ∀ (l : List Str) (i : Nat), requiredIndex field l i < 0 ↔ field ∉ l := by
  intro l
  induction l with
  | nil => intro i; simp [requiredIndex]
  | cons nm rest ih =>
    intro i
    by_cases h : nm = field
    · subst h
      simp only [requiredIndex, if_true, List.mem_cons, true_or, not_true_eq_false, iff_false,
        not_lt]
      omega
    · simp only [requiredIndex, if_neg h, ih, List.mem_cons, not_or]
      constructor
      · intro h'; exact ⟨fun e => h e.symm, h'⟩
      · intro h'; exact h'.2

/-- When the index loop finds the field, cutting the list at that index erases
the first occurrence. -/
theorem requiredIndex_erase (field : Str) :
    ∀ (l : List Str) (i : Nat), requiredIndex field l i ≥ 0 →
      ∃ k : Nat, requiredIndex field l i = ((i + k : Nat) : Int) ∧
        l.take k ++ l.drop (k + 1) = l.erase field := by
  intro l
  induction l with
  | nil => intro i h; simp [requiredIndex] at h
  | cons nm rest ih =>
    intro i h
    by_cases hn : nm = field
    · subst hn
      exact ⟨0, by simp [requiredIndex], by simp⟩
    · simp only [requiredIndex, if_neg hn] at h ⊢
      obtain ⟨k, hk, he⟩ := ih (i + 1) h
      refine ⟨k + 1, ?_, ?_⟩
      · rw [hk]; congr 1; omega
      · have hne : (nm == field) = false := by simpa using hn
        simp [List.erase_cons, hne, he]

/-- The list `setRequiredSchema.Parse` leaves: the old one, the old one with
the absent field appended, or the old one without the first occurrence of
the field. -/
theorem setRequiredSchema_Parse_cases (U : UnicodeTables) (su : setRequiredSchema)
    (lines : List Str) (schema : Schema) :
    (setRequiredSchema.Parse U su lines schema).2.Required = schema.Required ∨
    (su.field ∉ schema.Required ∧
      (setRequiredSchema.Parse U su lines schema).2.Required = schema.Required ++ [su.field]) ∨
    (setRequiredSchema.Parse U su lines schema).2.Required = schema.Required.erase su.field := by
  unfold setRequiredSchema.Parse
  split
  · exact Or.inl rfl
  · split
    · exact Or.inl rfl
    · simp only []
      split
      · split
        · exact Or.inl rfl
        · next req _ =>
          cases req
          · simp only [Bool.false_eq_true, if_false]
            split
            · next hge =>
              obtain ⟨k, hk, he⟩ := requiredIndex_erase su.field schema.Required 0 hge
              refine Or.inr (Or.inr ?_)
              simp only [hk, Nat.zero_add, Int.toNat_ofNat]
              exact he
            · exact Or.inl rfl
          · simp only [if_true]
            split
            · next hlt =>
              exact Or.inr (Or.inl ⟨(requiredIndex_neg _ _ _).1 hlt, rfl⟩)
            · exact Or.inl rfl
      · exact Or.inl rfl

theorem setRequiredSchema_Parse_true (su : setRequiredSchema) (schema : Schema) :
    setRequiredSchema.Parse latin1 su ["required: true".toList] schema =
      (none, if su.field ∈ schema.Required then schema
        else { schema with Required := schema.Required ++ [su.field] }) := by
  have hf : FindStringSubmatch latin1 rxRequired "required: true".toList =
      ["required: true".toList, "true".toList] := by decide
  have hb : ParseBool "true".toList = .ok true := rfl
  simp only [setRequiredSchema.Parse, hf]
  simp only [List.getD_cons_succ, List.getD_cons_zero, hb]
  have := requiredIndex_neg su.field schema.Required 0
  by_cases h : su.field ∈ schema.Required
  · have h' : ¬ requiredIndex su.field schema.Required 0 < 0 := fun c => this.1 c h
    simp [h, h']
  · have h' : requiredIndex su.field schema.Required 0 < 0 := this.2 h
    simp [h, h']

theorem setRequiredSchema_Parse_false (su : setRequiredSchema) (schema : Schema) :
    setRequiredSchema.Parse latin1 su ["required: false".toList] schema =
      (none, { schema with Required := schema.Required.erase su.field }) := by
  have hf : FindStringSubmatch latin1 rxRequired "required: false".toList =
      ["required: false".toList, "false".toList] := by decide
  have hb : ParseBool "false".toList = .ok false := rfl
  simp only [setRequiredSchema.Parse, hf]
  simp only [List.getD_cons_succ, List.getD_cons_zero, hb]
  have := requiredIndex_neg su.field schema.Required 0
  by_cases h : su.field ∈ schema.Required
  · have h' : requiredIndex su.field schema.Required 0 ≥ 0 := by
      by_contra c; exact (this.1 (by omega)) h
    obtain ⟨k, hk, he⟩ := requiredIndex_erase su.field schema.Required 0 h'
    simp [h', hk, he]
  · have h' : ¬ requiredIndex su.field schema.Required 0 ≥ 0 := by
      intro c; have := this.2 h; omega
    simp [h', List.erase_of_not_mem h]

theorem cleanupLoop_spec (U : UnicodeTables) :
    ∀ (lines : List Str) (i : Nat) (vars : CleanupVars),
      cleanupLoop U lines i vars =
        ⟨if vars.seenLine < 0 then
            ((firstContent U lines).map (fun k => ((i + k : Nat) : Int))).getD vars.seenLine
          else vars.seenLine,
          ((lastContent U lines).map (fun k => ((i + k : Nat) : Int))).getD vars.lastContent,
          vars.uncommented ++ lines.map (stripComment U)⟩ := by
  intro lines
  induction lines with
  | nil => intro i vars; cases vars; simp [cleanupLoop, firstContent, lastContent]
  | cons v rest ih =>
    intro i vars
    rw [cleanupLoop, ih]
    by_cases hv : stripComment U v = []
    · have e1 : cleanupStep U vars i v = { vars with uncommented := vars.uncommented ++ [[]] } := by
        simp [cleanupStep, hv]
      rw [e1]
      simp only [firstContent, lastContent, hv, ne_eq, not_true_eq_false, if_false,
        List.map_cons, List.append_assoc, List.singleton_append]
      congr 1
      · cases firstContent U rest
        · simp
        · simp only [Option.map_some', Option.getD_some, Function.comp]
          split <;> first | rfl | (congr 1; omega)
      · cases lastContent U rest
        · simp
        · simp only [Option.map_some', Option.getD_some]
          congr 1; omega
    · have e1 : cleanupStep U vars i v = ⟨(if vars.seenLine < 0 then (i : Int)
            else vars.seenLine), (i : Int), vars.uncommented ++ [stripComment U v]⟩ := by
        simp [cleanupStep, hv]
      rw [e1]
      simp only [firstContent, lastContent, hv, ne_eq, not_false_eq_true, if_true,
        List.map_cons, List.append_assoc, List.singleton_append]
      congr 1
      · by_cases hs : vars.seenLine < 0
        · have : ¬ ((i : Int) < 0) := by omega
          simp [hs, this]
        · simp [hs]
      · cases lastContent U rest
        · simp
        · simp only [Option.map_some', Option.getD_some]
          congr 1; omega

theorem firstContent_none (U : UnicodeTables) :
    ∀ (lines : List Str), firstContent U lines = none ↔ ∀ l ∈ lines, stripComment U l = [] := by
  intro lines
  induction lines with
  | nil => simp [firstContent]
  | cons v rest ih =>
    by_cases hv : stripComment U v = []
    · simp [firstContent, hv, ih]
    · simp [firstContent, hv]

theorem firstContent_le_lastContent (U : UnicodeTables) :
    ∀ (lines : List Str) (k : Nat), firstContent U lines = some k →
      ∃ j, lastContent U lines = some j ∧ k ≤ j ∧ j < lines.length := by
  intro lines
  induction lines with
  | nil => intro k h; simp [firstContent] at h
  | cons v rest ih =>
    intro k h
    by_cases hv : stripComment U v = []
    · simp only [firstContent, hv, ne_eq, not_true_eq_false, if_false, Option.map_eq_some'] at h
      obtain ⟨k', hk', rfl⟩ := h
      obtain ⟨j, hj, h1, h2⟩ := ih k' hk'
      exact ⟨j + 1, by simp [lastContent, hj], by omega, by simp; omega⟩
    · simp only [firstContent, hv, ne_eq, not_false_eq_true, if_true, Option.some.injEq] at h
      subst h
      cases hl : lastContent U rest with
      | none => exact ⟨0, by simp [lastContent, hl, hv], le_refl _, by simp⟩
      | some j =>
        refine ⟨j + 1, by simp [lastContent, hl], by omega, ?_⟩
        have : j < rest.length := by
          clear ih
          induction rest generalizing j with
          | nil => simp [lastContent] at hl
          | cons a r ihr =>
            simp only [lastContent] at hl
            cases hr : lastContent U r with
            | none =>
              rw [hr] at hl
              by_cases ha : stripComment U a = [] <;> simp [ha] at hl
              subst hl; simp
            | some j' =>
              rw [hr] at hl
              simp only [Option.some.injEq] at hl
              subst hl
              have := ihr j' hr
              simp; omega
        simp; omega

/-- The result of `cleanup`: a panic when no line has content, else the
stripped lines from the first to the last line with content. -/
theorem cleanup_spec (U : UnicodeTables) (lines : List Str) :
    cleanup U lines =
      match firstContent U lines, lastContent U lines with
      | some k, some j => some (((lines.map (stripComment U)).take (j + 1)).drop k)
      | _, _ => none := by
  unfold cleanup
  rw [cleanupLoop_spec]
  cases hf : firstContent U lines with
  | none => simp [goSlice]
  | some k =>
    obtain ⟨j, hj, h1, h2⟩ := firstContent_le_lastContent U lines k hf
    simp only [hj, goSlice, List.nil_append, List.length_map]
    simp
    constructor <;> omega

theorem cleanup_none_iff (U : UnicodeTables) (lines : List Str) :
    cleanup U lines = none ↔ ∀ l ∈ lines, stripComment U l = [] := by
  rw [cleanup_spec, ← firstContent_none]
  cases hf : firstContent U lines with
  | none => simp
  | some k =>
    obtain ⟨j, hj, _, _⟩ := firstContent_le_lastContent U lines k hf
    simp [hj]

theorem cleanup_some_ne_nil (U : UnicodeTables) (lines H : List Str)
    (h : cleanup U lines = some H) : H ≠ [] := by
  rw [cleanup_spec] at h
  cases hf : firstContent U lines with
  | none => simp [hf] at h
  | some k =>
    obtain ⟨j, hj, h1, h2⟩ := firstContent_le_lastContent U lines k hf
    simp only [hf, hj, Option.some.injEq] at h
    subst h
    intro hc
    have := congrArg List.length hc
    simp at this
    omega

theorem firstBlank_spec :
    ∀ (H : List Str) (i : Nat),
      (H.any isBlank = false → firstBlank H i = -1) ∧
      (H.any isBlank = true → ∃ k : Nat, firstBlank H i = ((i + k : Nat) : Int) ∧
        H.take k = H.takeWhile (fun l => !isBlank l) ∧
        H.drop (k + 1) = (H.dropWhile (fun l => !isBlank l)).drop 1) := by
  intro H
  induction H with
  | nil => intro i; simp [firstBlank]
  | cons l rest ih =>
    intro i
    by_cases hl : trimSpace l = []
    · have hb : isBlank l = true := by simp [isBlank, hl]
      refine ⟨by simp [hb], fun _ => ⟨0, by simp [firstBlank, hl], by simp [hb], by simp [hb]⟩⟩
    · have hb : isBlank l = false := by simp [isBlank, hl]
      obtain ⟨h1, h2⟩ := ih (i + 1)
      refine ⟨fun h => ?_, fun h => ?_⟩
      · simp only [List.any_cons, hb, Bool.false_or] at h
        simp [firstBlank, hl, h1 h]
      · simp only [List.any_cons, hb, Bool.false_or] at h
        obtain ⟨k, hk, ht, hd⟩ := h2 h
        refine ⟨k + 1, ?_, ?_, ?_⟩
        · simp only [firstBlank, hl, if_false, hk]; congr 1; omega
        · simp [hb, ht]
        · simp [hb, hd]

theorem matchString_rxPunctuationEnd (U : UnicodeTables) :
    ∀ (l : Str), MatchString U rxPunctuationEnd l = endsInPunctuation U l := by
  intro l
  induction l with
  | nil => simp [MatchString, find, rxPunctuationEnd, run, endsInPunctuation]
  | cons c t ih =>
    cases t with
    | nil =>
      by_cases hc : U.cat .Po c = true
      · simp [MatchString, find, rxPunctuationEnd, run, endsInPunctuation, classMem,
          ClassItem.mem, hc]
      · simp [MatchString, find, rxPunctuationEnd, run, endsInPunctuation, classMem,
          ClassItem.mem, hc]
    | cons d t =>
      have e : endsInPunctuation U (c :: d :: t) = endsInPunctuation U (d :: t) := by
        simp [endsInPunctuation, List.getLast?_cons_cons]
      rw [e, ← ih]
      by_cases hc : U.cat .Po c = true
      · simp [MatchString, find, rxPunctuationEnd, run, classMem, ClassItem.mem, hc]
      · simp [MatchString, find, rxPunctuationEnd, run, classMem, ClassItem.mem, hc]

theorem collectTitleDescription_spec {σ : Type} (U : UnicodeTables) (st : sectionedParser σ)
    (H : List Str) (hset : st.setTitle.isSome = true) (hw : st.workedOutTitle = false)
    (ht : st.title = []) (hc : cleanup U st.header = some H) :
    ∃ st', st.collectTitleDescription U = some st' ∧ st'.workedOutTitle = true ∧
      st'.title = titleOf U H ∧ st'.header = descriptionOf U H := by
  have hne := cleanup_some_ne_nil U _ _ hc
  have hsn : st.setTitle.isNone = false := by
    cases h : st.setTitle <;> simp [h] at hset ⊢
  simp only [sectionedParser.collectTitleDescription, hw, hsn, hc, Option.map_some',
    Bool.false_eq_true, if_false]
  obtain ⟨h1, h2⟩ := firstBlank_spec H 0
  cases hb : H.any isBlank with
  | true =>
    obtain ⟨k, hk, htk, hdk⟩ := h2 hb
    have hk' : firstBlank H 0 = (k : Int) := by simpa using hk
    have hgt : (k : Int) > -1 := by omega
    simp only [hk', if_pos hgt, Int.toNat_ofNat]
    refine ⟨_, rfl, rfl, ?_, ?_⟩
    · simp [titleOf, hb, htk]
    · simp only [descriptionOf, hb, if_true]
      split
      · exact hdk
      · next hlen =>
        rw [← hdk]
        symm
        apply List.drop_eq_nil_of_le
        omega
  | false =>
    have hlt : ¬ firstBlank H 0 > -1 := by rw [h1 hb]; omega
    cases H with
    | nil => exact absurd rfl hne
    | cons line rest =>
      by_cases hp : endsInPunctuation U line = true
      · refine ⟨_, rfl, ?_, ?_, ?_⟩ <;>
          simp [hlt, matchString_rxPunctuationEnd, hp, titleOf, descriptionOf, hb]
      · refine ⟨_, rfl, ?_, ?_, ?_⟩ <;>
          simp [hlt, matchString_rxPunctuationEnd, hp, titleOf, descriptionOf, hb, ht]

theorem mapGet_cons {V : Type} (e : Str × V) (m : List (Str × V)) (k : Str) :
    mapGet (e :: m) k = if e.1 = k then some e.2 else mapGet m k := by
  by_cases h : e.1 = k
  · simp [mapGet, List.find?_cons, h]
  · have hb : (e.1 == k) = false := by simpa using h
    simp [mapGet, List.find?_cons, h, hb]

theorem mapGet_mapSet {V : Type} (m : List (Str × V)) (k k' : Str) (v : V) :
    mapGet (mapSet m k v) k' = if k' = k then some v else mapGet m k' := by
  induction m with
  | nil =>
    simp only [mapSet, mapGet_cons]
    by_cases h : k' = k
    · simp [h]
    · have : ¬ k = k' := fun e => h e.symm
      simp [h, this, mapGet]
  | cons e m ih =>
    by_cases he : e.1 = k
    · simp only [mapSet, beq_iff_eq, he, if_true, mapGet_cons]
      by_cases h : k' = k
      · simp [h]
      · have : ¬ k = k' := fun e => h e.symm
        simp [h, this]
    · simp only [mapSet, beq_iff_eq, he, if_false, mapGet_cons, ih]
      by_cases h : k' = k
      · subst h
        simp [he]
      · simp [h]

theorem parseLine_none_iff (U : UnicodeTables) (st : sectionedParser σ) (w : σ) (l : Str) :
    st.parseLine U w l = none ↔ foreignLine U st.annotation l = true := by
  unfold sectionedParser.parseLine foreignLine
  by_cases hm : MatchString U rxSwaggerAnnotation l = true
  · simp only [hm, if_true, Bool.true_and]
    cases st.annotation with
    | none => simp
    | some a => cases h : a.Matches l <;> simp [h]
  · simp only [hm, Bool.false_eq_true, if_false, Bool.false_and, iff_false]
    cases st.taggers.find? (fun tagger => tagger.Matches l) with
    | none =>
      simp only []
      cases st.currentTagger with
      | none => simp
      | some cur => simp only []; split <;> simp
    | some tg =>
      simp only []
      split <;> simp

/-- The effect of one processed line on the parser's fixed parts, its active
tagger and the captured lines. -/
theorem parseLine_some (U : UnicodeTables) (st st' : sectionedParser σ) (w w' : σ) (l : Str)
    (hL : ∀ t ∈ st.taggers, t.Lines = []) (hok : st.curOK)
    (h : st.parseLine U w l = some (st', w')) :
    st'.taggers = st.taggers ∧ st'.annotation = st.annotation ∧ st'.curOK ∧
      st'.currentTagger.map (fun t => t.Name) =
        nextCur U st.taggers (st.currentTagger.map (fun t => t.Name)) l ∧
      ∀ name, st'.captured name =
        st.captured name ++ emit U st.taggers (st.currentTagger.map (fun t => t.Name)) l name := by
  unfold sectionedParser.parseLine at h
  unfold nextCur emit
  by_cases hm : MatchString U rxSwaggerAnnotation l = true
  · simp only [hm, if_true] at h ⊢
    cases ha : st.annotation with
    | none => simp [ha] at h
    | some a =>
      simp only [ha] at h
      cases hma : a.Matches l with
      | false => simp [hma] at h
      | true =>
        simp only [hma, Bool.not_true, Bool.false_eq_true, if_false, Option.some.injEq,
          Prod.mk.injEq] at h
        obtain ⟨rfl, _⟩ := h
        split <;> simp_all [sectionedParser.curOK, sectionedParser.captured]
  · simp only [hm, Bool.false_eq_true, if_false] at h ⊢
    cases hf : st.taggers.find? (fun tagger => tagger.Matches l) with
    | some tg =>
      have htg : tg ∈ st.taggers := List.mem_of_find?_eq_some hf
      simp only [hf] at h ⊢
      cases hml : tg.MultiLine with
      | true =>
        simp only [hml, Bool.true_and, if_true, Option.some.injEq, Prod.mk.injEq] at h
        obtain ⟨rfl, _⟩ := h
        refine ⟨rfl, rfl, ?_, by simp [hml], by simp [sectionedParser.captured, hml]⟩
        intro c hc
        simp only [Option.some.injEq] at hc
        subst hc
        exact ⟨htg, hml⟩
      | false =>
        simp only [hml, Bool.false_and, Bool.false_eq_true, if_false, Bool.not_false, if_true,
          Option.some.injEq, Prod.mk.injEq] at h
        obtain ⟨rfl, _⟩ := h
        refine ⟨rfl, rfl, ?_, by simp [hml], ?_⟩
        · intro c hc; simp at hc
        · intro name
          simp only [sectionedParser.captured, mapGet_mapSet, hml, Bool.false_eq_true, if_false]
          by_cases hn : name = tg.Name
          · subst hn
            cases hg : mapGet st.matched tg.Name with
            | none => simp [hL tg htg]
            | some e => simp
          · have hn' : ¬ tg.Name = name := fun e => hn e.symm
            simp [hn, hn']
    | none =>
      simp only [hf] at h ⊢
      cases hc : st.currentTagger with
      | none =>
        simp only [hc, Option.some.injEq, Prod.mk.injEq] at h
        obtain ⟨rfl, _⟩ := h
        split <;> simp_all [sectionedParser.curOK, sectionedParser.captured]
      | some cur =>
        obtain ⟨hcm, hcml⟩ := hok cur hc
        simp only [hc, hcml, Bool.true_and, Bool.false_eq_true, if_false, Bool.not_true,
          Option.some.injEq, Prod.mk.injEq] at h
        obtain ⟨rfl, _⟩ := h
        refine ⟨rfl, rfl, ?_, by simp [hc], ?_⟩
        · intro c hc'
          simp only [hc] at hc'
          exact hok c (hc ▸ hc')
        · intro name
          simp only [sectionedParser.captured, mapGet_mapSet, Option.map_some',
            Option.some.injEq]
          by_cases hn : name = cur.Name
          · subst hn
            cases hg : mapGet st.matched cur.Name with
            | none => simp [hL cur hcm]
            | some e => simp
          · have hn' : ¬ cur.Name = name := fun e => hn e.symm
            simp [hn, hn']

theorem parseLine_header (U : UnicodeTables) (st st' : sectionedParser σ) (w w' : σ) (l : Str)
    (h : st.parseLine U w l = some (st', w')) :
    st'.annotation = st.annotation ∧ st'.taggers = st.taggers ∧
    (st.seenTag = true → st'.seenTag = true ∧ st'.header = st.header) ∧
    (tagMatch U st.taggers l ≠ none → st'.seenTag = true ∧ st'.header = st.header) := by
  unfold sectionedParser.parseLine at h
  unfold tagMatch
  by_cases hm : MatchString U rxSwaggerAnnotation l = true
  · simp only [hm, if_true] at h ⊢
    cases ha : st.annotation with
    | none => simp [ha] at h
    | some a =>
      simp only [ha] at h
      cases hma : a.Matches l with
      | false => simp [hma] at h
      | true =>
        simp only [hma, Bool.not_true, Bool.false_eq_true, if_false, Option.some.injEq,
          Prod.mk.injEq] at h
        obtain ⟨rfl, _⟩ := h
        split <;> simp_all
  · simp only [hm, Bool.false_eq_true, if_false] at h ⊢
    cases hf : st.taggers.find? (fun tagger => tagger.Matches l) with
    | some tg =>
      simp only [hf] at h ⊢
      split at h
      · simp only [Option.some.injEq, Prod.mk.injEq] at h
        obtain ⟨rfl, _⟩ := h
        simp
      · simp only [Option.some.injEq, Prod.mk.injEq] at h
        obtain ⟨rfl, _⟩ := h
        split <;> simp
    | none =>
      simp only [hf] at h ⊢
      cases hc : st.currentTagger with
      | none =>
        simp only [hc, Option.some.injEq, Prod.mk.injEq] at h
        obtain ⟨rfl, _⟩ := h
        refine ⟨?_, ?_, fun hs => ?_, fun hx => absurd rfl hx⟩
        · split <;> rfl
        · split <;> rfl
        · simp [hs]
      | some cur =>
        simp only [hc] at h
        split at h
        · simp only [Option.some.injEq, Prod.mk.injEq] at h
          obtain ⟨rfl, _⟩ := h
          simp
        · simp only [Option.some.injEq, Prod.mk.injEq] at h
          obtain ⟨rfl, _⟩ := h
          refine ⟨?_, ?_, fun hs => ?_, fun hx => absurd rfl hx⟩
          · split <;> rfl
          · split <;> rfl
          · split <;> simp [hs]

theorem parseComment_append (U : UnicodeTables) (l1 l2 : List Str) :
    ∀ (st : sectionedParser σ) (w : σ),
      sectionedParser.parseComment U (l1 ++ l2) st w =
        match sectionedParser.parseComment U l1 st w with
        | (st', w', true) => (st', w', true)
        | (st', w', false) => sectionedParser.parseComment U l2 st' w' := by
  induction l1 with
  | nil => intro st w; simp [sectionedParser.parseComment]
  | cons l rest ih =>
    intro st w
    simp only [List.cons_append, sectionedParser.parseComment]
    cases h : st.parseLine U w l with
    | none => rfl
    | some r => obtain ⟨st1, w1⟩ := r; exact ih st1 w1

/-- The nested loops of `Parse` read the lines of the group in order. -/
theorem parseComments_eq (U : UnicodeTables) (doc : List Str) :
    ∀ (st : sectionedParser σ) (w : σ),
      sectionedParser.parseComments U doc st w =
        ((sectionedParser.parseComment U (commentLines doc) st w).1,
          (sectionedParser.parseComment U (commentLines doc) st w).2.1) := by
  induction doc with
  | nil => intro st w; rfl
  | cons c rest ih =>
    intro st w
    simp only [commentLines, List.flatMap_cons] at ih ⊢
    rw [parseComment_append, sectionedParser.parseComments]
    rcases h : sectionedParser.parseComment U (splitLines c) st w with ⟨st1, w1, b⟩
    cases b
    · simp only [ih]
    · rfl

/-- Once a line is foreign, the loops stop: nothing after it is read. -/
theorem parseComment_foreign (U : UnicodeTables) (pre : List Str) (a : Str) (post : List Str) :
    ∀ (st : sectionedParser σ) (w : σ), foreignLine U st.annotation a = true →
      (sectionedParser.parseComment U (pre ++ a :: post) st w).1 =
          (sectionedParser.parseComment U pre st w).1 ∧
        (sectionedParser.parseComment U (pre ++ a :: post) st w).2.1 =
          (sectionedParser.parseComment U pre st w).2.1 := by
  induction pre with
  | nil =>
    intro st w ha
    simp [sectionedParser.parseComment, (parseLine_none_iff U st w a).2 ha]
  | cons l rest ih =>
    intro st w ha
    simp only [List.cons_append, sectionedParser.parseComment]
    cases h : st.parseLine U w l with
    | none => exact ⟨rfl, rfl⟩
    | some r =>
      obtain ⟨st1, w1⟩ := r
      have hann : st1.annotation = st.annotation := (parseLine_header U st st1 w w1 l h).1
      exact ih st1 w1 (hann ▸ ha)

/-- The captured lines after the loops, from those before and the lines read. -/
theorem parseComment_trace (U : UnicodeTables) (lines : List Str) :
    ∀ (st : sectionedParser σ) (w : σ), (∀ t ∈ st.taggers, t.Lines = []) → st.curOK →
      (sectionedParser.parseComment U lines st w).1.taggers = st.taggers ∧
      sectionedParser.annotation (sectionedParser.parseComment U lines st w).1 = st.annotation ∧
      ∀ name, (sectionedParser.parseComment U lines st w).1.captured name =
        st.captured name ++ emits U st.taggers name (st.currentTagger.map (fun t => t.Name))
          (lines.takeWhile (fun l => !foreignLine U st.annotation l)) := by
  induction lines with
  | nil => intro st w _ _; simp [sectionedParser.parseComment, emits]
  | cons l rest ih =>
    intro st w hL hok
    simp only [sectionedParser.parseComment]
    cases h : st.parseLine U w l with
    | none =>
      have hf := (parseLine_none_iff U st w l).1 h
      simp [List.takeWhile, hf, emits]
    | some r =>
      obtain ⟨st1, w1⟩ := r
      have hf : foreignLine U st.annotation l = false := by
        cases hc : foreignLine U st.annotation l with
        | false => rfl
        | true => rw [(parseLine_none_iff U st w l).2 hc] at h; simp at h
      obtain ⟨ht, ha, hok1, hcur, hcap⟩ := parseLine_some U st st1 w w1 l hL hok h
      obtain ⟨i1, i2, i3⟩ := ih st1 w1 (ht ▸ hL) hok1
      refine ⟨i1.trans ht, i2.trans ha, fun name => ?_⟩
      simp only [i3 name, hcap name, List.takeWhile, hf, Bool.not_false, emits, ht, ha, hcur,
        List.append_assoc]

theorem parseComment_flag (U : UnicodeTables) (lines : List Str) :
    ∀ (st : sectionedParser σ) (w : σ), (∀ x ∈ lines, foreignLine U st.annotation x = false) →
      (sectionedParser.parseComment U lines st w).2.2 = false := by
  induction lines with
  | nil => intro st w _; rfl
  | cons l rest ih =>
    intro st w hx
    simp only [sectionedParser.parseComment]
    cases h : st.parseLine U w l with
    | none =>
      have := (parseLine_none_iff U st w l).1 h
      rw [hx l (List.mem_cons_self _ _)] at this
      simp at this
    | some r =>
      obtain ⟨st1, w1⟩ := r
      have ha := (parseLine_header U st st1 w w1 l h).1
      exact ih st1 w1 (fun x hxm => ha ▸ hx x (List.mem_cons_of_mem _ hxm))

theorem parseComment_config (U : UnicodeTables) (lines : List Str) :
    ∀ (st : sectionedParser σ) (w : σ),
      sectionedParser.annotation (sectionedParser.parseComment U lines st w).1 = st.annotation ∧
      (sectionedParser.parseComment U lines st w).1.taggers = st.taggers ∧
      (st.seenTag = true →
        (sectionedParser.parseComment U lines st w).1.header = st.header) := by
  induction lines with
  | nil => intro st w; exact ⟨rfl, rfl, fun _ => rfl⟩
  | cons l rest ih =>
    intro st w
    simp only [sectionedParser.parseComment]
    cases h : st.parseLine U w l with
    | none => exact ⟨rfl, rfl, fun _ => rfl⟩
    | some r =>
      obtain ⟨st1, w1⟩ := r
      obtain ⟨h1, h2, h3, _⟩ := parseLine_header U st st1 w w1 l h
      obtain ⟨i1, i2, i3⟩ := ih st1 w1
      exact ⟨i1.trans h1, i2.trans h2, fun hs => (i3 (h3 hs).1).trans (h3 hs).2⟩

theorem tagMatch_eq_none_of_marker {U : UnicodeTables} (taggers : List (tagParser σ)) {l : Str}
    (h : MatchString U rxSwaggerAnnotation l = true) : tagMatch U taggers l = none := by
  simp [tagMatch, h]

theorem tagMatch_of_not_marker {U : UnicodeTables} (taggers : List (tagParser σ)) {l : Str}
    (h : MatchString U rxSwaggerAnnotation l = false) :
    tagMatch U taggers l = taggers.find? (fun tagger => tagger.Matches l) := by
  simp [tagMatch, h]

/-- Under a name that only multi-line taggers bear, the lines added are the
specified content. -/
theorem emits_multi (U : UnicodeTables) (taggers : List (tagParser σ)) (name : Str)
    (hname : ∀ t ∈ taggers, t.Name = name → t.MultiLine = true) :
    ∀ (lines : List Str) (cur : Option Str),
      emits U taggers name cur lines =
        (if cur = some name then following U taggers lines else []) ++
          capturedSpec U taggers name lines := by
  intro lines
  induction lines with
  | nil => intro cur; simp [emits, following, capturedSpec]
  | cons l rest ih =>
    intro cur
    simp only [emits, ih, capturedSpec]
    by_cases hm : MatchString U rxSwaggerAnnotation l = true
    · have ht : tagMatch U taggers l = none := tagMatch_eq_none_of_marker taggers hm
      simp [emit, nextCur, hm, ht, following, List.takeWhile, List.filter]
    · have hm' : MatchString U rxSwaggerAnnotation l = false := by simpa using hm
      have ht := tagMatch_of_not_marker taggers hm'
      cases hf : taggers.find? (fun tagger => tagger.Matches l) with
      | none =>
        rw [hf] at ht
        by_cases hc : cur = some name
        · simp [emit, nextCur, hm', hf, ht, following, List.takeWhile, List.filter, hc]
        · simp [emit, nextCur, hm', hf, ht, following, List.takeWhile, List.filter, hc]
      | some tg =>
        rw [hf] at ht
        have htg : tg ∈ taggers := List.mem_of_find?_eq_some hf
        cases hml : tg.MultiLine with
        | true =>
          simp [emit, nextCur, hm', hf, ht, following, List.takeWhile, hml]
        | false =>
          have hne : ¬ tg.Name = name := fun e => by
            have := hname tg htg e
            rw [hml] at this
            exact Bool.noConfusion this
          simp [emit, nextCur, hm', hf, ht, following, List.takeWhile, hml, hne]

/-- Under a name that only single-line taggers bear, the lines added are the
lines on which such a tagger is matched. -/
theorem emits_single (U : UnicodeTables) (taggers : List (tagParser σ)) (name : Str)
    (hname : ∀ t ∈ taggers, t.Name = name → t.MultiLine = false) :
    ∀ (lines : List Str) (cur : Option Str), cur ≠ some name →
      emits U taggers name cur lines =
        lines.filter (fun l => (tagMatch U taggers l).map (fun t => t.Name) = some name) := by
  intro lines
  induction lines with
  | nil => intro cur _; simp [emits]
  | cons l rest ih =>
    intro cur hcur
    simp only [emits]
    by_cases hm : MatchString U rxSwaggerAnnotation l = true
    · have ht : tagMatch U taggers l = none := tagMatch_eq_none_of_marker taggers hm
      have e : nextCur U taggers cur l = cur := by simp [nextCur, hm]
      rw [e, ih cur hcur]
      simp [emit, hm, ht, List.filter]
    · have hm' : MatchString U rxSwaggerAnnotation l = false := by simpa using hm
      have ht := tagMatch_of_not_marker taggers hm'
      cases hf : taggers.find? (fun tagger => tagger.Matches l) with
      | none =>
        rw [hf] at ht
        have e : nextCur U taggers cur l = cur := by simp [nextCur, hm', hf]
        rw [e, ih cur hcur]
        simp [emit, hm', hf, ht, List.filter, hcur]
      | some tg =>
        rw [hf] at ht
        have htg : tg ∈ taggers := List.mem_of_find?_eq_some hf
        cases hml : tg.MultiLine with
        | true =>
          have hne : ¬ tg.Name = name := fun e => by
            have := hname tg htg e
            rw [hml] at this
            exact Bool.noConfusion this
          have e : nextCur U taggers cur l = some tg.Name := by simp [nextCur, hm', hf, hml]
          rw [e, ih (some tg.Name) (by simpa using hne)]
          simp [emit, hm', hf, ht, List.filter, hml, hne]
        | false =>
          have e : nextCur U taggers cur l = none := by simp [nextCur, hm', hf, hml]
          rw [e, ih none (by simp)]
          by_cases hn : tg.Name = name
          · simp [emit, hm', hf, ht, List.filter, hml, hn]
          · simp [emit, hm', hf, ht, List.filter, hml, hn]

theorem mem_capturedSpec (U : UnicodeTables) (taggers : List (tagParser σ)) (name : Str) :
    ∀ (lines : List Str) (x : Str), x ∈ capturedSpec U taggers name lines →
      x ∈ lines ∧ MatchString U rxSwaggerAnnotation x = false ∧
        ∀ t ∈ taggers, t.Matches x = false := by
  intro lines
  induction lines with
  | nil => intro x hx; simp [capturedSpec] at hx
  | cons l rest ih =>
    intro x hx
    simp only [capturedSpec, List.mem_append] at hx
    rcases hx with hx | hx
    · split at hx
      · simp only [following, List.mem_filter, Bool.not_eq_true', ] at hx
        obtain ⟨hx1, hx2⟩ := hx
        have hx3 := List.mem_takeWhile_imp hx1
        refine ⟨List.mem_cons_of_mem _ (List.takeWhile_subset _ hx1), hx2, ?_⟩
        rw [tagMatch_of_not_marker taggers hx2] at hx3
        simp only [Option.isNone_iff_eq_none, List.find?_eq_none, Bool.not_eq_true] at hx3
        exact hx3
      · simp at hx
    · obtain ⟨h1, h2⟩ := ih x hx
      exact ⟨List.mem_cons_of_mem _ h1, h2⟩

theorem mediaParser_lines : ∀ t ∈ mediaParser.taggers, t.Lines = [] := by
  intro t ht
  simp only [mediaParser, sectionedParser.new, List.mem_cons, List.mem_singleton,
    List.not_mem_nil, or_false] at ht
  rcases ht with rfl | rfl <;> rfl

theorem fieldParser_lines : ∀ t ∈ fieldParser.taggers, t.Lines = [] := by
  intro t ht
  simp only [fieldParser, sectionedParser.new, List.mem_cons, List.mem_singleton,
    List.not_mem_nil, or_false] at ht
  subst ht
  rfl

theorem matchString_head_swap {U : UnicodeTables} {r : Regex} {a b : Char} {rest : Str}
    (h : run U r ⟨a :: rest, []⟩ = run U r ⟨b :: rest, []⟩) :
    MatchString U r (a :: rest) = MatchString U r (b :: rest) := by
  simp only [MatchString, find, h]
  cases (run U r ⟨b :: rest, []⟩).head? <;> simp

theorem setMaximum_Parse_matched {U : UnicodeTables} {rx : Regex} {line whole m d : Str}
    (builder : validationBuilder) (hf : FindStringSubmatch U rx line = [whole, m, d])
    (hd : d ≠ []) (hl : line ≠ []) :
    setMaximum.Parse U ⟨rx⟩ [line] builder =
      (match ParseFloat d with
       | .ok v => (none, builder ++ [.SetMaximum v (m == ['<'])])
       | .error err => (some err, builder)) := by
  have hl' : line.length ≠ 0 := by simpa using hl
  have hd' : 0 < d.length := List.length_pos.2 hd
  simp only [setMaximum.Parse, hf, List.length_nil, hl', and_false, if_false, List.length_cons,
    List.getD_cons_succ, List.getD_cons_zero]
  simp [hd']
  cases ParseFloat d <;> rfl

theorem setMinimum_Parse_matched {U : UnicodeTables} {rx : Regex} {line whole m d : Str}
    (builder : validationBuilder) (hf : FindStringSubmatch U rx line = [whole, m, d])
    (hd : d ≠ []) (hl : line ≠ []) :
    setMinimum.Parse U ⟨rx⟩ [line] builder =
      (match ParseFloat d with
       | .ok v => (none, builder ++ [.SetMinimum v (m == ['>'])])
       | .error err => (some err, builder)) := by
  have hl' : line.length ≠ 0 := by simpa using hl
  have hd' : 0 < d.length := List.length_pos.2 hd
  simp only [setMinimum.Parse, hf, List.length_nil, hl', and_false, if_false, List.length_cons,
    List.getD_cons_succ, List.getD_cons_zero]
  simp [hd']
  cases ParseFloat d <;> rfl

/-! ## The claims -/

/-- C1. Title/description split of `sectionedParser` with a title setter, for a
header with at least one content line: with `H` the cleaned header, `Title()`
is `titleOf H` and `Description()` is `descriptionOf H`, that is, the lines
before and after the first blank line of `H` when there is one, else the first
line alone and the rest when the first line ends in a Po character, else no
title and all of `H`. The two headers of the specification split as it says. -/
theorem C1_title_description_split {σ : Type} (U : UnicodeTables) (st : sectionedParser σ)
    (hset : st.setTitle.isSome = true) (hw : st.workedOutTitle = false) (ht : st.title = [])
    (hcontent : ∃ l ∈ st.header, stripComment U l ≠ []) :
    (∃ H st1 st2, cleanup U st.header = some H ∧
      st.Title U = some (titleOf U H, st1) ∧
      st1.Description U = some (descriptionOf U H, st2) ∧
      (st.Description U).map Prod.fst = some (descriptionOf U H)) ∧
    ((headerParser ["Widget is a thing.".toList, [], "It has parts.".toList]).Title latin1).map
        Prod.fst = some ["Widget is a thing.".toList] ∧
    ((headerParser ["Widget is a thing.".toList, [], "It has parts.".toList]).Description
        latin1).map Prod.fst = some ["It has parts.".toList] ∧
    ((headerParser ["free text".toList, "more text".toList]).Title latin1).map Prod.fst =
        some [] ∧
    ((headerParser ["free text".toList, "more text".toList]).Description latin1).map Prod.fst =
        some ["free text".toList, "more text".toList] := by
  refine ⟨?_, by decide, by decide, by decide, by decide⟩
  obtain ⟨l, hl, hne⟩ := hcontent
  cases hc : cleanup U st.header with
  | none => exact absurd ((cleanup_none_iff U _).1 hc l hl) hne
  | some H =>
    obtain ⟨st', h1, h2, h3, h4⟩ := collectTitleDescription_spec U st H hset hw ht hc
    have h5 : st'.collectTitleDescription U = some st' := by
      simp [sectionedParser.collectTitleDescription, h2]
    refine ⟨H, st', st', rfl, ?_, ?_, ?_⟩
    · simp [sectionedParser.Title, h1, h3]
    · simp [sectionedParser.Description, h5, h4]
    · simp [sectionedParser.Description, h1, h4]

/-- Witness of C1 on the header of the specification. -/
theorem C1_title_description_split_witness :
    (headerParser ["Widget is a thing.".toList, [], "It has parts.".toList]).setTitle.isSome
        = true ∧
    (∃ H st1 st2,
      cleanup latin1 (headerParser ["Widget is a thing.".toList, [], "It has parts.".toList]).header
        = some H ∧
      (headerParser ["Widget is a thing.".toList, [], "It has parts.".toList]).Title latin1
        = some (titleOf latin1 H, st1) ∧
      st1.Description latin1 = some (descriptionOf latin1 H, st2) ∧
      ((headerParser ["Widget is a thing.".toList, [], "It has parts.".toList]).Description
        latin1).map Prod.fst = some (descriptionOf latin1 H)) :=
  ⟨rfl, (C1_title_description_split latin1
    (headerParser ["Widget is a thing.".toList, [], "It has parts.".toList]) rfl rfl rfl
    ⟨"Widget is a thing.".toList, by decide, by decide⟩).1⟩

/-- C2. Multi-line tag boundary. For a fresh parser whose taggers have distinct
names and no lines yet, and a registered multi-line tag: the lines captured
under the tag are exactly, for each line on which the tag is matched in turn,
the following lines up to the next tag match (or the end of what is read),
without marker lines, in order; none of them carries the swagger marker and none
is accepted by any registered tagger, and no line on which a tag is matched, so
not the line that opened the tag, is among them. -/
theorem C2_multiline_tag_boundary {σ : Type} (U : UnicodeTables) (st : sectionedParser σ)
    (w : σ) (doc : List Str) (T : tagParser σ)
    (hm : st.matched = []) (hc : st.currentTagger = none)
    (hL : ∀ t ∈ st.taggers, t.Lines = [])
    (hN : (st.taggers.map (fun t => t.Name)).Nodup)
    (hT : T ∈ st.taggers) (hML : T.MultiLine = true) :
    (sectionedParser.parseComments U doc st w).1.captured T.Name =
        capturedSpec U st.taggers T.Name
          ((commentLines doc).takeWhile (fun l => !foreignLine U st.annotation l)) ∧
    (∀ l ∈ (sectionedParser.parseComments U doc st w).1.captured T.Name,
      MatchString U rxSwaggerAnnotation l = false ∧ ∀ t ∈ st.taggers, t.Matches l = false) ∧
    ∀ (l : Str) (t : tagParser σ), tagMatch U st.taggers l = some t →
      l ∉ (sectionedParser.parseComments U doc st w).1.captured T.Name := by
  have hok : st.curOK := fun c h => by rw [hc] at h; exact Option.noConfusion h
  have hname : ∀ t ∈ st.taggers, t.Name = T.Name → t.MultiLine = true := by
    intro t ht he
    have := List.inj_on_of_nodup_map hN ht hT he
    rw [this]; exact hML
  have hcap0 : st.captured T.Name = [] := by simp [sectionedParser.captured, hm, mapGet]
  have key : (sectionedParser.parseComments U doc st w).1.captured T.Name =
      capturedSpec U st.taggers T.Name
        ((commentLines doc).takeWhile (fun l => !foreignLine U st.annotation l)) := by
    rw [parseComments_eq]
    rw [(parseComment_trace U (commentLines doc) st w hL hok).2.2 T.Name, hcap0,
      emits_multi U st.taggers T.Name hname, hc]
    simp
  have hrej : ∀ l ∈ (sectionedParser.parseComments U doc st w).1.captured T.Name,
      MatchString U rxSwaggerAnnotation l = false ∧ ∀ t ∈ st.taggers, t.Matches l = false := by
    intro l hl
    rw [key] at hl
    exact (mem_capturedSpec U st.taggers T.Name _ l hl).2
  refine ⟨key, hrej, fun l t htm hl => ?_⟩
  obtain ⟨hmk, hall⟩ := hrej l hl
  rw [tagMatch_of_not_marker st.taggers hmk] at htm
  have hacc : t.Matches l = true := by simpa using List.find?_some htm
  rw [hall t (List.mem_of_find?_eq_some htm)] at hacc
  exact Bool.noConfusion hacc

/-- Witness of C2: the consumes tag of `mediaParser` on a comment with two
multi-line tags. -/
theorem C2_multiline_tag_boundary_witness :
    mediaParser.matched = [] ∧ mediaParser.currentTagger = none ∧
    (mediaParser.taggers.map (fun t => t.Name)).Nodup ∧ consumesTag.MultiLine = true ∧
    ((sectionedParser.parseComments latin1 [mediaComment] mediaParser ⟨[], []⟩).1.captured
        consumesTag.Name =
      capturedSpec latin1 mediaParser.taggers consumesTag.Name
        ((commentLines [mediaComment]).takeWhile
          (fun l => !foreignLine latin1 mediaParser.annotation l)) ∧
    (∀ l ∈ (sectionedParser.parseComments latin1 [mediaComment] mediaParser ⟨[], []⟩).1.captured
        consumesTag.Name,
      MatchString latin1 rxSwaggerAnnotation l = false ∧
        ∀ t ∈ mediaParser.taggers, t.Matches l = false) ∧
    ∀ (l : Str) (t : tagParser Operation), tagMatch latin1 mediaParser.taggers l = some t →
      l ∉ (sectionedParser.parseComments latin1 [mediaComment] mediaParser ⟨[], []⟩).1.captured
        consumesTag.Name) :=
  ⟨rfl, rfl, by decide, rfl,
    C2_multiline_tag_boundary latin1 mediaParser ⟨[], []⟩ [mediaComment] consumesTag
      rfl rfl mediaParser_lines (by decide) (List.mem_cons_self _ _) rfl⟩

/-- C3, refuted as stated: on a comment with two required directives, the
single-line tag `required` is matched twice and two lines, not one, are
captured for it and handed (cleaned) to its value parser. -/
theorem C3_single_line_tag_counterexample :
    (sectionedParser.parseComments latin1 ["// required: true\n// required: false".toList]
      fieldParser ⟨[]⟩).1.captured requiredTag.Name =
        ["// required: true".toList, "// required: false".toList] ∧
    cleanup latin1 ["// required: true".toList, "// required: false".toList] =
        some ["required: true".toList, "required: false".toList] := by
  decide

/-- C3, amended. For a fresh parser whose taggers have distinct names and no
lines yet, and a registered single-line tag: the lines captured under the tag
are exactly the lines read on which the tag is matched, in order (one line per
match, exactly one line when the tag is matched once); and after any line on
which a single-line tag is matched no tag is active. -/
theorem C3_single_line_tag_content {σ : Type} (U : UnicodeTables) (st : sectionedParser σ)
    (w : σ) (doc : List Str) (T : tagParser σ)
    (hm : st.matched = []) (hc : st.currentTagger = none)
    (hL : ∀ t ∈ st.taggers, t.Lines = [])
    (hN : (st.taggers.map (fun t => t.Name)).Nodup)
    (hT : T ∈ st.taggers) (hSL : T.MultiLine = false) :
    (sectionedParser.parseComments U doc st w).1.captured T.Name =
        ((commentLines doc).takeWhile (fun l => !foreignLine U st.annotation l)).filter
          (fun l => (tagMatch U st.taggers l).map (fun t => t.Name) = some T.Name) ∧
    ∀ (pre : List Str) (l : Str) (t : tagParser σ),
      (∀ x ∈ pre, foreignLine U st.annotation x = false) →
      tagMatch U st.taggers l = some t → t.MultiLine = false →
      (sectionedParser.parseComment U (pre ++ [l]) st w).1.currentTagger = none := by
  have hok : st.curOK := fun c h => by rw [hc] at h; exact Option.noConfusion h
  have hname : ∀ t ∈ st.taggers, t.Name = T.Name → t.MultiLine = false := by
    intro t ht he
    have := List.inj_on_of_nodup_map hN ht hT he
    rw [this]; exact hSL
  have hcap0 : st.captured T.Name = [] := by simp [sectionedParser.captured, hm, mapGet]
  constructor
  · rw [parseComments_eq]
    rw [(parseComment_trace U (commentLines doc) st w hL hok).2.2 T.Name, hcap0,
      emits_single U st.taggers T.Name hname _ _ (by rw [hc]; simp)]
    simp
  · intro pre l t hpre htm hsl
    rw [parseComment_append]
    have hflag := parseComment_flag U pre st w hpre
    obtain ⟨hcfg1, hcfg2, _⟩ := parseComment_config U pre st w
    rcases hp : sectionedParser.parseComment U pre st w with ⟨st1, w1, b⟩
    rw [hp] at hflag hcfg1 hcfg2
    simp only at hflag hcfg1 hcfg2
    subst hflag
    simp only [sectionedParser.parseComment]
    have hmk : MatchString U rxSwaggerAnnotation l = false := by
      cases hx : MatchString U rxSwaggerAnnotation l with
      | false => rfl
      | true => rw [tagMatch_eq_none_of_marker st.taggers hx] at htm; exact Option.noConfusion htm
    rw [tagMatch_of_not_marker st.taggers hmk] at htm
    simp [sectionedParser.parseLine, hmk, hcfg2, htm, hsl]

/-- Witness of the amended C3: the required tag of `fieldParser`. -/
theorem C3_single_line_tag_content_witness :
    fieldParser.matched = [] ∧ fieldParser.currentTagger = none ∧
    (fieldParser.taggers.map (fun t => t.Name)).Nodup ∧ requiredTag.MultiLine = false ∧
    ((sectionedParser.parseComments latin1 ["// The id.\n// required: true".toList]
        fieldParser ⟨[]⟩).1.captured requiredTag.Name =
      ((commentLines ["// The id.\n// required: true".toList]).takeWhile
          (fun l => !foreignLine latin1 fieldParser.annotation l)).filter
        (fun l => (tagMatch latin1 fieldParser.taggers l).map (fun t => t.Name)
          = some requiredTag.Name) ∧
    ∀ (pre : List Str) (l : Str) (t : tagParser Schema),
      (∀ x ∈ pre, foreignLine latin1 fieldParser.annotation x = false) →
      tagMatch latin1 fieldParser.taggers l = some t → t.MultiLine = false →
      (sectionedParser.parseComment latin1 (pre ++ [l]) fieldParser ⟨[]⟩).1.currentTagger
        = none) :=
  ⟨rfl, rfl, by decide, rfl,
    C3_single_line_tag_content latin1 fieldParser ⟨[]⟩ ["// The id.\n// required: true".toList]
      requiredTag rfl rfl fieldParser_lines (by decide) (List.mem_cons_self _ _) rfl⟩

/-- C4, refuted as stated: the first line is accepted by the registered
consumes tagger, yet it carries the swagger marker and is taken by the
parser's own grammar before the taggers are tried, so the line after it is
still appended to the header. -/
theorem C4_header_resumes_counterexample :
    (modelParser.taggers.any
      (fun t => t.Matches "// Consumes: +swagger:model xy".toList)) = true ∧
    (sectionedParser.parseComments latin1 ["// Consumes: +swagger:model xy\n// hello".toList]
      modelParser ⟨[], []⟩).1.header = ["// hello".toList] := by
  decide

/-- C4, amended. Header collection never resumes after a tag match: when a line
`t` of the comment group is one for which the loop over the taggers selects a
tagger (a line without the swagger marker that a registered tagger accepts),
neither `t` nor any line after it is appended to the header, whatever the
lines are, also after a completed single-line tag. -/
theorem C4_header_never_resumes {σ : Type} (U : UnicodeTables) (st : sectionedParser σ)
    (w : σ) (docPre doc : List Str) (t : Str) (post : List Str)
    (hdoc : commentLines doc = commentLines docPre ++ t :: post)
    (ht : tagMatch U st.taggers t ≠ none) :
    (sectionedParser.parseComments U doc st w).1.header =
      (sectionedParser.parseComments U docPre st w).1.header := by
  rw [parseComments_eq, parseComments_eq, hdoc, parseComment_append]
  obtain ⟨_, hcfg2, _⟩ := parseComment_config U (commentLines docPre) st w
  rcases hp : sectionedParser.parseComment U (commentLines docPre) st w with ⟨st1, w1, b⟩
  rw [hp] at hcfg2
  simp only at hcfg2
  cases b with
  | true => rfl
  | false =>
    simp only [sectionedParser.parseComment]
    cases hl : st1.parseLine U w1 t with
    | none => rfl
    | some r =>
      obtain ⟨st2, w2⟩ := r
      obtain ⟨_, _, _, h4⟩ := parseLine_header U st1 st2 w1 w2 t hl
      obtain ⟨hs, hh⟩ := h4 (hcfg2 ▸ ht)
      simp only []
      rw [(parseComment_config U post st2 w2).2.2 hs, hh]

/-- Witness of the amended C4: a required directive followed by free text. -/
theorem C4_header_never_resumes_witness :
    commentLines ["// The id.\n// required: true\n// more".toList] =
      commentLines ["// The id.".toList] ++ "// required: true".toList :: ["// more".toList] ∧
    tagMatch latin1 fieldParser.taggers "// required: true".toList ≠ none ∧
    (sectionedParser.parseComments latin1 ["// The id.\n// required: true\n// more".toList]
      fieldParser ⟨[]⟩).1.header =
    (sectionedParser.parseComments latin1 ["// The id.".toList] fieldParser ⟨[]⟩).1.header :=
  ⟨by decide, by simp [tagMatch]; decide,
    C4_header_never_resumes latin1 fieldParser ⟨[]⟩ ["// The id.".toList]
      ["// The id.\n// required: true\n// more".toList] "// required: true".toList
      ["// more".toList] (by decide) (by simp [tagMatch]; decide)⟩

/-- C5. A foreign swagger marker terminates the section: when the lines of a
comment group are those of another group followed by a line `a` that carries
the swagger marker and is not accepted by the parser's own grammar (or the
parser has none) and by any further lines `M`, the loops of `Parse` leave the
same parser (header, captured lines of every tag, every other field) and the
same targets as on the shorter group, and so does `Parse` as a whole. -/
theorem C5_foreign_marker_terminates {σ : Type} (U : UnicodeTables) (st : sectionedParser σ)
    (w : σ) (docL doc : List Str) (a : Str) (M : List Str)
    (hdoc : commentLines doc = commentLines docL ++ a :: M)
    (hmark : MatchString U rxSwaggerAnnotation a = true)
    (hann : st.annotation = none ∨ ∃ p, st.annotation = some p ∧ p.Matches a = false) :
    sectionedParser.parseComments U doc st w = sectionedParser.parseComments U docL st w ∧
    sectionedParser.Parse U st w (some doc) = sectionedParser.Parse U st w (some docL) := by
  have hf : foreignLine U st.annotation a = true := by
    rcases hann with h | ⟨p, h, hp⟩
    · simp [foreignLine, hmark, h]
    · simp [foreignLine, hmark, h, hp]
  have key : sectionedParser.parseComments U doc st w =
      sectionedParser.parseComments U docL st w := by
    rw [parseComments_eq, parseComments_eq, hdoc]
    obtain ⟨h1, h2⟩ := parseComment_foreign U (commentLines docL) a M st w hf
    rw [h1, h2]
  exact ⟨key, by simp only [sectionedParser.Parse, key]⟩

/-- Witness of C5: a route marker met by a parser without a grammar of its
own. -/
theorem C5_foreign_marker_terminates_witness :
    commentLines ["// The id.\n// +swagger:route GET /pets pets listPets\n// more".toList] =
      commentLines ["// The id.".toList] ++
        "// +swagger:route GET /pets pets listPets".toList :: ["// more".toList] ∧
    MatchString latin1 rxSwaggerAnnotation "// +swagger:route GET /pets pets listPets".toList
      = true ∧
    (sectionedParser.parseComments latin1
        ["// The id.\n// +swagger:route GET /pets pets listPets\n// more".toList]
        fieldParser ⟨[]⟩ =
      sectionedParser.parseComments latin1 ["// The id.".toList] fieldParser ⟨[]⟩ ∧
    sectionedParser.Parse latin1 fieldParser ⟨[]⟩
        (some ["// The id.\n// +swagger:route GET /pets pets listPets\n// more".toList]) =
      sectionedParser.Parse latin1 fieldParser ⟨[]⟩ (some ["// The id.".toList])) :=
  ⟨by decide, by decide,
    C5_foreign_marker_terminates latin1 fieldParser ⟨[]⟩ ["// The id.".toList]
      ["// The id.\n// +swagger:route GET /pets pets listPets\n// more".toList]
      "// +swagger:route GET /pets pets listPets".toList ["// more".toList]
      (by decide) (by decide) (Or.inl rfl)⟩

/-- C6, the code at the failing inputs: `cleanup` panics (its slice starts at
`-1`) on the empty list and on every list without a content line, and so does
`Parse`, with a title setter registered, on a comment that starts with a tag
line, whose header is empty. -/
theorem C6_cleanup_panics_without_content :
    cleanup latin1 [] = none ∧
    cleanup latin1 ["// ".toList, "//".toList] = none ∧
    (∀ (U : UnicodeTables) (lines : List Str),
      (∀ l ∈ lines, stripComment U l = []) → cleanup U lines = none) ∧
    (sectionedParser.Parse latin1 fieldParser ⟨[]⟩ (some ["// required: true".toList])).isNone
      = true :=
  ⟨by decide, by decide, fun U lines h => (cleanup_none_iff U lines).2 h, by decide⟩

/-- C7, refuted as stated: two lines match the maximum grammar, yet
`setMaximum.Parse` returns an error and never calls `SetMaximum`: one whose
number is a digit outside ASCII (superscript two is in `\p{N}`), one whose
decimal literal is beyond the range of `float64`. -/
theorem C7_bounds_parsing_counterexample :
    setMaximum.Matches latin1 ⟨rxf rxMaximumFmt .eps⟩ "Max: ²".toList = true ∧
    setMaximum.Parse latin1 ⟨rxf rxMaximumFmt .eps⟩ ["Max: ²".toList] [] =
      (some (.badNumber "ParseFloat" "²".toList), []) ∧
    setMaximum.Matches latin1 ⟨rxf rxMaximumFmt .eps⟩ hugeMaximumLine = true ∧
    setMaximum.Parse latin1 ⟨rxf rxMaximumFmt .eps⟩ [hugeMaximumLine] [] =
      (some (.outOfRange "ParseFloat" (hugeMaximumLine.drop 5)), []) := by
  refine ⟨by decide, by decide, by decide!, by decide!⟩

/-- C7, amended. For a maximum grammar built with a prefix without capture
groups and every line it matches, with marker `m` (group 1: empty, `<` or `=`)
and number text `d` (group 2, never empty): when `strconv.ParseFloat` accepts
`d`, `setMaximum.Parse` calls `SetMaximum(value of d, m == "<")` once and
returns no error; when it rejects `d`, `Parse` returns that error and leaves
the builder untouched. Symmetrically for `setMinimum.Parse` with `>`. An empty
line list and a single empty line leave the builder untouched without error;
`Maximum: <10` sets an exclusive and `Max: 10` an inclusive maximum of 10. -/
theorem C7_bounds_parsing (U : UnicodeTables) (pre : Regex) (hpre : pre.numGroups = 0)
    (line : Str) (builder : validationBuilder) :
    (setMaximum.Matches U ⟨rxf rxMaximumFmt pre⟩ line = true →
      ∃ whole m d, FindStringSubmatch U (rxf rxMaximumFmt pre) line = [whole, m, d] ∧
        (m = [] ∨ m = ['<'] ∨ m = ['=']) ∧ d ≠ [] ∧
        setMaximum.Parse U ⟨rxf rxMaximumFmt pre⟩ [line] builder =
          (match ParseFloat d with
           | .ok v => (none, builder ++ [.SetMaximum v (m == ['<'])])
           | .error err => (some err, builder))) ∧
    (setMinimum.Matches U ⟨rxf rxMinimumFmt pre⟩ line = true →
      ∃ whole m d, FindStringSubmatch U (rxf rxMinimumFmt pre) line = [whole, m, d] ∧
        (m = [] ∨ m = ['>'] ∨ m = ['=']) ∧ d ≠ [] ∧
        setMinimum.Parse U ⟨rxf rxMinimumFmt pre⟩ [line] builder =
          (match ParseFloat d with
           | .ok v => (none, builder ++ [.SetMinimum v (m == ['>'])])
           | .error err => (some err, builder))) ∧
    setMaximum.Parse U ⟨rxf rxMaximumFmt pre⟩ [] builder = (none, builder) ∧
    setMaximum.Parse U ⟨rxf rxMaximumFmt pre⟩ [[]] builder = (none, builder) ∧
    setMinimum.Parse U ⟨rxf rxMinimumFmt pre⟩ [] builder = (none, builder) ∧
    setMinimum.Parse U ⟨rxf rxMinimumFmt pre⟩ [[]] builder = (none, builder) ∧
    setMaximum.Parse latin1 ⟨rxf rxMaximumFmt .eps⟩ ["Maximum: <10".toList] [] =
      (none, [.SetMaximum ⟨false, 10, 0⟩ true]) ∧
    setMaximum.Parse latin1 ⟨rxf rxMaximumFmt .eps⟩ ["Max: 10".toList] [] =
      (none, [.SetMaximum ⟨false, 10, 0⟩ false]) ∧
    setMinimum.Parse latin1 ⟨rxf rxMinimumFmt .eps⟩ ["Minimum: >10".toList] [] =
      (none, [.SetMinimum ⟨false, 10, 0⟩ true]) := by
  refine ⟨fun hm => ?_, fun hm => ?_, rfl, by simp [setMaximum.Parse], rfl,
    by simp [setMinimum.Parse], by decide, by decide, by decide⟩
  · obtain ⟨whole, m, d, hf, hmk, hd, hl⟩ := maximum_submatch hpre hm
    exact ⟨whole, m, d, hf, hmk, hd, setMaximum_Parse_matched builder hf hd hl⟩
  · obtain ⟨whole, m, d, hf, hmk, hd, hl⟩ := minimum_submatch hpre hm
    exact ⟨whole, m, d, hf, hmk, hd, setMinimum_Parse_matched builder hf hd hl⟩

/-- Witness of the amended C7: the grammar without prefix on `Maximum: <10`. -/
theorem C7_bounds_parsing_witness :
    Regex.eps.numGroups = 0 ∧
    setMaximum.Matches latin1 ⟨rxf rxMaximumFmt .eps⟩ "Maximum: <10".toList = true ∧
    ∃ whole m d,
      FindStringSubmatch latin1 (rxf rxMaximumFmt .eps) "Maximum: <10".toList = [whole, m, d] ∧
      (m = [] ∨ m = ['<'] ∨ m = ['=']) ∧ d ≠ [] ∧
      setMaximum.Parse latin1 ⟨rxf rxMaximumFmt .eps⟩ ["Maximum: <10".toList] [] =
        (match ParseFloat d with
         | .ok v => (none, [] ++ [.SetMaximum v (m == ['<'])])
         | .error err => (some err, [])) :=
  ⟨rfl, by decide,
    (C7_bounds_parsing latin1 .eps rfl "Maximum: <10".toList []).1 (by decide)⟩

/-- C8, the code at the failing input: the multiple-of grammar has one capture
group, so `FindStringSubmatch` returns at most two entries and the test
`len(matches) > 2` of `setMultipleOf.Parse` never holds: on `multiple of: 3`,
which the grammar matches, and on every other input, `Parse` returns no error
and never calls `SetMultipleOf`. -/
theorem C8_multipleOf_never_set :
    setMultipleOf.Matches latin1 ⟨rxf rxMultipleOfFmt .eps⟩ "multiple of: 3".toList = true ∧
    FindStringSubmatch latin1 (rxf rxMultipleOfFmt .eps) "multiple of: 3".toList =
      ["multiple of: 3".toList, "3".toList] ∧
    setMultipleOf.Parse latin1 ⟨rxf rxMultipleOfFmt .eps⟩ ["multiple of: 3".toList] [] =
      (none, []) ∧
    (∀ (U : UnicodeTables) (pre : Regex) (lines : List Str) (builder : validationBuilder),
      pre.numGroups = 0 →
        setMultipleOf.Parse U ⟨rxf rxMultipleOfFmt pre⟩ lines builder = (none, builder)) :=
  ⟨by decide, by decide, by decide,
    fun U _ lines builder hpre => setMultipleOf_Parse_noop U hpre lines builder⟩

/-- C9, refuted as stated: the keyword in upper case is not accepted, by the
maximum grammar or by the required grammar. -/
theorem C9_keyword_case_counterexample :
    setMaximum.Matches latin1 ⟨rxf rxMaximumFmt .eps⟩ "MAXIMUM: 10".toList = false ∧
    MatchString latin1 rxRequired "REQUIRED: true".toList = false := by
  decide

/-- C9, amended. Directive keywords are case-insensitive in their first letter:
for each of the directive grammars, a line that starts with the keyword's first
letter in lower case is accepted exactly when the same line with that letter in
upper case is. They are not case-insensitive as a whole: `setMaximum.Matches`
accepts `maximum: 10` and `Maximum: 10` and rejects `MAXIMUM: 10` and
`maxIMUM: 10`, and the required grammar accepts `required: true` and
`Required: true` and rejects `REQUIRED: true`. -/
theorem C9_keyword_first_letter_case :
    (∀ g ∈ directiveGrammars, ∀ (U : UnicodeTables) (rest : Str),
      MatchString U g.1 (g.2.1 :: rest) = MatchString U g.1 (g.2.2 :: rest)) ∧
    setMaximum.Matches latin1 ⟨rxf rxMaximumFmt .eps⟩ "maximum: 10".toList = true ∧
    setMaximum.Matches latin1 ⟨rxf rxMaximumFmt .eps⟩ "Maximum: 10".toList = true ∧
    setMaximum.Matches latin1 ⟨rxf rxMaximumFmt .eps⟩ "MAXIMUM: 10".toList = false ∧
    setMaximum.Matches latin1 ⟨rxf rxMaximumFmt .eps⟩ "maxIMUM: 10".toList = false ∧
    MatchString latin1 rxRequired "required: true".toList = true ∧
    MatchString latin1 rxRequired "Required: true".toList = true ∧
    MatchString latin1 rxRequired "REQUIRED: true".toList = false := by
  refine ⟨?_, by decide, by decide, by decide, by decide, by decide, by decide, by decide⟩
  intro g hg U rest
  simp only [directiveGrammars, List.mem_cons, List.mem_singleton, List.not_mem_nil,
    or_false] at hg
  rcases hg with rfl | rfl | rfl | rfl | rfl | rfl | rfl | rfl | rfl | rfl | rfl | rfl |
    rfl | rfl <;>
    exact matchString_head_swap (by
      simp [rxf, rxMaximumFmt, rxMinimumFmt, rxMultipleOfFmt, rxMaxLengthFmt, rxMinLengthFmt,
        rxPatternFmt, rxCollectionFormatFmt, rxMaxItemsFmt, rxMinItemsFmt, rxUniqueFmt, rxIn,
        rxRequired, rxReadOnly, Regex.cat, run, classMem, ClassItem.mem])

/-- C10. Required toggling: on a required list that holds the field name `f`
at most once, `setRequiredSchema.Parse` for `f` with `required: true`, applied
twice, leaves exactly one occurrence of `f`, and then with `required: false`
leaves none, each time without error; and every call of `Parse`, on any
lines, keeps a required list without duplicates free of duplicates. -/
theorem C10_required_toggling (f : Str) (schema : Schema)
    (h : schema.Required.count f ≤ 1) :
    (setRequiredSchema.Parse latin1 ⟨f⟩ ["required: true".toList]
      (setRequiredSchema.Parse latin1 ⟨f⟩ ["required: true".toList] schema).2).1 = none ∧
    (setRequiredSchema.Parse latin1 ⟨f⟩ ["required: true".toList]
      (setRequiredSchema.Parse latin1 ⟨f⟩ ["required: true".toList] schema).2).2.Required.count f
        = 1 ∧
    (setRequiredSchema.Parse latin1 ⟨f⟩ ["required: false".toList]
      (setRequiredSchema.Parse latin1 ⟨f⟩ ["required: true".toList]
        (setRequiredSchema.Parse latin1 ⟨f⟩ ["required: true".toList] schema).2).2).1 = none ∧
    (setRequiredSchema.Parse latin1 ⟨f⟩ ["required: false".toList]
      (setRequiredSchema.Parse latin1 ⟨f⟩ ["required: true".toList]
        (setRequiredSchema.Parse latin1 ⟨f⟩ ["required: true".toList] schema).2).2).2.Required.count
          f = 0 ∧
    ∀ (U : UnicodeTables) (lines : List Str) (s : Schema), s.Required.Nodup →
      (setRequiredSchema.Parse U ⟨f⟩ lines s).2.Required.Nodup := by
  have hone : ∀ s : Schema, s.Required.count f ≤ 1 →
      (setRequiredSchema.Parse latin1 ⟨f⟩ ["required: true".toList] s).2.Required.count f = 1 := by
    intro s hs
    rw [setRequiredSchema_Parse_true]
    by_cases hmem : f ∈ s.Required
    · have := List.count_pos_iff.2 hmem
      simp only [hmem, if_true]
      omega
    · simp [hmem, List.count_eq_zero_of_not_mem hmem]
  have h1 := hone schema h
  have h2 := hone _ (le_of_eq h1)
  refine ⟨by rw [setRequiredSchema_Parse_true], h2, by rw [setRequiredSchema_Parse_false], ?_, ?_⟩
  · rw [setRequiredSchema_Parse_false]
    simp only [List.count_erase_self, h2]
  · intro U lines s hs
    rcases setRequiredSchema_Parse_cases U ⟨f⟩ lines s with e | ⟨hn, e⟩ | e
    · rw [e]; exact hs
    · rw [e]
      exact List.Nodup.append hs (List.nodup_singleton _) (by simpa using hn)
    · rw [e]; exact hs.erase _

/-- Witness of C10: the field `id` on the required list `[name]`. -/
theorem C10_required_toggling_witness :
    (Schema.mk ["name".toList]).Required.count "id".toList ≤ 1 ∧
    (setRequiredSchema.Parse latin1 ⟨"id".toList⟩ ["required: true".toList]
      (setRequiredSchema.Parse latin1 ⟨"id".toList⟩ ["required: true".toList]
        ⟨["name".toList]⟩).2).2.Required.count "id".toList = 1 :=
  ⟨by decide, (C10_required_toggling "id".toList ⟨["name".toList]⟩ (by decide)).2.1⟩

/-! ## Lemmas and claims on the value parsers and the type resolution -/

theorem filter_ne_erase (f : Str) :
    ∀ (l : List Str), (l.erase f).filter (fun nm => nm ≠ f) = l.filter (fun nm => nm ≠ f) := by
  intro l
  induction l with
  | nil => rfl
  | cons a t ih =>
    by_cases h : a = f
    · subst h
      simp
    · have hb : (a == f) = false := by simpa using h
      have hd : decide (a ≠ f) = true := by simpa using h
      simp only [List.erase_cons, hb, Bool.false_eq_true, if_false, List.filter_cons, hd,
        if_true, ih]

/-- C11. Required directive frame: whatever the lines and the boolean,
`setRequiredSchema.Parse` for the field `f` leaves the names other than `f` as
they were, in the same order and with the same multiplicities (the required
list without `f` is unchanged, and so is the count of every other name); only
occurrences of `f` are added or removed. -/
theorem C11_required_frame (U : UnicodeTables) (su : setRequiredSchema) (lines : List Str)
    (schema : Schema) :
    (setRequiredSchema.Parse U su lines schema).2.Required.filter (fun nm => nm ≠ su.field) =
      schema.Required.filter (fun nm => nm ≠ su.field) ∧
    ∀ nm, nm ≠ su.field →
      (setRequiredSchema.Parse U su lines schema).2.Required.count nm =
        schema.Required.count nm := by
  have key : (setRequiredSchema.Parse U su lines schema).2.Required.filter
      (fun nm => nm ≠ su.field) = schema.Required.filter (fun nm => nm ≠ su.field) := by
    rcases setRequiredSchema_Parse_cases U su lines schema with e | ⟨_, e⟩ | e
    · rw [e]
    · rw [e]; simp
    · rw [e]; exact filter_ne_erase _ _
  refine ⟨key, fun nm hnm => ?_⟩
  have h1 : ∀ l : List Str, l.count nm = (l.filter (fun x => x ≠ su.field)).count nm := by
    intro l
    rw [List.count_filter]
    simpa using hnm
  rw [h1, key, ← h1]

theorem swaggerSchemaForType_spec (typeName : Str) (prop : swaggerTypable) :
    swaggerSchemaForType typeName prop =
      (none, match primitiveTable.find? (fun e => e.1 == typeName) with
        | some e => prop ++ [.Typed e.2.1 e.2.2]
        | none => prop) := by
  by_cases h1 : typeName = "bool".toList
  · subst h1; rfl
  by_cases h2 : typeName = "string".toList
  · subst h2; rfl
  by_cases h3 : typeName = "rune".toList
  · subst h3; rfl
  by_cases h4 : typeName = "int8".toList
  · subst h4; rfl
  by_cases h5 : typeName = "int16".toList
  · subst h5; rfl
  by_cases h6 : typeName = "int32".toList
  · subst h6; rfl
  by_cases h7 : typeName = "int".toList
  · subst h7; rfl
  by_cases h8 : typeName = "int64".toList
  · subst h8; rfl
  by_cases h9 : typeName = "uint8".toList
  · subst h9; rfl
  by_cases h10 : typeName = "uint16".toList
  · subst h10; rfl
  by_cases h11 : typeName = "uint32".toList
  · subst h11; rfl
  by_cases h12 : typeName = "uint".toList
  · subst h12; rfl
  by_cases h13 : typeName = "uint64".toList
  · subst h13; rfl
  by_cases h14 : typeName = "float32".toList
  · subst h14; rfl
  by_cases h15 : typeName = "float64".toList
  · subst h15; rfl
  have e : primitiveTable.find? (fun e => e.1 == typeName) = none := by
    rw [List.find?_eq_none]
    intro x hx
    simp only [primitiveTable, List.mem_cons, List.mem_singleton, List.not_mem_nil,
      or_false] at hx
    simp only [beq_iff_eq]
    rcases hx with rfl | rfl | rfl | rfl | rfl | rfl | rfl | rfl | rfl | rfl | rfl | rfl |
      rfl | rfl | rfl <;> intro hc <;> simp_all
  rw [e]
  simp only [swaggerSchemaForType, h1, h2, h3, h4, h5, h6, h7, h8, h9, h10, h11, h12, h13, h14,
    h15, or_self, if_false]

/-- C19. Primitive mapping: for every type name `swaggerSchemaForType` returns
no error; a name of the table of primitive kinds makes exactly one call
`Typed(type, format)` with the entry of the table, and every other name leaves
the property exactly as it was. -/
theorem C19_primitive_mapping (typeName : Str) (prop : swaggerTypable) :
    (swaggerSchemaForType typeName prop).1 = none ∧
    (swaggerSchemaForType typeName prop).2 =
      (match primitiveTable.find? (fun e => e.1 == typeName) with
       | some e => prop ++ [.Typed e.2.1 e.2.2]
       | none => prop) ∧
    ((∀ e ∈ primitiveTable, e.1 ≠ typeName) → (swaggerSchemaForType typeName prop).2 = prop) := by
  rw [swaggerSchemaForType_spec]
  refine ⟨rfl, rfl, fun h => ?_⟩
  have e : primitiveTable.find? (fun e => e.1 == typeName) = none := by
    rw [List.find?_eq_none]
    intro x hx
    simpa using h x hx
  simp only [e]

/-- C12, the code at the failing inputs: the schemes grammar accepts schemes
separated by a comma alone or by a space alone, but `setSchemes.Parse` cuts the
text only at `", "`: `schemes: http,https` and `schemes: http https` hand the
setter one token, `http,https` and `http https`, which is no URL scheme; only
`schemes: http, https` yields `http` and `https`. -/
theorem C12_schemes_separators :
    setSchemes.Matches latin1 schemesParser "schemes: http,https".toList = true ∧
    setSchemes.Parse latin1 schemesParser ["schemes: http,https".toList] [] =
      (none, ["http,https".toList]) ∧
    setSchemes.Matches latin1 schemesParser "schemes: http https".toList = true ∧
    setSchemes.Parse latin1 schemesParser ["schemes: http https".toList] [] =
      (none, ["http https".toList]) ∧
    setSchemes.Parse latin1 schemesParser ["schemes: http, https".toList] [] =
      (none, ["http".toList, "https".toList]) := by
  decide

theorem scopesLoop_eq :
    ∀ (scs scopes : List Str),
      scopesLoop scs scopes = scopes ++ (scs.map trimSpace).filter (fun s => s ≠ []) := by
  intro scs
  induction scs with
  | nil => intro scopes; simp [scopesLoop]
  | cons s rest ih =>
    intro scopes
    by_cases h : trimSpace s = []
    · simp [scopesLoop, h, ih]
    · simp [scopesLoop, h, ih]

theorem SplitN_of_hasColon {l : Str} (h : hasColon l = true) :
    SplitN l ':' = [l.takeWhile (fun c => c ≠ ':'), afterColon l] := by
  unfold SplitN afterColon
  cases hd : l.dropWhile (fun c => c ≠ ':') with
  | nil =>
    exfalso
    rw [List.dropWhile_eq_nil_iff] at hd
    simp only [hasColon, List.any_eq_true, beq_iff_eq] at h
    obtain ⟨c, hc, rfl⟩ := h
    simpa using hd _ hc
  | cons a after => simp

theorem SplitN_of_not_hasColon {l : Str} (h : hasColon l = false) : SplitN l ':' = [l] := by
  unfold SplitN
  have hd : l.dropWhile (fun c => c ≠ ':') = [] := by
    rw [List.dropWhile_eq_nil_iff]
    intro c hc
    simp only [hasColon, List.any_eq_false, beq_iff_eq] at h
    simpa using h c hc
  rw [hd]

/-- The loop of `setSecurityDefinitions.Parse` adds one entry for each line
with a colon, in order. -/
theorem securityLoop_eq (U : UnicodeTables) :
    ∀ (lines : List Str) (result : List ScopeMap),
      securityLoop U lines result =
        result ++ (lines.filter hasColon).map (fun l => [(lineKey l, scopesOf U l)]) := by
  intro lines
  induction lines with
  | nil => intro result; simp [securityLoop]
  | cons l rest ih =>
    intro result
    cases h : hasColon l with
    | true =>
      simp [securityLoop, SplitN_of_hasColon h, ih, h, scopesLoop_eq, lineKey, scopesOf]
    | false =>
      simp [securityLoop, SplitN_of_not_hasColon h, ih, h]

theorem setSecurityDefinitions_Parse_eq {σ : Type} (U : UnicodeTables)
    (ss : setSecurityDefinitions σ) (lines : List Str) (w : σ)
    (hne : lines ≠ []) (hns : lines ≠ [[]]) :
    ss.Parse U lines w =
      (none, ss.set ((lines.filter hasColon).map (fun l => [(lineKey l, scopesOf U l)])) w) := by
  unfold setSecurityDefinitions.Parse
  cases lines with
  | nil => exact absurd rfl hne
  | cons l0 tl =>
    have hg : ¬ (tl.length = 0 ∧ l0.length = 0) := by
      rintro ⟨h1, h2⟩
      rw [List.length_eq_zero] at h1 h2
      subst h1 h2
      exact hns rfl
    simp only [hg, if_false, securityLoop_eq, List.nil_append]

/-- C13. Security parsing structure: for a list of lines that is neither empty
nor a single empty line, `setSecurityDefinitions.Parse` returns no error and
calls its setter once, with a list that has one entry for each line with a
colon, in line order, each entry a mapping with exactly one key, the trimmed
text before the first colon of its line; lines without a colon add nothing. -/
theorem C13_security_structure {σ : Type} (U : UnicodeTables) (ss : setSecurityDefinitions σ)
    (lines : List Str) (w : σ) (hne : lines ≠ []) (hns : lines ≠ [[]]) :
    ∃ entries : List ScopeMap,
      ss.Parse U lines w = (none, ss.set entries w) ∧
      entries.length = (lines.filter hasColon).length ∧
      entries.map (fun m => m.map Prod.fst) =
        (lines.filter hasColon).map (fun l => [trimSpace (l.takeWhile (fun c => c ≠ ':'))]) := by
  refine ⟨_, setSecurityDefinitions_Parse_eq U ss lines w hne hns, by simp, ?_⟩
  simp [lineKey, Function.comp_def]

/-- Witness of C13: two security lines and a line without a colon. -/
theorem C13_security_structure_witness :
    ["api_key:".toList, "junk".toList, "oauth2: read, write".toList] ≠ [] ∧
    ∃ entries : List ScopeMap,
      securityParser.Parse latin1
          ["api_key:".toList, "junk".toList, "oauth2: read, write".toList] [] =
        (none, keep entries []) ∧
      entries.length =
        (["api_key:".toList, "junk".toList, "oauth2: read, write".toList].filter hasColon).length ∧
      entries.map (fun m => m.map Prod.fst) =
        (["api_key:".toList, "junk".toList, "oauth2: read, write".toList].filter hasColon).map
          (fun l => [trimSpace (l.takeWhile (fun c => c ≠ ':'))]) :=
  ⟨by decide, C13_security_structure latin1 securityParser
    ["api_key:".toList, "junk".toList, "oauth2: read, write".toList] [] (by decide) (by decide)⟩

/-- C14, refuted as stated: for `oauth2: read:pets, write_pets` the scope list
stored is `readpets`, `writepets`, not the verbatim tokens `read:pets`,
`write_pets`: the colon and the underscore are removed before the text is cut. -/
theorem C14_security_scopes_counterexample :
    securityParser.Parse latin1 ["oauth2: read:pets, write_pets".toList] [] =
      (none, [[("oauth2".toList, ["readpets".toList, "writepets".toList])]]) ∧
    verbatimScopes "oauth2: read:pets, write_pets".toList =
      ["read:pets".toList, "write_pets".toList] := by
  decide

/-- C14, amended. For a list of lines that is neither empty nor a single empty
line, the scope list that `setSecurityDefinitions.Parse` stores under the name
of a line with a colon is the ordered list of the non-empty, trimmed,
comma-separated tokens of the text after the first colon from which every
character other than letters, numbers, space separators and commas has been
removed; so `oauth2: read:pets, write_pets` yields `readpets`, `writepets`, and
`oauth2: read, write` yields `read`, `write`. -/
theorem C14_security_scopes {σ : Type} (U : UnicodeTables) (ss : setSecurityDefinitions σ)
    (lines : List Str) (w : σ) (hne : lines ≠ []) (hns : lines ≠ [[]]) :
    ss.Parse U lines w =
      (none, ss.set ((lines.filter hasColon).map (fun l => [(lineKey l, scopesOf U l)])) w) ∧
    scopesOf latin1 "oauth2: read:pets, write_pets".toList =
      ["readpets".toList, "writepets".toList] ∧
    scopesOf latin1 "oauth2: read, write".toList = ["read".toList, "write".toList] :=
  ⟨setSecurityDefinitions_Parse_eq U ss lines w hne hns, by decide, by decide⟩

/-- Witness of the amended C14. -/
theorem C14_security_scopes_witness :
    ["oauth2: read:pets, write_pets".toList] ≠ [] ∧
    securityParser.Parse latin1 ["oauth2: read:pets, write_pets".toList] [] =
      (none, keep ((["oauth2: read:pets, write_pets".toList].filter hasColon).map
        (fun l => [(lineKey l, scopesOf latin1 l)])) []) :=
  ⟨by decide, (C14_security_scopes latin1 securityParser
    ["oauth2: read:pets, write_pets".toList] [] (by decide) (by decide)).1⟩

/-- One turn of the loop of `setOpResponses.Parse` is one `responsesStep`. -/
theorem responsesLoop_cons {σ : Type} (newRef : Str → Except GoError Ref) (ss : setOpResponses σ)
    (line : Str) (rest : List Str) (d : Option Response) (scr : List (Int × Response)) :
    responsesLoop newRef ss (line :: rest) d scr =
      match responsesStep newRef ss line d scr with
      | .error err => .error err
      | .ok p => responsesLoop newRef ss rest p.1 p.2 := by
  cases hc : hasColon line with
  | false =>
    have e : responsesLoop newRef ss (line :: rest) d scr = responsesLoop newRef ss rest d scr := by
      rw [responsesLoop]
      simp only [SplitN_of_not_hasColon hc]
      rfl
    rw [e]
    simp only [responsesStep, isEntry, hc, Bool.false_and, Bool.false_eq_true, if_false]
  | true =>
    have e : responsesLoop newRef ss (line :: rest) d scr =
        (if lineKey line = [] then responsesLoop newRef ss rest d scr
        else if lineValue line = [] then
          .error (.errorf "no name for %q response" [lineKey line])
        else
          match responseRef newRef ss (lineValue line) with
          | .error err => .error err
          | .ok ref =>
            if EqualFold "default".toList (lineKey line) then
              responsesLoop newRef ss rest (if d.isNone then some { Ref := ref } else d) scr
            else
              match Atoi (lineKey line) with
              | .ok sc => responsesLoop newRef ss rest d (codeSet scr sc { Ref := ref })
              | .error _ => responsesLoop newRef ss rest d scr) := by
      rw [responsesLoop]
      simp only [SplitN_of_hasColon hc]
      rfl
    rw [e]
    by_cases hk : lineKey line = []
    · simp only [responsesStep, isEntry, hc, hk, Bool.true_and, bne_self_eq_false,
        Bool.false_eq_true, if_false, if_true]
    · have hkb : (lineKey line != []) = true := by simpa using hk
      simp only [responsesStep, isEntry, hc, hk, hkb, Bool.true_and, if_false, if_true]
      by_cases hv : lineValue line = []
      · simp only [hv, if_true]
      · simp only [hv, if_false]
        cases responseRef newRef ss (lineValue line) with
        | error err => rfl
        | ok ref =>
          simp only []
          split
          · rfl
          · cases Atoi (lineKey line) <;> rfl

theorem responsesLoop_append {σ : Type} (newRef : Str → Except GoError Ref) (ss : setOpResponses σ)
    (pre rest : List Str) :
    ∀ (d : Option Response) (scr : List (Int × Response)),
      responsesLoop newRef ss (pre ++ rest) d scr =
        match responsesLoop newRef ss pre d scr with
        | .error err => .error err
        | .ok p => responsesLoop newRef ss rest p.1 p.2 := by
  induction pre with
  | nil => intro d scr; simp [responsesLoop]
  | cons l pre ih =>
    intro d scr
    rw [List.cons_append, responsesLoop_cons, responsesLoop_cons]
    cases responsesStep newRef ss l d scr with
    | error e => rfl
    | ok p => exact ih p.1 p.2

theorem codeGet_cons {V : Type} (e : Int × V) (m : List (Int × V)) (k : Int) :
    codeGet (e :: m) k = if e.1 = k then some e.2 else codeGet m k := by
  by_cases h : e.1 = k
  · simp [codeGet, List.find?_cons, h]
  · have hb : (e.1 == k) = false := by simpa using h
    simp [codeGet, List.find?_cons, h, hb]

theorem codeGet_codeSet {V : Type} (m : List (Int × V)) (k k' : Int) (v : V) :
    codeGet (codeSet m k v) k' = if k' = k then some v else codeGet m k' := by
  induction m with
  | nil =>
    simp only [codeSet, codeGet_cons]
    by_cases h : k' = k
    · simp [h]
    · have : ¬ k = k' := fun e => h e.symm
      simp [h, this, codeGet]
  | cons e m ih =>
    by_cases he : e.1 = k
    · simp only [codeSet, beq_iff_eq, he, if_true, codeGet_cons]
      by_cases h : k' = k
      · simp [h]
      · have : ¬ k = k' := fun e => h e.symm
        simp [h, this]
    · simp only [codeSet, beq_iff_eq, he, if_false, codeGet_cons, ih]
      by_cases h : k' = k
      · subst h
        simp [he]
      · simp [h]

/-- A key that is `default` in some letter case is no decimal integer. -/
theorem Atoi_of_EqualFold_default {k : Str} (h : EqualFold "default".toList k = true) :
    ∃ e, Atoi k = .error e := by
  simp only [EqualFold, beq_iff_eq] at h
  cases k with
  | nil => simp at h
  | cons c t =>
    have hc : asciiLower c = 'd' := by
      have := congrArg List.head? h
      simpa using this.symm
    have hn : (65 ≤ c.toNat ∧ c.toNat ≤ 90) ∨ c = 'd' := by
      unfold asciiLower at hc
      split at hc
      · next h1 => exact Or.inl h1
      · exact Or.inr hc
    have h43 : c ≠ '+' := by
      rintro rfl
      rcases hn with h1 | h1
      · simp at h1
      · exact absurd h1 (by decide)
    have h45 : c ≠ '-' := by
      rintro rfl
      rcases hn with h1 | h1
      · simp at h1
      · exact absurd h1 (by decide)
    have hd : digitVal c = none := by
      unfold digitVal
      rw [if_neg]
      rintro ⟨h1, h2⟩
      rcases hn with h3 | h3
      · omega
      · subst h3; simp at h2
    refine ⟨.badNumber "Atoi" (c :: t), ?_⟩
    unfold Atoi
    split
    next neg body heq =>
    have hm : (neg, body) = (false, c :: t) := by
      rw [← heq]
      split
      · next heq2 => simp only [List.cons.injEq] at heq2; exact absurd heq2.1 h43
      · next heq2 => simp only [List.cons.injEq] at heq2; exact absurd heq2.1 h45
      · rfl
    simp only [Prod.mk.injEq] at hm
    obtain ⟨rfl, rfl⟩ := hm
    simp [parseDigits, hd]

theorem responseRef_eq {σ : Type} {newRef : Str → Except GoError Ref} {mk : Str → Ref}
    (hnew : ∀ uri, newRef uri = .ok (mk uri)) (ss : setOpResponses σ) (value : Str) :
    responseRef newRef ss value = .ok (mk (refURI ss value)) := by
  unfold responseRef refURI
  cases h1 : (mapGet ss.responses value).isNone <;>
    cases h2 : (mapGet ss.definitions value).isSome <;> simp [hnew]

/-- One turn of the loop on a line that has a name, when `spec.NewRef` accepts
every text. -/
theorem responsesStep_ok {σ : Type} {newRef : Str → Except GoError Ref} {mk : Str → Ref}
    (hnew : ∀ uri, newRef uri = .ok (mk uri)) (ss : setOpResponses σ) (l : Str)
    (hl : emptyName l = false) (d : Option Response) (scr : List (Int × Response)) :
    ∃ d1 scr1, responsesStep newRef ss l d scr = .ok (d1, scr1) ∧
      d1 = (if isDefaultLine l then
          (if d.isNone then some { Ref := mk (refURI ss (lineValue l)) } else d) else d) ∧
      ∀ c, codeGet scr1 c =
        if hasCode l c then some { Ref := mk (refURI ss (lineValue l)) } else codeGet scr c := by
  unfold responsesStep
  cases he : isEntry l with
  | false =>
    refine ⟨d, scr, by simp, by simp [isDefaultLine, he], fun c => by simp [hasCode, he]⟩
  | true =>
    have hv : ¬ lineValue l = [] := by
      intro h
      simp [emptyName, he, h] at hl
    simp only [if_true, hv, if_false, responseRef_eq hnew]
    cases hdft : EqualFold "default".toList (lineKey l) with
    | true =>
      obtain ⟨e, hat⟩ := Atoi_of_EqualFold_default hdft
      refine ⟨if d.isNone then some { Ref := mk (refURI ss (lineValue l)) } else d, scr,
        ?_, ?_, fun c => ?_⟩
      · cases d <;> rfl
      · rw [isDefaultLine, he, hdft]; simp
      · simp [hasCode, he, hat]
    | false =>
      cases hat : Atoi (lineKey l) with
      | error e =>
        refine ⟨d, scr, rfl, ?_, fun c => ?_⟩
        · rw [isDefaultLine, he, hdft]; simp
        · simp [hasCode, he, hat]
      | ok sc =>
        refine ⟨d, codeSet scr sc { Ref := mk (refURI ss (lineValue l)) }, rfl, ?_, fun c => ?_⟩
        · rw [isDefaultLine, he, hdft]; simp
        · rw [codeGet_codeSet]
          simp only [hasCode, he, hat, Bool.true_and, beq_iff_eq]
          by_cases hc : c = sc
          · simp [hc]
          · have : ¬ sc = c := fun e => hc e.symm
            simp [hc, this]

/-- The loop of `setOpResponses.Parse` on lines that all have names, when
`spec.NewRef` accepts every text: the default is the one before or that of the
first `default` line, and each status code has the response of its last line or
the one before. -/
theorem responsesLoop_spec {σ : Type} {newRef : Str → Except GoError Ref} {mk : Str → Ref}
    (hnew : ∀ uri, newRef uri = .ok (mk uri)) (ss : setOpResponses σ) :
    ∀ (lines : List Str), (∀ l ∈ lines, emptyName l = false) →
      ∀ (d : Option Response) (scr : List (Int × Response)),
        ∃ d' scr', responsesLoop newRef ss lines d scr = .ok (d', scr') ∧
          d' = (if d.isNone then defaultOf mk ss lines else d) ∧
          ∀ c, codeGet scr' c =
            (match statusOf mk ss lines c with
             | some r => some r
             | none => codeGet scr c) := by
  intro lines
  induction lines with
  | nil =>
    intro _ d scr
    refine ⟨d, scr, rfl, ?_, fun c => by simp [statusOf]⟩
    cases d <;> simp [defaultOf]
  | cons l rest ih =>
    intro hval d scr
    obtain ⟨d1, scr1, hstep, hd1, hscr1⟩ :=
      responsesStep_ok hnew ss l (hval l (List.mem_cons_self _ _)) d scr
    obtain ⟨d', scr', hloop, hd', hscr'⟩ :=
      ih (fun x hx => hval x (List.mem_cons_of_mem _ hx)) d1 scr1
    refine ⟨d', scr', ?_, ?_, fun c => ?_⟩
    · rw [responsesLoop_cons, hstep]; exact hloop
    · rw [hd', hd1]
      cases hdl : isDefaultLine l with
      | true =>
        cases d with
        | none => simp [defaultOf, List.find?_cons, hdl]
        | some x => simp
      | false =>
        cases d with
        | none => simp [defaultOf, List.find?_cons, hdl]
        | some x => simp
    · rw [hscr' c, hscr1 c]
      have hs : statusOf mk ss (l :: rest) c =
          (match statusOf mk ss rest c with
           | some r => some r
           | none => if hasCode l c then some { Ref := mk (refURI ss (lineValue l)) }
              else none) := by
        simp only [statusOf, List.reverse_cons, List.find?_append]
        cases hf : List.find? (fun l => hasCode l c) rest.reverse with
        | some x => simp
        | none =>
          cases hh : hasCode l c <;> simp [List.find?_cons, hh]
      rw [hs]
      cases statusOf mk ss rest c with
      | some r => rfl
      | none =>
        cases hh : hasCode l c <;> simp

/-- A line with a key and an empty name ends the loop with an error, whatever
`spec.NewRef` does. -/
theorem responsesLoop_error {σ : Type} (newRef : Str → Except GoError Ref) (ss : setOpResponses σ)
    (bad : Str) (hbad : emptyName bad = true) (post : List Str) :
    ∀ (pre : List Str) (d : Option Response) (scr : List (Int × Response)),
      ∃ err, responsesLoop newRef ss (pre ++ bad :: post) d scr = .error err := by
  have hb : ∀ d scr, responsesStep newRef ss bad d scr =
      .error (.errorf "no name for %q response" [lineKey bad]) := by
    intro d scr
    simp only [emptyName, Bool.and_eq_true, beq_iff_eq] at hbad
    simp [responsesStep, hbad.1, hbad.2]
  intro pre
  induction pre with
  | nil =>
    intro d scr
    exact ⟨_, by rw [List.nil_append, responsesLoop_cons, hb]⟩
  | cons l pre ih =>
    intro d scr
    rw [List.cons_append, responsesLoop_cons]
    cases responsesStep newRef ss l d scr with
    | error e => exact ⟨e, rfl⟩
    | ok p => exact ih p.1 p.2

theorem responsesLoop_first_error {σ : Type} {newRef : Str → Except GoError Ref} {mk : Str → Ref}
    (hnew : ∀ uri, newRef uri = .ok (mk uri)) (ss : setOpResponses σ)
    (bad : Str) (hbad : emptyName bad = true) (post : List Str) :
    ∀ (pre : List Str), (∀ l ∈ pre, emptyName l = false) →
      ∀ (d : Option Response) (scr : List (Int × Response)),
        responsesLoop newRef ss (pre ++ bad :: post) d scr =
          .error (.errorf "no name for %q response" [lineKey bad]) := by
  intro pre hpre d scr
  rw [responsesLoop_append]
  obtain ⟨d', scr', hl, _, _⟩ := responsesLoop_spec hnew ss pre hpre d scr
  simp only [hl]
  rw [responsesLoop_cons]
  simp only [emptyName, Bool.and_eq_true, beq_iff_eq] at hbad
  simp [responsesStep, hbad.1, hbad.2]

theorem setOpResponses_Parse_loop {σ : Type} (newRef : Str → Except GoError Ref) (ss : setOpResponses σ)
    (lines : List Str) (w : σ) (hne : lines ≠ []) (hns : lines ≠ [[]]) :
    ss.Parse newRef lines w =
      match responsesLoop newRef ss lines none [] with
      | .error err => (some err, w)
      | .ok (d, scr) => (none, ss.set d scr w) := by
  unfold setOpResponses.Parse
  cases lines with
  | nil => exact absurd rfl hne
  | cons l0 tl =>
    have hg : ¬ (tl.length = 0 ∧ l0.length = 0) := by
      rintro ⟨h1, h2⟩
      rw [List.length_eq_zero] at h1 h2
      subst h1 h2
      exact hns rfl
    simp only [hg, if_false]

theorem ne_single_empty_of_isEntry (l : Str) (pre post : List Str) (h : hasColon l = true) :
    pre ++ l :: post ≠ [] ∧ pre ++ l :: post ≠ [[]] := by
  constructor
  · simp
  · intro hc
    have hm : l ∈ pre ++ l :: post := by simp
    rw [hc] at hm
    simp only [List.mem_singleton] at hm
    subst hm
    simp [hasColon] at h

theorem refURI_of_known {σ : Type} (ss : setOpResponses σ) (value : Str)
    (h : (mapGet ss.responses value).isSome ∨ (mapGet ss.definitions value).isSome) :
    refURI ss value = knownURI ss value := by
  unfold refURI knownURI
  cases h1 : mapGet ss.responses value <;> cases h2 : mapGet ss.definitions value <;>
    simp_all

theorem refURI_of_unknown {σ : Type} (ss : setOpResponses σ) (value : Str)
    (h1 : mapGet ss.responses value = none) (h2 : mapGet ss.definitions value = none) :
    refURI ss value = "#/responses/".toList ++ value := by
  simp [refURI, h1, h2]

theorem find?_map_congr {α β : Type} (p : α → Bool) (f g : α → β) (xs : List α)
    (h : ∀ x ∈ xs, f x = g x) : (xs.find? p).map f = (xs.find? p).map g := by
  cases hf : xs.find? p with
  | none => rfl
  | some x => simp [h x (List.mem_of_find?_eq_some hf)]

theorem emptyName_eq_false {l : Str} (h : lineValue l ≠ []) : emptyName l = false := by
  simp [emptyName, h]

theorem otherKey_step {σ : Type} {newRef : Str → Except GoError Ref} {mk : Str → Ref}
    (hnew : ∀ uri, newRef uri = .ok (mk uri)) (ss : setOpResponses σ) (l : Str)
    (hl : otherKey l = true) (d : Option Response) (scr : List (Int × Response)) :
    responsesStep newRef ss l d scr = .ok (d, scr) := by
  simp only [otherKey, Bool.and_eq_true, bne_iff_ne, ne_eq, Bool.not_eq_true'] at hl
  obtain ⟨⟨⟨he, hv⟩, hdft⟩, hat⟩ := hl
  unfold responsesStep
  simp only [he, if_true, hv, if_false, responseRef_eq hnew, hdft, Bool.false_eq_true]
  cases ha : Atoi (lineKey l) with
  | ok v => simp [ha] at hat
  | error e => rfl

theorem otherKey_loop {σ : Type} {newRef : Str → Except GoError Ref} {mk : Str → Ref}
    (hnew : ∀ uri, newRef uri = .ok (mk uri)) (ss : setOpResponses σ) (l : Str)
    (hl : otherKey l = true) (pre post : List Str) (d : Option Response)
    (scr : List (Int × Response)) :
    responsesLoop newRef ss (pre ++ l :: post) d scr =
      responsesLoop newRef ss (pre ++ post) d scr := by
  rw [responsesLoop_append, responsesLoop_append]
  cases responsesLoop newRef ss pre d scr with
  | error e => rfl
  | ok p =>
    simp only
    rw [responsesLoop_cons, otherKey_step hnew ss l hl]

theorem hasColon_of_otherKey {l : Str} (h : otherKey l = true) : hasColon l = true := by
  simp only [otherKey, isEntry, Bool.and_eq_true] at h
  exact h.1.1.1.1

theorem otherKey_not_default {l : Str} (h : otherKey l = true) : isDefaultLine l = false := by
  simp only [otherKey, Bool.and_eq_true, Bool.not_eq_true'] at h
  rw [isDefaultLine, h.1.2]; simp

theorem otherKey_not_code {l : Str} (h : otherKey l = true) (c : Int) : hasCode l c = false := by
  simp only [otherKey, Bool.and_eq_true] at h
  unfold hasCode
  cases ha : Atoi (lineKey l) with
  | ok v => simp [ha] at h
  | error e => simp

theorem responseRef_newRef {σ : Type} (newRef : Str → Except GoError Ref)
    (ss : setOpResponses σ) (value : Str) :
    responseRef newRef ss value = newRef (refURI ss value) := by
  unfold responseRef refURI
  cases h1 : (mapGet ss.responses value).isNone <;>
    cases h2 : (mapGet ss.definitions value).isSome <;> simp

theorem accepts_iff (newRef : Str → Except GoError Ref) (uri : Str) :
    accepts newRef uri = true ↔ newRef uri = .ok (refOr newRef uri) := by
  unfold accepts refOr
  cases newRef uri <;> simp

theorem accepts_of_ok {newRef : Str → Except GoError Ref} {uri : Str} {r : Ref}
    (h : newRef uri = .ok r) : accepts newRef uri = true ∧ refOr newRef uri = r := by
  unfold accepts refOr
  rw [h]
  exact ⟨rfl, rfl⟩

theorem accepts_false_of_error {newRef : Str → Except GoError Ref} {uri : Str} {e : GoError}
    (h : newRef uri = .error e) : accepts newRef uri = false := by
  unfold accepts
  rw [h]

theorem lineAccepted_emptyName {σ : Type} {newRef : Str → Except GoError Ref}
    {ss : setOpResponses σ} {l : Str} (h : lineAccepted newRef ss l = true) :
    emptyName l = false := by
  unfold lineAccepted at h
  unfold emptyName
  cases he : isEntry l with
  | false => rfl
  | true =>
    simp only [he, Bool.not_true, Bool.false_or, Bool.and_eq_true, bne_iff_ne, ne_eq] at h
    simp [h.1]

/-- One turn of the loop on an accepted line is the turn with a `spec.NewRef`
that accepts every text. -/
theorem responsesStep_accepted {σ : Type} (newRef : Str → Except GoError Ref)
    (ss : setOpResponses σ) (l : Str) (h : lineAccepted newRef ss l = true)
    (d : Option Response) (scr : List (Int × Response)) :
    responsesStep newRef ss l d scr =
      responsesStep (fun uri => .ok (refOr newRef uri)) ss l d scr := by
  unfold lineAccepted at h
  unfold responsesStep
  cases he : isEntry l with
  | false => rfl
  | true =>
    simp only [he, Bool.not_true, Bool.false_or, Bool.and_eq_true, bne_iff_ne, ne_eq] at h
    simp only [if_true, h.1, if_false, responseRef_newRef, (accepts_iff _ _).1 h.2]

theorem responsesStep_rejected {σ : Type} (newRef : Str → Except GoError Ref)
    (ss : setOpResponses σ) (l : Str) (h : lineAccepted newRef ss l = false)
    (d : Option Response) (scr : List (Int × Response)) :
    ∃ err, responsesStep newRef ss l d scr = .error err := by
  unfold lineAccepted at h
  unfold responsesStep
  cases he : isEntry l with
  | false => simp [he] at h
  | true =>
    simp only [he, Bool.not_true, Bool.false_or, Bool.and_eq_false_iff] at h
    by_cases hv : lineValue l = []
    · exact ⟨.errorf "no name for %q response" [lineKey l], by simp only [if_true, hv]⟩
    · have ha : accepts newRef (refURI ss (lineValue l)) = false := by
        rcases h with h | h
        · simp [hv] at h
        · exact h
      simp only [if_true, hv, if_false, responseRef_newRef]
      unfold accepts at ha
      cases hn : newRef (refURI ss (lineValue l)) with
      | error e => exact ⟨e, rfl⟩
      | ok r => rw [hn] at ha; exact Bool.noConfusion ha

theorem responsesLoop_accepted {σ : Type} (newRef : Str → Except GoError Ref)
    (ss : setOpResponses σ) :
    ∀ (lines : List Str), (∀ l ∈ lines, lineAccepted newRef ss l = true) →
      ∀ (d : Option Response) (scr : List (Int × Response)),
        responsesLoop newRef ss lines d scr =
          responsesLoop (fun uri => .ok (refOr newRef uri)) ss lines d scr := by
  intro lines
  induction lines with
  | nil => intro _ d scr; rfl
  | cons l rest ih =>
    intro h d scr
    rw [responsesLoop_cons, responsesLoop_cons,
      responsesStep_accepted newRef ss l (h l (List.mem_cons_self _ _))]
    cases responsesStep (fun uri => .ok (refOr newRef uri)) ss l d scr with
    | error e => rfl
    | ok p => exact ih (fun x hx => h x (List.mem_cons_of_mem _ hx)) p.1 p.2

/-- The loop of `setOpResponses.Parse` on lines that are all accepted: the
default is the one before or that of the first `default` line, and each status
code has the response of its last line or the one before. -/
theorem responsesLoop_accepted_spec {σ : Type} (newRef : Str → Except GoError Ref)
    (ss : setOpResponses σ) (lines : List Str)
    (h : ∀ l ∈ lines, lineAccepted newRef ss l = true)
    (d : Option Response) (scr : List (Int × Response)) :
    ∃ d1 scr1, responsesLoop newRef ss lines d scr = .ok (d1, scr1) ∧
      d1 = (if d.isNone then defaultOf (refOr newRef) ss lines else d) ∧
      ∀ c, codeGet scr1 c =
        (match statusOf (refOr newRef) ss lines c with
         | some r => some r
         | none => codeGet scr c) := by
  rw [responsesLoop_accepted newRef ss lines h]
  have hnew : ∀ uri, (fun uri => Except.ok (refOr newRef uri) : Str → Except GoError Ref) uri =
      .ok (refOr newRef uri) := fun _ => rfl
  exact responsesLoop_spec hnew ss lines (fun l hl => lineAccepted_emptyName (h l hl)) d scr

/-- The loop returns no error exactly when every line is accepted: the error
of a list of lines is the error of one of its lines. -/
theorem responsesLoop_ok_iff {σ : Type} (newRef : Str → Except GoError Ref)
    (ss : setOpResponses σ) :
    ∀ (lines : List Str) (d : Option Response) (scr : List (Int × Response)),
      (∃ p, responsesLoop newRef ss lines d scr = .ok p) ↔
        ∀ l ∈ lines, lineAccepted newRef ss l = true := by
  intro lines d scr
  constructor
  · intro hok
    induction lines generalizing d scr with
    | nil => simp
    | cons l rest ih =>
      obtain ⟨p, hp⟩ := hok
      rw [responsesLoop_cons] at hp
      cases hl : lineAccepted newRef ss l with
      | false =>
        obtain ⟨err, he⟩ := responsesStep_rejected newRef ss l hl d scr
        rw [he] at hp
        exact Except.noConfusion hp
      | true =>
        cases hs : responsesStep newRef ss l d scr with
        | error e => rw [hs] at hp; exact Except.noConfusion hp
        | ok q =>
          rw [hs] at hp
          intro x hx
          rcases List.mem_cons.1 hx with rfl | h
          · exact hl
          · exact ih q.1 q.2 ⟨p, hp⟩ x h
  · intro h
    obtain ⟨d1, scr1, hl, _⟩ := responsesLoop_accepted_spec newRef ss lines h d scr
    exact ⟨_, hl⟩

theorem Parse_error_iff {σ : Type} (newRef : Str → Except GoError Ref)
    (ss : setOpResponses σ) (lines : List Str) (w : σ) :
    (ss.Parse newRef lines w).1 = none ↔ ∀ l ∈ lines, lineAccepted newRef ss l = true := by
  by_cases hne : lines = []
  · subst hne
    simp [setOpResponses.Parse]
  by_cases hns : lines = [[]]
  · subst hns
    simp only [List.mem_singleton, forall_eq]
    constructor
    · intro _; rfl
    · intro _; rfl
  rw [setOpResponses_Parse_loop newRef ss lines w hne hns, ← responsesLoop_ok_iff newRef ss lines
    none []]
  cases responsesLoop newRef ss lines none [] with
  | error e => simp
  | ok p => simp

/-- The first line whose reference `spec.NewRef` rejects ends the loop with
the error of `spec.NewRef`. -/
theorem responsesLoop_rejected {σ : Type} (newRef : Str → Except GoError Ref)
    (ss : setOpResponses σ) (pre post : List Str) (l : Str) (err : GoError)
    (hpre : ∀ x ∈ pre, lineAccepted newRef ss x = true) (he : isEntry l = true)
    (hv : lineValue l ≠ []) (hl : newRef (refURI ss (lineValue l)) = .error err)
    (d : Option Response) (scr : List (Int × Response)) :
    responsesLoop newRef ss (pre ++ l :: post) d scr = .error err := by
  rw [responsesLoop_append]
  obtain ⟨d1, scr1, h1, _⟩ := responsesLoop_accepted_spec newRef ss pre hpre d scr
  simp only [h1]
  rw [responsesLoop_cons]
  simp only [responsesStep, he, if_true, hv, if_false, responseRef_newRef, hl]

theorem lineAccepted_of_known {σ : Type} {newRef : Str → Except GoError Ref}
    {ss : setOpResponses σ} {l : Str} {r : Ref} (hv : lineValue l ≠ [])
    (h : newRef (refURI ss (lineValue l)) = .ok r) : lineAccepted newRef ss l = true := by
  unfold lineAccepted
  simp [hv, (accepts_of_ok h).1]

/-- C15, refuted as stated: `50%off` is a known response, and with a
`spec.NewRef` that rejects the text `#/responses/50%off` the line
`200: 50%off` makes `setOpResponses.Parse` return that error without a call of
the setter; and for the empty list of lines `Parse` returns no error without a
call of the setter. A line whose reference is accepted gives one call. -/
theorem C15_responses_mapping_counterexample :
    (mapGet countingResponses.responses "50%off".toList).isSome = true ∧
    countingResponses.Parse rejectPercent ["200: 50%off".toList] 0 =
      (some (.message "invalid URL escape".toList), 0) ∧
    countingResponses.Parse rejectPercent [] 0 = (none, 0) ∧
    countingResponses.Parse rejectPercent ["200: widgetResponse".toList] 0 = (none, 1) := by
  decide

/-- C15, amended. Take a list of lines `key: name` with a non-empty key and a
non-empty name that is a known response or a known definition; the reference
of a line is `#/responses/name` when the name is a known response and
`#/definitions/name` when it is known only as a definition. If the list is not
empty and `spec.NewRef` accepts the reference of every line,
`setOpResponses.Parse` returns no error and calls its setter once with a
default and a status map such that: the default is the response of the first
line whose key is `default` in any letter case (none without such a line), and
the status map has under each integer `c` the response of the last line whose
key reads as `c` (nothing without such a line), each response holding what
`spec.NewRef` makes of the reference of its line. If `spec.NewRef` rejects the
reference of a line and accepts those of the lines before it, `Parse` returns
that error and the state it was given. On the empty list `Parse` returns no
error and the state it was given. So `200: widgetResponse`,
`default: errorResponse` gives the status map with 200 for widgetResponse and
the default errorResponse. -/
theorem C15_responses_mapping {σ : Type} (newRef : Str → Except GoError Ref)
    (ss : setOpResponses σ) (lines : List Str) (w : σ)
    (hlines : ∀ l ∈ lines, isEntry l = true ∧ lineValue l ≠ [] ∧
      ((mapGet ss.responses (lineValue l)).isSome ∨
        (mapGet ss.definitions (lineValue l)).isSome)) :
    (lines ≠ [] → (∀ l ∈ lines, ∃ r, newRef (knownURI ss (lineValue l)) = .ok r) →
      ∃ d scr, ss.Parse newRef lines w = (none, ss.set d scr w) ∧
        (∀ l ∈ lines, newRef (knownURI ss (lineValue l)) =
          .ok (refOr newRef (knownURI ss (lineValue l)))) ∧
        d = (lines.find? isDefaultLine).map
          (fun l => { Ref := refOr newRef (knownURI ss (lineValue l)) }) ∧
        ∀ c : Int, codeGet scr c = (lines.reverse.find? (fun l => hasCode l c)).map
          (fun l => { Ref := refOr newRef (knownURI ss (lineValue l)) })) ∧
    (∀ pre l post err, lines = pre ++ l :: post →
      (∀ x ∈ pre, ∃ r, newRef (knownURI ss (lineValue x)) = .ok r) →
      newRef (knownURI ss (lineValue l)) = .error err →
        ss.Parse newRef lines w = (some err, w)) ∧
    ss.Parse newRef [] w = (none, w) ∧
    widgetResponses.Parse NewRef
        ["200: widgetResponse".toList, "default: errorResponse".toList] (none, []) =
      (none, (some { Ref := { uri := "#/responses/errorResponse".toList } },
        [(200, { Ref := { uri := "#/responses/widgetResponse".toList } })])) := by
  have hns : lines ≠ [[]] := by
    intro h
    have := (hlines [] (by rw [h]; exact List.mem_singleton_self _)).1
    simp [isEntry, hasColon] at this
  have hacc : ∀ l ∈ lines, (∃ r, newRef (knownURI ss (lineValue l)) = .ok r) →
      lineAccepted newRef ss l = true := by
    intro l hl hr
    obtain ⟨r, hr⟩ := hr
    rw [← refURI_of_known ss _ (hlines l hl).2.2] at hr
    exact lineAccepted_of_known (hlines l hl).2.1 hr
  refine ⟨?_, ?_, rfl, by decide⟩
  · intro hne hok
    obtain ⟨d, scr, hl, hd, hscr⟩ := responsesLoop_accepted_spec newRef ss lines
      (fun l hl => hacc l hl (hok l hl)) none []
    refine ⟨d, scr, ?_, ?_, ?_, fun c => ?_⟩
    · rw [setOpResponses_Parse_loop newRef ss lines w hne hns, hl]
    · intro l hl
      obtain ⟨r, hr⟩ := hok l hl
      rw [hr, (accepts_of_ok hr).2]
    · rw [hd]
      simp only [Option.isNone_none, if_true, defaultOf]
      exact find?_map_congr _ _ _ _
        (fun l hl => by rw [refURI_of_known ss _ (hlines l hl).2.2])
    · rw [hscr c]
      have : statusOf (refOr newRef) ss lines c =
          (lines.reverse.find? (fun l => hasCode l c)).map
            (fun l => { Ref := refOr newRef (knownURI ss (lineValue l)) }) :=
        find?_map_congr _ _ _ _ (fun l hl => by
          rw [refURI_of_known ss _ (hlines l (List.mem_reverse.mp hl)).2.2])
      rw [this]
      cases (lines.reverse.find? (fun l => hasCode l c)) <;> simp [codeGet]
  · intro pre l post err he hpre hrej
    have hne : lines ≠ [] := by rw [he]; simp
    have hlm : l ∈ lines := by rw [he]; simp
    have hpm : ∀ x ∈ pre, x ∈ lines := by
      intro x hx; rw [he]; exact List.mem_append_left _ hx
    rw [← refURI_of_known ss _ (hlines l hlm).2.2] at hrej
    have := responsesLoop_rejected newRef ss pre post l err
      (fun x hx => hacc x (hpm x hx) (hpre x hx)) (hlines l hlm).1 (hlines l hlm).2.1 hrej none []
    rw [setOpResponses_Parse_loop newRef ss lines w hne hns, he, this]

/-- Witness of the amended C15: a status line for a known response, a status
line for a name known only as a definition, and a default line. -/
theorem C15_responses_mapping_witness :
    ∃ d scr, widgetResponses.Parse NewRef
        ["200: widgetResponse".toList, "201: Widget".toList, "Default: errorResponse".toList]
        (none, []) = (none, widgetResponses.set d scr (none, [])) ∧
      d = (["200: widgetResponse".toList, "201: Widget".toList,
          "Default: errorResponse".toList].find? isDefaultLine).map
        (fun l => { Ref := refOr NewRef (knownURI widgetResponses (lineValue l)) }) ∧
      ∀ c : Int, codeGet scr c = (["200: widgetResponse".toList, "201: Widget".toList,
          "Default: errorResponse".toList].reverse.find? (fun l => hasCode l c)).map
        (fun l => { Ref := refOr NewRef (knownURI widgetResponses (lineValue l)) }) :=
  ((C15_responses_mapping NewRef widgetResponses
    ["200: widgetResponse".toList, "201: Widget".toList, "Default: errorResponse".toList]
    (none, []) (by decide)).1 (by decide) (fun _ _ => ⟨_, rfl⟩)).imp
    (fun _ h => h.imp (fun _ h2 => ⟨h2.1, h2.2.2.1, h2.2.2.2⟩))

/-- C16. For every list of lines that contains a line `bad` with a non-empty
key and an empty name after the colon, `setOpResponses.Parse` returns an error
and the state it returns is the state it was given (the setter is not
applied), whatever `spec.NewRef` does and whatever lines come before or after.
When `spec.NewRef` accepts every text and `bad` is the first such line, the
error is `no name for %q response` with the key of `bad`; `200:` alone, and
`200:` between two valid lines, give that error with the key `200`. -/
theorem C16_responses_empty_name {σ : Type} (newRef : Str → Except GoError Ref)
    (ss : setOpResponses σ) (pre post : List Str) (bad : Str) (w : σ)
    (hbad : emptyName bad = true) :
    (∃ err, ss.Parse newRef (pre ++ bad :: post) w = (some err, w)) ∧
    (∀ mk : Str → Ref, (∀ uri, newRef uri = .ok (mk uri)) →
      (∀ l ∈ pre, emptyName l = false) →
      ss.Parse newRef (pre ++ bad :: post) w =
        (some (.errorf "no name for %q response" [lineKey bad]), w)) ∧
    widgetResponses.Parse NewRef ["200:".toList] (none, []) =
      (some (.errorf "no name for %q response" ["200".toList]), (none, [])) ∧
    widgetResponses.Parse NewRef
        ["default: errorResponse".toList, "200:  ".toList, "201: widgetResponse".toList]
        (none, []) =
      (some (.errorf "no name for %q response" ["200".toList]), (none, [])) := by
  have hcol : hasColon bad = true := by
    simp only [emptyName, isEntry, Bool.and_eq_true] at hbad
    exact hbad.1.1
  obtain ⟨hne, hns⟩ := ne_single_empty_of_isEntry bad pre post hcol
  refine ⟨?_, ?_, by decide, by decide⟩
  · obtain ⟨err, he⟩ := responsesLoop_error newRef ss bad hbad post pre none []
    exact ⟨err, by rw [setOpResponses_Parse_loop newRef ss _ w hne hns, he]⟩
  · intro mk hnew hpre
    rw [setOpResponses_Parse_loop newRef ss _ w hne hns,
      responsesLoop_first_error hnew ss bad hbad post pre hpre none []]

/-- Witness of C16: `200:` after a valid line and before another. -/
theorem C16_responses_empty_name_witness :
    emptyName "200:".toList = true ∧
    ∃ err, widgetResponses.Parse NewRef
        (["default: errorResponse".toList] ++ "200:".toList :: ["201: Widget".toList])
        (none, []) = (some err, (none, [])) :=
  ⟨by decide, (C16_responses_empty_name NewRef widgetResponses ["default: errorResponse".toList]
    ["201: Widget".toList] "200:".toList (none, []) (by decide)).1⟩

/-- C17, refuted as stated: with no known response and no known definition the
line `200: missing` gives no error, and the setter receives a status map whose
entry 200 refers to `#/responses/missing`. -/
theorem C17_unresolved_name_counterexample :
    mapGet (responsesParser [] []).responses "missing".toList = none ∧
    mapGet (responsesParser [] []).definitions "missing".toList = none ∧
    (responsesParser [] []).Parse NewRef ["200: missing".toList] (none, []) =
      (none, (none, [(200, { Ref := { uri := "#/responses/missing".toList } })])) := by
  decide

/-- C17, amended. When `spec.NewRef` accepts every text, a list of lines in
which every line with a key has a non-empty name never makes
`setOpResponses.Parse` return an error, whether the names are known or not; if
the list is neither empty nor a single empty line the setter is called once
with the default of the first `default` line and, under each integer, the
response of the last line with that key; and the reference of a name that is
neither a known response nor a known definition is `#/responses/name`. -/
theorem C17_unresolved_name {σ : Type} (newRef : Str → Except GoError Ref) (mk : Str → Ref)
    (ss : setOpResponses σ) (lines : List Str) (w : σ)
    (hnew : ∀ uri, newRef uri = .ok (mk uri))
    (hlines : ∀ l ∈ lines, emptyName l = false) :
    (ss.Parse newRef lines w).1 = none ∧
    (lines ≠ [] → lines ≠ [[]] →
      ∃ d scr, ss.Parse newRef lines w = (none, ss.set d scr w) ∧
        d = defaultOf mk ss lines ∧ ∀ c : Int, codeGet scr c = statusOf mk ss lines c) ∧
    (∀ value, mapGet ss.responses value = none → mapGet ss.definitions value = none →
      refURI ss value = "#/responses/".toList ++ value) := by
  obtain ⟨d, scr, hl, hd, hscr⟩ := responsesLoop_spec hnew ss lines hlines none []
  have key : lines ≠ [] → lines ≠ [[]] → ss.Parse newRef lines w = (none, ss.set d scr w) := by
    intro hne hns
    rw [setOpResponses_Parse_loop newRef ss lines w hne hns, hl]
  refine ⟨?_, ?_, fun value h1 h2 => refURI_of_unknown ss value h1 h2⟩
  · by_cases hne : lines = []
    · subst hne; rfl
    · by_cases hns : lines = [[]]
      · subst hns; rfl
      · rw [key hne hns]
  · intro hne hns
    refine ⟨d, scr, key hne hns, by simpa using hd, fun c => ?_⟩
    rw [hscr c]
    cases statusOf mk ss lines c <;> simp [codeGet]

/-- Witness of the amended C17: an unknown name under a status code. -/
theorem C17_unresolved_name_witness :
    (widgetResponses.Parse NewRef ["404: missing".toList] (none, [])).1 = none :=
  (C17_unresolved_name NewRef (fun u => { uri := u }) widgetResponses ["404: missing".toList]
    (none, []) (fun _ => rfl) (by decide)).1

/-- C18, refuted as stated: the key of `foo:` is neither `default` nor a
decimal integer, and the line makes `setOpResponses.Parse` fail, because the
test for an empty name comes before the key is looked at; with a name the same
key is ignored. -/
theorem C18_other_keys_counterexample :
    EqualFold "default".toList (lineKey "foo:".toList) = false ∧
    (∃ e, Atoi (lineKey "foo:".toList) = .error e) ∧
    widgetResponses.Parse NewRef ["200: widgetResponse".toList, "foo:".toList] (none, []) =
      (some (.errorf "no name for %q response" ["foo".toList]), (none, [])) ∧
    widgetResponses.Parse NewRef ["200: widgetResponse".toList, "foo: Widget".toList]
        (none, []) =
      (none, (none, [(200, { Ref := { uri := "#/responses/widgetResponse".toList } })])) :=
  ⟨by decide, ⟨_, rfl⟩, by decide, by decide⟩

/-- C18, amended. When `spec.NewRef` accepts every text, a line with a
non-empty name whose key is non-empty and neither `default` (in any letter
case) nor a decimal integer is ignored: the outcome of `setOpResponses.Parse`
(the error, or the state after the setter) is the same as without the line,
when the other lines are more than a single empty line, and the same as with
any other such line in its place, known name or not; the line is no `default`
line and carries no status code. -/
theorem C18_other_keys_ignored {σ : Type} (newRef : Str → Except GoError Ref) (mk : Str → Ref)
    (ss : setOpResponses σ) (pre post : List Str) (l : Str) (w : σ)
    (hnew : ∀ uri, newRef uri = .ok (mk uri)) (hl : otherKey l = true) :
    (pre ++ post ≠ [] → pre ++ post ≠ [[]] →
      ss.Parse newRef (pre ++ l :: post) w = ss.Parse newRef (pre ++ post) w) ∧
    (∀ l2, otherKey l2 = true →
      ss.Parse newRef (pre ++ l :: post) w = ss.Parse newRef (pre ++ l2 :: post) w) ∧
    responsesLoop newRef ss (pre ++ l :: post) none [] =
      responsesLoop newRef ss (pre ++ post) none [] ∧
    isDefaultLine l = false ∧ ∀ c : Int, hasCode l c = false := by
  obtain ⟨hne, hns⟩ := ne_single_empty_of_isEntry l pre post (hasColon_of_otherKey hl)
  refine ⟨?_, ?_, otherKey_loop hnew ss l hl pre post none [], otherKey_not_default hl,
    otherKey_not_code hl⟩
  · intro hne2 hns2
    rw [setOpResponses_Parse_loop newRef ss _ w hne hns,
      setOpResponses_Parse_loop newRef ss _ w hne2 hns2, otherKey_loop hnew ss l hl]
  · intro l2 hl2
    obtain ⟨hne2, hns2⟩ := ne_single_empty_of_isEntry l2 pre post (hasColon_of_otherKey hl2)
    rw [setOpResponses_Parse_loop newRef ss _ w hne hns,
      setOpResponses_Parse_loop newRef ss _ w hne2 hns2,
      otherKey_loop hnew ss l hl, otherKey_loop hnew ss l2 hl2]

/-- Witness of the amended C18: `foo: Widget` between two lines. -/
theorem C18_other_keys_ignored_witness :
    otherKey "foo: Widget".toList = true ∧
    responsesLoop NewRef widgetResponses
        (["200: widgetResponse".toList] ++ "foo: Widget".toList :: ["default: missing".toList])
        none [] =
      responsesLoop NewRef widgetResponses
        (["200: widgetResponse".toList] ++ ["default: missing".toList]) none [] :=
  ⟨by decide, (C18_other_keys_ignored NewRef (fun u => { uri := u }) widgetResponses
    ["200: widgetResponse".toList] ["default: missing".toList] "foo: Widget".toList (none, [])
    (fun _ => rfl) (by decide)).2.2.1⟩

/-- C20, refuted: with `type A B` and `type B string` in the package
`example.com/models`, imported without a local name, and no `strfmt` marker on
a declaration without comments, `TypeForSelector` on `models.A` returns no
error and leaves the property as it was, with no type: the case `*ast.Ident`
looks the target `B` up only to find a struct or a `strfmt` marker and then
calls `swaggerSchemaForType` on the name `B`, which is no primitive. The
selector `models.B` is typed `string`. This holds for every loaded program
that has this package, at every recursion depth and from every state of the
property. -/
theorem C20_alias_chain_untyped (co : Collaborators) (fuel : Nat) (t : Typing)
    (hq : co.Unquote (dquote :: "example.com/models".toList ++ [dquote]) =
      .ok "example.com/models".toList)
    (hp : co.Package "example.com/models".toList = some aliasPackage)
    (hs : co.strfmtName none = none) :
    TypeForSelector co (fuel + 1) aliasUser (.Ident "models".toList) "A".toList t =
      .returned none t ∧
    TypeForSelector co (fuel + 1) aliasUser (.Ident "models".toList) "B".toList t =
      .returned none { prop := t.prop ++ [.Typed "string".toList []],
                       postDecls := t.postDecls } := by
  have hsplit : (Split "example.com/models".toList "/".toList).length > 0 ∧
      (Split "example.com/models".toList "/".toList).getLast? = some "models".toList := by
    decide
  have hi : importPath co "models".toList aliasUser.Imports = "example.com/models".toList := by
    simp only [aliasUser, importPath, hq, hsplit, and_self, if_true]
  have hts : typeSpecs aliasPackage =
      [(aliasModels, declA, aliasA), (aliasModels, declB, aliasB)] := by
    decide
  have hne : ¬ "example.com/models".toList = ([] : Str) := by decide
  have hAB : ¬ (some "A".toList : Option Str) = some "B".toList := by decide
  have hBA : ¬ (some "B".toList : Option Str) = some "A".toList := by decide
  have hBs : ¬ (some "B".toList : Option Str) = some "string".toList := by decide
  have hAs : ¬ (some "A".toList : Option Str) = some "string".toList := by decide
  have hsw : swaggerSchemaForType "B".toList t.prop = (none, t.prop) := by
    rfl
  constructor
  · simp only [TypeForSelector, hi, hne, if_false, hp, hts, selectorLoop, aliasA, aliasB, declA,
      declB, if_true, hs, identLoop, hAB, hBA, hBs, hAs, hsw]
    rfl
  · simp only [TypeForSelector, hi, hne, if_false, hp, hts, selectorLoop, aliasA, aliasB, declA,
      declB, if_true, hs, identLoop, hAB, hBA, hBs, hAs]
    rfl

/-- Witness of C20: the program whose only package is `example.com/models`. -/
theorem C20_alias_chain_untyped_witness :
    TypeForSelector aliasProgram 1 aliasUser (.Ident "models".toList) "A".toList
        { prop := [], postDecls := [] } =
      .returned none { prop := [], postDecls := [] } ∧
    TypeForSelector aliasProgram 1 aliasUser (.Ident "models".toList) "B".toList
        { prop := [], postDecls := [] } =
      .returned none { prop := [] ++ [.Typed "string".toList []], postDecls := [] } :=
  C20_alias_chain_untyped aliasProgram 0 { prop := [], postDecls := [] } rfl (by decide)
    rfl

/-! ## Lemmas and claims on the scanner, the count directives and `cleanup` -/

theorem discoverLoop_false {W : Type} (co : Parsers W) (fuel : Nat) (a : appScanner W) :
    discoverLoop co fuel false a = some (none, a) := by
  cases fuel <;> rfl

theorem parseSchema_ok {W : Type} (co : Parsers W) (file : File) (a : appScanner W)
    (h : (co.schemaParse file a.definitions).1 = none) :
    parseSchema co file a =
      (none, { discovered := a.discovered ++ (co.schemaParse file a.definitions).2.2,
               input := { Definitions := (co.schemaParse file a.definitions).2.1,
                          rest := a.input.rest },
               calls := a.calls }) := by
  unfold parseSchema
  generalize co.schemaParse file a.definitions = r at h
  obtain ⟨e, defs, post⟩ := r
  simp only at h
  subst h
  rfl

theorem parseSchema_error {W : Type} (co : Parsers W) (file : File) (a : appScanner W)
    (h : (co.schemaParse file a.definitions).1 ≠ none) :
    ∃ err a1, parseSchema co file a = (some err, a1) := by
  unfold parseSchema
  generalize co.schemaParse file a.definitions = r at h
  obtain ⟨e, defs, post⟩ := r
  cases e with
  | none => exact absurd rfl h
  | some err => exact ⟨err, _, rfl⟩

/-- One pass over the queue, when the schema parser behaves on the
declarations of `decls`: either an error, or every queued name is defined
afterwards, no defined name is lost, and what is discovered is in `decls`. -/
theorem queueLoop_spec {W : Type} (co : Parsers W) (decls : List schemaDecl)
    (hparse : ∀ sd ∈ decls, ∀ defs, (co.schemaParse sd.File defs).1 = none →
      (mapGet (co.schemaParse sd.File defs).2.1 sd.Name).isSome = true ∧
      (∀ n, (mapGet defs n).isSome = true →
        (mapGet (co.schemaParse sd.File defs).2.1 n).isSome = true) ∧
      ∀ p ∈ (co.schemaParse sd.File defs).2.2, p ∈ decls) :
    ∀ (queue : List schemaDecl) (a : appScanner W), (∀ sd ∈ queue, sd ∈ decls) →
      (∀ d ∈ a.discovered, d ∈ decls) →
        ∃ err a1, queueLoop co queue a = (err, a1) ∧
          (err = none →
            (∀ n, (mapGet a.definitions n).isSome = true →
              (mapGet a1.definitions n).isSome = true) ∧
            (∀ sd ∈ queue, (mapGet a1.definitions sd.Name).isSome = true) ∧
            ∀ d ∈ a1.discovered, d ∈ decls) := by
  intro queue
  induction queue with
  | nil =>
    intro a _ hd
    exact ⟨none, a, rfl, fun _ => ⟨fun _ h => h, by simp, hd⟩⟩
  | cons sd rest ih =>
    intro a hq hd
    have hsd := hq sd (List.mem_cons_self _ _)
    by_cases he : (co.schemaParse sd.File a.definitions).1 = none
    · obtain ⟨h1, h2, h3⟩ := hparse sd hsd a.definitions he
      have hps := parseSchema_ok co sd.File
        { a with calls := a.calls ++ [(sd, a.definitions)] } he
      obtain ⟨err, a2, hl, hsp⟩ := ih
        { discovered := a.discovered ++ (co.schemaParse sd.File a.definitions).2.2,
          input := { Definitions := (co.schemaParse sd.File a.definitions).2.1,
                     rest := a.input.rest },
          calls := a.calls ++ [(sd, a.definitions)] }
        (fun x hx => hq x (List.mem_cons_of_mem _ hx))
        (by
          intro d hdm
          rcases List.mem_append.1 hdm with h | h
          · exact hd d h
          · exact h3 d h)
      refine ⟨err, a2, ?_, ?_⟩
      · rw [queueLoop, hps]
        exact hl
      · intro hn
        obtain ⟨g1, g2, g3⟩ := hsp hn
        refine ⟨fun n hn' => g1 n (h2 n hn'), ?_, g3⟩
        intro x hx
        rcases List.mem_cons.1 hx with rfl | h
        · exact g1 _ h1
        · exact g2 x h
    · obtain ⟨err, a1, hps⟩ := parseSchema_error co sd.File
        { a with calls := a.calls ++ [(sd, a.definitions)] } he
      refine ⟨some err, a1, ?_, fun h => Option.noConfusion h⟩
      rw [queueLoop, hps]

theorem filter_length_lt {α : Type} (p q : α → Bool) (l : List α)
    (himp : ∀ x ∈ l, q x = true → p x = true) (x : α) (hx : x ∈ l) (hp : p x = true)
    (hq : q x = false) : (l.filter q).length < (l.filter p).length := by
  induction l with
  | nil => simp at hx
  | cons y t ih =>
    have hle : (t.filter q).length ≤ (t.filter p).length := by
      rw [← List.countP_eq_length_filter, ← List.countP_eq_length_filter]
      exact List.countP_mono_left (fun z hz => himp z (List.mem_cons_of_mem _ hz))
    rcases List.mem_cons.1 hx with rfl | h
    · simp only [List.filter_cons, hp, hq, if_true, Bool.false_eq_true, if_false,
        List.length_cons]
      omega
    · have := ih (fun z hz => himp z (List.mem_cons_of_mem _ hz)) h
      have hy := himp y (List.mem_cons_self _ _)
      cases hqy : q y with
      | false =>
        cases hpy : p y <;> simp only [List.filter_cons, hqy, hpy, if_true,
          Bool.false_eq_true, if_false, List.length_cons] <;> omega
      | true =>
        simp only [List.filter_cons, hqy, hy hqy, if_true, List.length_cons]
        omega

/-- The loop of `processDiscovered` returns within one pass more than there
are declarations yet to define. -/
theorem discoverLoop_returns {W : Type} (co : Parsers W) (decls : List schemaDecl)
    (hparse : ∀ sd ∈ decls, ∀ defs, (co.schemaParse sd.File defs).1 = none →
      (mapGet (co.schemaParse sd.File defs).2.1 sd.Name).isSome = true ∧
      (∀ n, (mapGet defs n).isSome = true →
        (mapGet (co.schemaParse sd.File defs).2.1 n).isSome = true) ∧
      ∀ p ∈ (co.schemaParse sd.File defs).2.2, p ∈ decls) :
    ∀ (fuel : Nat) (a : appScanner W), undefinedCount decls a + 1 ≤ fuel →
      (∀ d ∈ a.discovered, d ∈ decls) →
        ∃ err a1, discoverLoop co fuel (decide (a.discovered.length > 0)) a = some (err, a1) ∧
          (err = none → a1.discovered = []) := by
  intro fuel
  induction fuel with
  | zero => intro a h; omega
  | succ fuel ih =>
    intro a hfuel hd
    cases hk : decide (a.discovered.length > 0) with
    | false =>
      refine ⟨none, a, discoverLoop_false co _ a, fun _ => ?_⟩
      simp only [gt_iff_lt, decide_eq_false_iff_not, not_lt, Nat.le_zero,
        List.length_eq_zero] at hk
      exact hk
    | true =>
      obtain ⟨err, a1, hq, hsp⟩ := queueLoop_spec co decls hparse
        (a.discovered.filter (fun d => (mapGet a.definitions d.Name).isNone))
        { a with discovered := [] }
        (fun sd hsd => hd sd (List.mem_of_mem_filter hsd)) (by simp)
      simp only [discoverLoop, hq]
      cases err with
      | some e => exact ⟨some e, a1, rfl, fun h => Option.noConfusion h⟩
      | none =>
        obtain ⟨g1, g2, g3⟩ := hsp rfl
        simp only
        cases hqe : a.discovered.filter (fun d => (mapGet a.definitions d.Name).isNone) with
        | nil =>
          rw [hqe] at hq
          simp only [queueLoop, Prod.mk.injEq, true_and] at hq
          subst hq
          refine ⟨none, _, discoverLoop_false co _ _, fun _ => rfl⟩
        | cons sd rest =>
          have hsd : sd ∈ a.discovered.filter (fun d => (mapGet a.definitions d.Name).isNone) := by
            rw [hqe]; exact List.mem_cons_self _ _
          have hlt : undefinedCount decls a1 < undefinedCount decls a := by
            unfold undefinedCount
            refine filter_length_lt _ _ decls ?_ sd (hd sd (List.mem_of_mem_filter hsd))
              (List.mem_filter.1 hsd).2 ?_
            · intro x _ hx
              cases hx' : mapGet a.definitions x.Name with
              | none => rfl
              | some v =>
                have := g1 x.Name (by
                  show (mapGet a.definitions x.Name).isSome = true
                  rw [hx']; rfl)
                rw [Option.isNone_iff_eq_none] at hx
                rw [hx] at this
                exact Bool.noConfusion this
            · have := g2 sd hsd
              cases hx' : mapGet a1.definitions sd.Name with
              | none => rw [hx'] at this; exact Bool.noConfusion this
              | some v => rfl
          exact ih a1 (by omega) g3

theorem linkedParse_family :
    ∀ sd ∈ familyDecls, ∀ defs, ((linkedProgram family).schemaParse sd.File defs).1 = none →
      (mapGet ((linkedProgram family).schemaParse sd.File defs).2.1 sd.Name).isSome = true ∧
      (∀ n, (mapGet defs n).isSome = true →
        (mapGet ((linkedProgram family).schemaParse sd.File defs).2.1 n).isSome = true) ∧
      ∀ p ∈ ((linkedProgram family).schemaParse sd.File defs).2.2, p ∈ familyDecls := by
  intro sd hsd defs _
  have key : ∀ (name : Str) (post : List schemaDecl),
      (linkedProgram family).schemaParse sd.File defs =
        (none, mapSet defs name { Required := [] }, post) →
      sd.Name = name → (∀ p ∈ post, p ∈ familyDecls) →
      (mapGet ((linkedProgram family).schemaParse sd.File defs).2.1 sd.Name).isSome = true ∧
      (∀ n, (mapGet defs n).isSome = true →
        (mapGet ((linkedProgram family).schemaParse sd.File defs).2.1 n).isSome = true) ∧
      ∀ p ∈ ((linkedProgram family).schemaParse sd.File defs).2.2, p ∈ familyDecls := by
    intro name post he hname hpost
    rw [he, hname]
    refine ⟨by simp [mapGet_mapSet], ?_, hpost⟩
    intro n hn
    simp only [mapGet_mapSet]
    split
    · rfl
    · exact hn
  simp only [familyDecls, List.mem_cons, List.mem_singleton, List.not_mem_nil, or_false] at hsd
  rcases hsd with rfl | rfl | rfl
  · exact key "Parent".toList [structDecl "Child".toList] rfl rfl (by simp [familyDecls])
  · exact key "Child".toList [structDecl "Parent".toList] rfl rfl (by simp [familyDecls])
  · exact key "Node".toList [structDecl "Node".toList] rfl rfl (by simp [familyDecls])

/-- C21. Let `decls` be the declarations of the program, a finite list, and
let the schema parser, whenever it succeeds on the file of one of them, have
the name of that declaration among the definitions afterwards, lose no name
that was defined, and discover only declarations of `decls`. Then for every
scanner whose pending declarations are in `decls`, whatever its definitions,
`processDiscovered` returns as soon as its loop is allowed one pass more than
there are declarations of `decls` with a name not yet defined; and when it
returns no error the pending list is empty. -/
theorem C21_discovery_terminates {W : Type} (co : Parsers W) (decls : List schemaDecl)
    (a : appScanner W) (fuel : Nat)
    (hparse : ∀ sd ∈ decls, ∀ defs, (co.schemaParse sd.File defs).1 = none →
      (mapGet (co.schemaParse sd.File defs).2.1 sd.Name).isSome = true ∧
      (∀ n, (mapGet defs n).isSome = true →
        (mapGet (co.schemaParse sd.File defs).2.1 n).isSome = true) ∧
      ∀ p ∈ (co.schemaParse sd.File defs).2.2, p ∈ decls)
    (hpending : ∀ d ∈ a.discovered, d ∈ decls)
    (hfuel : undefinedCount decls a + 1 ≤ fuel) :
    ∃ err a1, processDiscovered co fuel a = some (err, a1) ∧
      (err = none → a1.discovered = []) :=
  discoverLoop_returns co decls hparse fuel a hfuel hpending

/-- Witness of C21: `Parent` and `Child` refer to each other and `Node` to
itself; `Parent` and `Node` are pending. -/
theorem C21_discovery_terminates_witness :
    ∃ err a1, processDiscovered (linkedProgram family) 4
        (scannerWith () [structDecl "Parent".toList, structDecl "Node".toList]) =
          some (err, a1) ∧ (err = none → a1.discovered = []) :=
  C21_discovery_terminates (linkedProgram family) familyDecls
    (scannerWith () [structDecl "Parent".toList, structDecl "Node".toList]) 4
    linkedParse_family (by decide) (by decide)

/-- C22, refuted: let the pending list hold the declaration `d` twice, its
name not yet defined, and let the schema parser on the file of `d` always
succeed, leave the name of `d` defined and discover at most `d` itself. Then
`processDiscovered` returns without error after exactly two calls of
`parseSchema`, both for `d`, and at the second call the name of `d` is already
among the definitions: the queue is filtered against the definitions once per
pass, before the first call, and is then parsed without a further test. -/
theorem C22_pending_parsed_twice {W : Type} (co : Parsers W) (d : schemaDecl)
    (a : appScanner W) (fuel : Nat)
    (habsent : mapGet a.definitions d.Name = none)
    (hparse : ∀ defs, (co.schemaParse d.File defs).1 = none ∧
      (mapGet (co.schemaParse d.File defs).2.1 d.Name).isSome = true ∧
      ∀ p ∈ (co.schemaParse d.File defs).2.2, p = d) :
    ∃ a1 defs1, processDiscovered co (fuel + 2) { a with discovered := [d, d] } = some (none, a1) ∧
      a1.calls = a.calls ++ [(d, a.definitions), (d, defs1)] ∧
      (mapGet defs1 d.Name).isSome = true ∧ a1.discovered = [] := by
  obtain ⟨p1, p2, p3⟩ := hparse a.definitions
  obtain ⟨q1, q2, q3⟩ := hparse (co.schemaParse d.File a.definitions).2.1
  generalize hr1 : co.schemaParse d.File a.definitions = r1 at p1 p2 p3 q1 q2 q3
  obtain ⟨e1, defs1, post1⟩ := r1
  generalize hr2 : co.schemaParse d.File defs1 = r2 at q1 q2 q3
  obtain ⟨e2, defs2, post2⟩ := r2
  simp only at p1 p2 p3 q1 q2 q3
  subst p1 q1
  have hq : queueLoop co [d, d] ⟨[], a.input, a.calls⟩ =
      (none, ⟨([] ++ post1) ++ post2, ⟨defs2, a.input.rest⟩,
        (a.calls ++ [(d, a.definitions)]) ++ [(d, defs1)]⟩) := by
    simp only [queueLoop, parseSchema, appScanner.definitions] at hr1 ⊢
    simp only [hr1, hr2]
  have hfil : List.filter (fun x => (mapGet a.definitions x.Name).isNone) [d, d] = [d, d] := by
    simp [habsent]
  have hposts : List.filter (fun x => (mapGet defs2 x.Name).isNone) (([] ++ post1) ++ post2) =
      [] := by
    rw [List.filter_eq_nil_iff]
    intro x hx
    have hxd : x = d := by
      simp only [List.nil_append, List.mem_append] at hx
      rcases hx with h | h
      · exact p3 x h
      · exact q3 x h
    subst hxd
    cases hm : mapGet defs2 x.Name with
    | none => rw [hm] at q2; exact Bool.noConfusion q2
    | some v => simp
  refine ⟨⟨[], ⟨defs2, a.input.rest⟩, (a.calls ++ [(d, a.definitions)]) ++ [(d, defs1)]⟩,
    defs1, ?_, by simp, p2, rfl⟩
  simp only [appScanner.definitions] at hfil hposts
  simp only [processDiscovered, List.length_cons, List.length_nil, gt_iff_lt,
    Nat.zero_lt_succ, decide_True, discoverLoop, appScanner.definitions, hfil] at hq ⊢
  rw [hq]
  simp only
  cases hk : decide ((([] ++ post1) ++ post2).length > 0) with
  | false =>
    rw [discoverLoop_false]
    simp only [gt_iff_lt, decide_eq_false_iff_not, not_lt, Nat.le_zero,
      List.length_eq_zero] at hk
    rw [hk]
  | true =>
    simp only [discoverLoop, appScanner.definitions, hposts, queueLoop, List.length_nil,
      gt_iff_lt, Nat.lt_irrefl, decide_False]

/-- Witness of C22: the declaration `Node`, which refers to itself, pending
twice. -/
theorem C22_pending_parsed_twice_witness :
    ∃ a1 defs1, processDiscovered (linkedProgram family) 2
        { scannerWith () [] with
          discovered := [structDecl "Node".toList, structDecl "Node".toList] } =
          some (none, a1) ∧
      a1.calls = (scannerWith () []).calls ++
        [(structDecl "Node".toList, (scannerWith () []).definitions),
          (structDecl "Node".toList, defs1)] ∧
      (mapGet defs1 (structDecl "Node".toList).Name).isSome = true ∧ a1.discovered = [] :=
  C22_pending_parsed_twice (linkedProgram family) (structDecl "Node".toList) (scannerWith () []) 0
    rfl (fun defs => ⟨rfl, by
      show (mapGet (mapSet defs "Node".toList { Required := [] }) "Node".toList).isSome = true
      simp [mapGet_mapSet], by
      intro p hp
      have : p ∈ [structDecl "Node".toList] := hp
      simpa using this⟩)

/-- A loop over the files of one kind, followed by further steps, is the run
of one step per file followed by those steps. -/
theorem runSteps_rangeFiles {W : Type}
    (parse : File → appScanner W → Option GoError × appScanner W) (rest : List (Step W)) :
    ∀ (files : List File) (a : appScanner W),
      runSteps (files.map (fun file a => some (parse file a)) ++ rest) a =
        match rangeFiles parse files a with
        | (some err, a1) => some (some err, a1)
        | (none, a1) => runSteps rest a1 := by
  intro files
  induction files with
  | nil => intro a; rfl
  | cons f fs ih =>
    intro a
    simp only [List.map_cons, List.cons_append, runSteps, rangeFiles]
    rcases h : parse f a with ⟨e, a1⟩
    cases e with
    | some err => rfl
    | none => exact ih a1

/-- A run stops at the first step that returns an error: the steps after it
play no part. -/
theorem runSteps_abort {W : Type} (s : Step W) (post : List (Step W)) :
    ∀ (pre : List (Step W)) (a a1 a2 : appScanner W) (err : GoError),
      runSteps pre a = some (none, a1) → s a1 = some (some err, a2) →
        runSteps (pre ++ s :: post) a = some (some err, a2) := by
  intro pre
  induction pre with
  | nil =>
    intro a a1 a2 err h hs
    simp only [runSteps, Option.some.injEq, Prod.mk.injEq, true_and] at h
    subst h
    simp only [List.nil_append, runSteps, hs]
  | cons t pre ih =>
    intro a a1 a2 err h hs
    simp only [List.cons_append, runSteps] at h ⊢
    rcases ht : t a with _ | ⟨e, b⟩
    · rw [ht] at h; exact Option.noConfusion h
    · cases e with
      | some e1 =>
        rw [ht] at h
        simp only [Option.some.injEq, Prod.mk.injEq] at h
        exact Option.noConfusion h.1
      | none =>
        rw [ht] at h
        simp only at h ⊢
        exact ih b a1 a2 err h hs

/-- A run without error has run every step without error. -/
theorem runSteps_success {W : Type} (s : Step W) (post : List (Step W)) :
    ∀ (pre : List (Step W)) (a a3 : appScanner W),
      runSteps (pre ++ s :: post) a = some (none, a3) →
        ∃ a1 a2, runSteps pre a = some (none, a1) ∧ s a1 = some (none, a2) ∧
          runSteps post a2 = some (none, a3) := by
  intro pre
  induction pre with
  | nil =>
    intro a a3 h
    simp only [List.nil_append, runSteps] at h
    rcases hs : s a with _ | ⟨e, b⟩
    · rw [hs] at h; exact Option.noConfusion h
    · cases e with
      | some e1 =>
        rw [hs] at h
        simp only [Option.some.injEq, Prod.mk.injEq] at h
        exact Option.noConfusion h.1
      | none =>
        rw [hs] at h
        exact ⟨a, b, rfl, hs, h⟩
  | cons t pre ih =>
    intro a a3 h
    simp only [List.cons_append, runSteps] at h ⊢
    rcases ht : t a with _ | ⟨e, b⟩
    · rw [ht] at h; exact Option.noConfusion h
    · cases e with
      | some e1 =>
        rw [ht] at h
        simp only [Option.some.injEq, Prod.mk.injEq] at h
        exact Option.noConfusion h.1
      | none =>
        rw [ht] at h
        simp only at h ⊢
        exact ih b a3 h

theorem Parse_eq_runSteps {W : Type} (co : Parsers W) (fuel : Nat) (a : appScanner W)
    (cp : classifiedProgram) (hcp : co.Classify = .ok cp) :
    appScanner.Parse co fuel a =
      match runSteps (phases co fuel cp) a with
      | none => none
      | some (some err, a1) => some (none, some err, a1)
      | some (none, a1) => some (some a1.input, none, a1) := by
  have hph : phases co fuel cp =
      cp.Parameters.map (fun file a => some (parseParameters co file a)) ++
        (cp.Responses.map (fun file a => some (parseResponses co file a)) ++
          (processDiscovered co fuel ::
            (cp.Operations.map (fun file a => some (parseRoutes co file a)) ++
              (cp.Meta.map (fun file a => some (parseMeta co file a)) ++ [])))) := by
    simp [phases]
  rw [hph, runSteps_rangeFiles]
  unfold appScanner.Parse
  simp only [hcp]
  rcases h1 : rangeFiles (parseParameters co) cp.Parameters a with ⟨e1, a1⟩
  cases e1 with
  | some err => rfl
  | none =>
    simp only
    rw [runSteps_rangeFiles]
    rcases h2 : rangeFiles (parseResponses co) cp.Responses a1 with ⟨e2, a2⟩
    cases e2 with
    | some err => rfl
    | none =>
      simp only [runSteps]
      rcases h3 : processDiscovered co fuel a2 with _ | ⟨e3, a3⟩
      · rfl
      · cases e3 with
        | some err => rfl
        | none =>
          simp only
          rw [runSteps_rangeFiles]
          rcases h4 : rangeFiles (parseRoutes co) cp.Operations a3 with ⟨e4, a4⟩
          cases e4 with
          | some err => rfl
          | none =>
            simp only
            rw [runSteps_rangeFiles]
            rcases rangeFiles (parseMeta co) cp.Meta a4 with ⟨e5, a5⟩
            cases e5 with
            | some err => rfl
            | none => rfl

theorem Parse_returns {W : Type} (co : Parsers W) (fuel : Nat) (a : appScanner W)
    (h : ∀ a2, processDiscovered co fuel a2 ≠ none) : appScanner.Parse co fuel a ≠ none := by
  unfold appScanner.Parse
  cases co.Classify with
  | error err => simp
  | ok cp =>
    simp only
    rcases rangeFiles (parseParameters co) cp.Parameters a with ⟨e1, a1⟩
    cases e1 with
    | some err => simp
    | none =>
      simp only
      rcases rangeFiles (parseResponses co) cp.Responses a1 with ⟨e2, a2⟩
      cases e2 with
      | some err => simp
      | none =>
        simp only
        rcases h3 : processDiscovered co fuel a2 with _ | ⟨e3, a3⟩
        · exact absurd h3 (h a2)
        · cases e3 with
          | some err => simp
          | none =>
            simp only
            rcases rangeFiles (parseRoutes co) cp.Operations a3 with ⟨e4, a4⟩
            cases e4 with
            | some err => simp
            | none =>
              simp only
              rcases rangeFiles (parseMeta co) cp.Meta a4 with ⟨e5, a5⟩
              cases e5 <;> simp

/-- C23. `appScanner.Parse` is the classification followed by the run, in
order, of one step for every parameter unit, one for every response unit, the
schema fixed point, one step for every route unit and one for every meta unit.
An error of the classification is returned with a nil document and the scanner
untouched. A run stops at the first step that returns an error, which `Parse`
returns with a nil document, the scanner being as that step left it; and
`Parse` returns the document of the scanner, without error, exactly when the
run ends without error, which means that every step has run without error.
`Parse` returns whenever the schema fixed point does. In the traced program
the units are noted in the order parameters, parameters, responses, routes,
meta, and with a failing response unit nothing is noted after it, no
definition is made and the document is nil. -/
theorem C23_orchestration_order {W : Type} (co : Parsers W) (fuel : Nat) (a : appScanner W) :
    appScanner.Parse co fuel a =
      (match co.Classify with
       | .error err => some (none, some err, a)
       | .ok cp =>
         match runSteps (phases co fuel cp) a with
         | none => none
         | some (some err, a1) => some (none, some err, a1)
         | some (none, a1) => some (some a1.input, none, a1)) ∧
    (∀ (pre post : List (Step W)) (s : Step W) (a1 a2 : appScanner W) (err : GoError),
      runSteps pre a = some (none, a1) → s a1 = some (some err, a2) →
        runSteps (pre ++ s :: post) a = some (some err, a2)) ∧
    (∀ (pre post : List (Step W)) (s : Step W) (a3 : appScanner W),
      runSteps (pre ++ s :: post) a = some (none, a3) →
        ∃ a1 a2, runSteps pre a = some (none, a1) ∧ s a1 = some (none, a2) ∧
          runSteps post a2 = some (none, a3)) ∧
    ((∀ a2, processDiscovered co fuel a2 ≠ none) → appScanner.Parse co fuel a ≠ none) ∧
    (appScanner.Parse (tracing none) 2 (scannerWith [] [])).map
        (fun r => (r.1.map (fun doc => (doc.Definitions.map Prod.fst, doc.rest.map Prod.fst)),
          r.2.1)) =
      some (some (["Node".toList],
        ["parameters", "parameters", "responses", "routes", "meta"]), none) ∧
    (appScanner.Parse (tracing (some (structFile "R1".toList))) 2 (scannerWith [] [])).map
        (fun r => (r.1.map (fun doc => doc.rest.map Prod.fst), r.2.1,
          r.2.2.definitions.map Prod.fst, r.2.2.input.rest.map Prod.fst)) =
      some (none, some (.message "responses".toList), [],
        ["parameters", "parameters", "responses"]) := by
  refine ⟨?_, ?_, ?_, Parse_returns co fuel a, rfl, rfl⟩
  · cases hc : co.Classify with
    | error err => simp only [appScanner.Parse, hc]
    | ok cp => exact Parse_eq_runSteps co fuel a cp hc
  · intro pre post s a1 a2 err h hs
    exact runSteps_abort s post pre a a1 a2 err h hs
  · intro pre post s a3 h
    exact runSteps_success s post pre a a3 h

/-- What `\p{N}+` consumes: a non-empty run of characters of `\p{N}`. -/
theorem run_pN_star {U : UnicodeTables} {s x : MState} (hx : x ∈ run U (.star pN) s) :
    ∃ p, s.rest = p ++ x.rest ∧ (∀ c ∈ p, classMem U false [.cat .N] c = true) ∧
      x.caps = s.caps := by
  simp only [run] at hx
  refine starLoop_inv (P := fun s x => ∃ p, s.rest = p ++ x.rest ∧
      (∀ c ∈ p, classMem U false [.cat .N] c = true) ∧ x.caps = s.caps)
    (fun s => ⟨[], rfl, by simp, rfl⟩) ?_ ?_ _ _ _ hx
  · rintro a b c ⟨p, hp, hpn, hpc⟩ ⟨q, hq, hqn, hqc⟩
    refine ⟨p ++ q, by rw [hp, hq, List.append_assoc], ?_, by rw [hqc, hpc]⟩
    intro ch hch
    rcases List.mem_append.1 hch with h | h
    · exact hpn ch h
    · exact hqn ch h
  · intro s x hsx
    obtain ⟨d, t, hs, hd, rfl⟩ := mem_run_cls.1 hsx
    exact ⟨[d], by simp [hs], by simpa using hd, rfl⟩

theorem run_pN_plus {U : UnicodeTables} {s x : MState} (hx : x ∈ run U (Regex.plus pN) s) :
    ∃ p, s.rest = p ++ x.rest ∧ p ≠ [] ∧ (∀ c ∈ p, classMem U false [.cat .N] c = true) ∧
      x.caps = s.caps := by
  obtain ⟨y, hy, hxy⟩ := mem_run_seq.1 hx
  obtain ⟨d, t, hs, hd, rfl⟩ := mem_run_cls.1 hy
  obtain ⟨p, hp, hpn, hpc⟩ := run_pN_star hxy
  refine ⟨d :: p, ?_, by simp, ?_, hpc⟩
  · rw [hs]
    simp only [List.cons_append, List.cons.injEq, true_and]
    exact hp
  · intro c hc
    rcases List.mem_cons.1 hc with rfl | h
    · exact hd
    · exact hpn c h

/-- The tail of the length and item-count patterns: group 1 is a non-empty run
of characters of `\p{N}`. -/
theorem run_countTail {U : UnicodeTables} {s x : MState}
    (hx : x ∈ run U (Regex.cat countTail) s) :
    capture x.caps 1 ≠ [] ∧ (∀ c ∈ capture x.caps 1, classMem U false [.cat .N] c = true) ∧
      s.rest ≠ [] := by
  obtain ⟨y1, hy1, hx⟩ := mem_run_cat_cons.1 hx
  obtain ⟨y2, hy2, hx⟩ := mem_run_cat_cons.1 hx
  obtain ⟨y3, hy3, hx⟩ := mem_run_cat_cons.1 hx
  obtain ⟨y4, hy4, hx⟩ := mem_run_cat_cons.1 hx
  simp only [Regex.cat] at hx
  obtain ⟨rfl, _⟩ := mem_run_eot.1 hx
  obtain ⟨y, hy, rfl⟩ := mem_run_grp.1 hy4
  obtain ⟨p, hp, hpne, hpn, _⟩ := run_pN_plus hy
  have hl1 := run_length_le U _ _ _ hy1
  have hl2 := run_length_le U _ _ _ hy2
  have hl3 := run_length_le U _ _ _ hy3
  have htake : List.take (y3.rest.length - y.rest.length) y3.rest = p := by
    rw [hp]
    simp
  have hcap : capture ((1, List.take (y3.rest.length - y.rest.length) y3.rest) :: y.caps) 1 = p := by
    simp [capture, htake]
  refine ⟨by rw [hcap]; exact hpne, by rw [hcap]; exact hpn, ?_⟩
  intro h
  have h3 : y3.rest.length = 0 := by
    rw [h] at hl1
    simp only [List.length_nil] at hl1
    omega
  rw [List.length_eq_zero] at h3
  rw [h3] at hp
  have := congrArg List.length hp
  simp only [List.length_nil, List.length_append] at this
  have : p.length = 0 := by omega
  exact hpne (List.length_eq_zero.1 this)

theorem count_submatch {U : UnicodeTables} {head : List Regex}
    (hhead : (Regex.cat head).numGroups = 0) {line : Str}
    (hm : MatchString U (Regex.cat (head ++ countTail)) line = true) :
    ∃ whole d, FindStringSubmatch U (Regex.cat (head ++ countTail)) line = [whole, d] ∧
      d ≠ [] ∧ (∀ c ∈ d, classMem U false [.cat .N] c = true) ∧ line ≠ [] := by
  unfold MatchString at hm
  obtain ⟨⟨start, x⟩, hf⟩ := Option.isSome_iff_exists.1 hm
  obtain ⟨hx, hlen⟩ := find_mem hf
  obtain ⟨y, hy, hxy⟩ := (mem_run_cat_append head countTail).1 hx
  have hyl := run_length_le U _ _ _ hy
  obtain ⟨h1, h2, h3⟩ := run_countTail hxy
  have hn : (Regex.cat (head ++ countTail)).numGroups = 1 := by
    rw [numGroups_cat, List.map_append, List.sum_append, ← numGroups_cat, hhead]
    simp [countTail, Regex.numGroups, Regex.plus]
  refine ⟨start.take (start.length - x.rest.length), capture x.caps 1, ?_, h1, h2, ?_⟩
  · simp only [FindStringSubmatch, hf, hn]
    rfl
  · intro h
    subst h
    simp only [List.length_nil, Nat.le_zero, List.length_eq_zero] at hlen
    subst hlen
    simp only [List.length_nil, Nat.le_zero, List.length_eq_zero] at hyl
    exact h3 hyl

theorem rxMaxLengthFmt_eq (pre : Regex) :
    rxf rxMaxLengthFmt pre = Regex.cat ([pre, .cls false [.ch 'M', .ch 'm'], .str "ax".toList,
      Regex.opt (.str "imum".toList),
      .cat [.star pZs, Regex.opt (.cls false [.cat .Pd, .cat .Pc]), .cls false [.ch 'L', .ch 'l'],
        .str "en".toList, Regex.opt (.str "gth".toList)]] ++ countTail) := rfl

theorem rxMinLengthFmt_eq (pre : Regex) :
    rxf rxMinLengthFmt pre = Regex.cat ([pre, .cls false [.ch 'M', .ch 'm'], .str "in".toList,
      Regex.opt (.str "imum".toList),
      .cat [.star pZs, Regex.opt (.cls false [.cat .Pd, .cat .Pc]), .cls false [.ch 'L', .ch 'l'],
        .str "en".toList, Regex.opt (.str "gth".toList)]] ++ countTail) := rfl

theorem rxMaxItemsFmt_eq (pre : Regex) :
    rxf rxMaxItemsFmt pre = Regex.cat ([pre, .cls false [.ch 'M', .ch 'm'], .str "ax".toList,
      Regex.opt (.str "imum".toList),
      Regex.opt (.alt (.star pZs) (.alt (.cls false [.cat .Pd, .cat .Pc]) (.chr '.'))),
      .cls false [.ch 'I', .ch 'i'], .str "tems".toList] ++ countTail) := rfl

theorem rxMinItemsFmt_eq (pre : Regex) :
    rxf rxMinItemsFmt pre = Regex.cat ([pre, .cls false [.ch 'M', .ch 'm'], .str "in".toList,
      Regex.opt (.str "imum".toList),
      Regex.opt (.alt (.star pZs) (.alt (.cls false [.cat .Pd, .cat .Pc]) (.chr '.'))),
      .cls false [.ch 'I', .ch 'i'], .str "tems".toList] ++ countTail) := rfl

/-- The submatches of a line matched by one of the four length and item-count
patterns. -/
theorem counts_submatch {U : UnicodeTables} {pre : Regex} (hpre : pre.numGroups = 0)
    {rx : Regex}
    (hrx : rx = rxf rxMaxLengthFmt pre ∨ rx = rxf rxMinLengthFmt pre ∨
      rx = rxf rxMaxItemsFmt pre ∨ rx = rxf rxMinItemsFmt pre)
    {line : Str} (hm : MatchString U rx line = true) :
    ∃ whole d, FindStringSubmatch U rx line = [whole, d] ∧
      d ≠ [] ∧ (∀ c ∈ d, classMem U false [.cat .N] c = true) ∧ line ≠ [] := by
  rcases hrx with rfl | rfl | rfl | rfl
  · rw [rxMaxLengthFmt_eq] at hm ⊢
    refine count_submatch ?_ hm
    rw [numGroups_cat]
    simp [Regex.numGroups, Regex.opt, hpre, numGroups_str, numGroups_cat]
  · rw [rxMinLengthFmt_eq] at hm ⊢
    refine count_submatch ?_ hm
    rw [numGroups_cat]
    simp [Regex.numGroups, Regex.opt, hpre, numGroups_str, numGroups_cat]
  · rw [rxMaxItemsFmt_eq] at hm ⊢
    refine count_submatch ?_ hm
    rw [numGroups_cat]
    simp [Regex.numGroups, Regex.opt, hpre, numGroups_str]
  · rw [rxMinItemsFmt_eq] at hm ⊢
    refine count_submatch ?_ hm
    rw [numGroups_cat]
    simp [Regex.numGroups, Regex.opt, hpre, numGroups_str]

/-- The function `strconv.ParseInt` on a non-empty text of characters of
`\p{N}`, the signs being no such characters. -/
theorem ParseInt_of_numbers {U : UnicodeTables}
    (hplus : classMem U false [.cat .N] '+' = false)
    (hminus : classMem U false [.cat .N] '-' = false) {d : Str} (hd : d ≠ [])
    (hn : ∀ c ∈ d, classMem U false [.cat .N] c = true) :
    ParseInt d =
      match parseDigits d 0 with
      | some n => if n ≤ maxInt then .ok (n : Int) else .error (.outOfRange "ParseInt" d)
      | none => .error (.badNumber "ParseInt" d) := by
  cases d with
  | nil => exact absurd rfl hd
  | cons c t =>
    have hc := hn c (List.mem_cons_self _ _)
    have h1 : c ≠ '+' := by
      rintro rfl
      rw [hplus] at hc
      exact Bool.noConfusion hc
    have h2 : c ≠ '-' := by
      rintro rfl
      rw [hminus] at hc
      exact Bool.noConfusion hc
    unfold ParseInt
    split
    next neg body heq =>
      have hm : (neg, body) = (false, c :: t) := by
        rw [← heq]
        split
        · next t' he => simp only [List.cons.injEq] at he; exact absurd he.1 h1
        · next t' he => simp only [List.cons.injEq] at he; exact absurd he.1 h2
        · rfl
      simp only [Prod.mk.injEq] at hm
      obtain ⟨rfl, rfl⟩ := hm
      simp only [List.cons_ne_nil, if_false, Bool.false_eq_true]
      cases parseDigits (c :: t) 0 <;> rfl

/-- C24. Let the signs `+` and `-` be no characters of `\p{N}` (as in
Unicode). For each of the four grammars (maximum length, minimum length,
maximum items, minimum items, with a prefix without capture groups) and every
line it matches, group 1 is a non-empty text `d` of characters of `\p{N}`, and
`Parse` on a list that starts with the line has the outcome `countOutcome`:
when `d` is made of ASCII decimal digits and its value is at most `2^63 - 1`,
no error and one call of the setter of the parser with that value; when a
character of `d` is no ASCII decimal digit, or the value exceeds `2^63 - 1`, an
error and no call. A value passed is a natural number, never negative. -/
theorem C24_length_and_items (U : UnicodeTables) (pre : Regex) (line : Str) (rest : List Str)
    (builder : validationBuilder)
    (hplus : classMem U false [.cat .N] '+' = false)
    (hminus : classMem U false [.cat .N] '-' = false) (hpre : pre.numGroups = 0) :
    (MatchString U (rxf rxMaxLengthFmt pre) line = true →
      ∃ whole d, FindStringSubmatch U (rxf rxMaxLengthFmt pre) line = [whole, d] ∧ d ≠ [] ∧
        (∀ c ∈ d, classMem U false [.cat .N] c = true) ∧
        setMaxLength.Parse U ⟨rxf rxMaxLengthFmt pre⟩ (line :: rest) builder =
          countOutcome .SetMaxLength d builder) ∧
    (MatchString U (rxf rxMinLengthFmt pre) line = true →
      ∃ whole d, FindStringSubmatch U (rxf rxMinLengthFmt pre) line = [whole, d] ∧ d ≠ [] ∧
        (∀ c ∈ d, classMem U false [.cat .N] c = true) ∧
        setMinLength.Parse U ⟨rxf rxMinLengthFmt pre⟩ (line :: rest) builder =
          countOutcome .SetMinLength d builder) ∧
    (MatchString U (rxf rxMaxItemsFmt pre) line = true →
      ∃ whole d, FindStringSubmatch U (rxf rxMaxItemsFmt pre) line = [whole, d] ∧ d ≠ [] ∧
        (∀ c ∈ d, classMem U false [.cat .N] c = true) ∧
        setMaxItems.Parse U ⟨rxf rxMaxItemsFmt pre⟩ (line :: rest) builder =
          countOutcome .SetMaxItems d builder) ∧
    (MatchString U (rxf rxMinItemsFmt pre) line = true →
      ∃ whole d, FindStringSubmatch U (rxf rxMinItemsFmt pre) line = [whole, d] ∧ d ≠ [] ∧
        (∀ c ∈ d, classMem U false [.cat .N] c = true) ∧
        setMinItems.Parse U ⟨rxf rxMinItemsFmt pre⟩ (line :: rest) builder =
          countOutcome .SetMinItems d builder) ∧
    (∀ (set : Int → BuilderCall) (d : Str),
      ((countOutcome set d builder).1 = none ∧
        ∃ n : Nat, parseDigits d 0 = some n ∧ n ≤ maxInt ∧
          (countOutcome set d builder).2 = builder ++ [set (n : Int)]) ∨
      ((countOutcome set d builder).1 ≠ none ∧ (countOutcome set d builder).2 = builder ∧
        ∀ n, parseDigits d 0 = some n → maxInt < n)) := by
  refine ⟨?_, ?_, ?_, ?_, ?_⟩
  · intro hm
    obtain ⟨whole, d, hf, hd, hn, hl⟩ :=
      counts_submatch hpre (Or.inl rfl) hm
    refine ⟨whole, d, hf, hd, hn, ?_⟩
    have hlen : ¬ (rest.length = 0 ∧ line.length = 0) := by
      rintro ⟨_, h⟩
      exact hl (List.length_eq_zero.1 h)
    have hd' : d.length > 0 := List.length_pos.2 hd
    simp only [setMaxLength.Parse, hlen, if_false, hf, List.length_cons, List.length_nil,
      List.getD_cons_succ, List.getD_cons_zero, hd', and_true, gt_iff_lt, Nat.lt_add_one,
      if_true, Nat.reduceAdd, Nat.one_lt_ofNat, ParseInt_of_numbers hplus hminus hd hn,
      countOutcome]
    cases parseDigits d 0 with
    | none => rfl
    | some n => by_cases h : n ≤ maxInt <;> simp [h]
  · intro hm
    obtain ⟨whole, d, hf, hd, hn, hl⟩ :=
      counts_submatch hpre (Or.inr (Or.inl rfl)) hm
    refine ⟨whole, d, hf, hd, hn, ?_⟩
    have hlen : ¬ (rest.length = 0 ∧ line.length = 0) := by
      rintro ⟨_, h⟩
      exact hl (List.length_eq_zero.1 h)
    have hd' : d.length > 0 := List.length_pos.2 hd
    simp only [setMinLength.Parse, hlen, if_false, hf, List.length_cons, List.length_nil,
      List.getD_cons_succ, List.getD_cons_zero, hd', and_true, gt_iff_lt, Nat.lt_add_one,
      if_true, Nat.reduceAdd, Nat.one_lt_ofNat, ParseInt_of_numbers hplus hminus hd hn,
      countOutcome]
    cases parseDigits d 0 with
    | none => rfl
    | some n => by_cases h : n ≤ maxInt <;> simp [h]
  · intro hm
    obtain ⟨whole, d, hf, hd, hn, hl⟩ :=
      counts_submatch hpre (Or.inr (Or.inr (Or.inl rfl))) hm
    refine ⟨whole, d, hf, hd, hn, ?_⟩
    have hlen : ¬ (rest.length = 0 ∧ line.length = 0) := by
      rintro ⟨_, h⟩
      exact hl (List.length_eq_zero.1 h)
    have hd' : d.length > 0 := List.length_pos.2 hd
    simp only [setMaxItems.Parse, hlen, if_false, hf, List.length_cons, List.length_nil,
      List.getD_cons_succ, List.getD_cons_zero, hd', and_true, gt_iff_lt, Nat.lt_add_one,
      if_true, Nat.reduceAdd, Nat.one_lt_ofNat, ParseInt_of_numbers hplus hminus hd hn,
      countOutcome]
    cases parseDigits d 0 with
    | none => rfl
    | some n => by_cases h : n ≤ maxInt <;> simp [h]
  · intro hm
    obtain ⟨whole, d, hf, hd, hn, hl⟩ :=
      counts_submatch hpre (Or.inr (Or.inr (Or.inr rfl))) hm
    refine ⟨whole, d, hf, hd, hn, ?_⟩
    have hlen : ¬ (rest.length = 0 ∧ line.length = 0) := by
      rintro ⟨_, h⟩
      exact hl (List.length_eq_zero.1 h)
    have hd' : d.length > 0 := List.length_pos.2 hd
    simp only [setMinItems.Parse, hlen, if_false, hf, List.length_cons, List.length_nil,
      List.getD_cons_succ, List.getD_cons_zero, hd', and_true, gt_iff_lt, Nat.lt_add_one,
      if_true, Nat.reduceAdd, Nat.one_lt_ofNat, ParseInt_of_numbers hplus hminus hd hn,
      countOutcome]
    cases parseDigits d 0 with
    | none => rfl
    | some n => by_cases h : n ≤ maxInt <;> simp [h]
  · intro set d
    unfold countOutcome
    cases hp : parseDigits d 0 with
    | none => exact Or.inr ⟨by simp, rfl, by simp⟩
    | some n =>
      by_cases h : n ≤ maxInt
      · exact Or.inl ⟨by simp [h], n, rfl, h, by simp [h]⟩
      · refine Or.inr ⟨by simp [h], by simp [h], ?_⟩
        intro m hm
        simp only [Option.some.injEq] at hm
        omega

/-- Witness of C24: lines of the four grammars over the Latin-1 tables: a
length of 10, the largest value, a value beyond it, and a superscript two. -/
theorem C24_length_and_items_witness :
    setMaxLength.Parse latin1 ⟨rxf rxMaxLengthFmt .eps⟩ ["max length: 10".toList] [] =
      (none, [.SetMaxLength 10]) ∧
    setMinLength.Parse latin1 ⟨rxf rxMinLengthFmt .eps⟩
        ["min-len: 9223372036854775807".toList] [] =
      (none, [.SetMinLength 9223372036854775807]) ∧
    setMaxItems.Parse latin1 ⟨rxf rxMaxItemsFmt .eps⟩
        ["max items: 9223372036854775808".toList] [] =
      (some (.outOfRange "ParseInt" "9223372036854775808".toList), []) ∧
    setMinItems.Parse latin1 ⟨rxf rxMinItemsFmt .eps⟩ ["min.items: ²".toList] [] =
      (some (.badNumber "ParseInt" "²".toList), []) ∧
    ∃ whole d, FindStringSubmatch latin1 (rxf rxMaxLengthFmt .eps) "max length: 10".toList =
        [whole, d] ∧ d ≠ [] ∧ (∀ c ∈ d, classMem latin1 false [.cat .N] c = true) ∧
      setMaxLength.Parse latin1 ⟨rxf rxMaxLengthFmt .eps⟩ ["max length: 10".toList] [] =
        countOutcome .SetMaxLength d [] :=
  ⟨by decide, by decide, by decide, by decide,
    (C24_length_and_items latin1 .eps "max length: 10".toList [] [] (by decide) (by decide)
      rfl).1 (by decide)⟩

theorem stripComment_idem (U : UnicodeTables) (v : Str) :
    stripComment U (stripComment U v) = stripComment U v := by
  unfold stripComment
  induction v with
  | nil => rfl
  | cons c t ih =>
    by_cases h : classMem U true [.cat .L, .cat .N, .ch '+'] c = true
    · simp only [List.dropWhile_cons, h, if_true, ih]
    · simp only [List.dropWhile_cons, h, Bool.false_eq_true, if_false]

theorem stripComment_nil (U : UnicodeTables) : stripComment U [] = [] := rfl

theorem stripComment_head (U : UnicodeTables) (v : Str) :
    stripComment U v = [] ∨ ∃ c t, stripComment U v = c :: t ∧
      classMem U false [.cat .L, .cat .N, .ch '+'] c = true := by
  unfold stripComment
  induction v with
  | nil => exact Or.inl rfl
  | cons c t ih =>
    by_cases h : classMem U true [.cat .L, .cat .N, .ch '+'] c = true
    · simpa only [List.dropWhile_cons, h, if_true] using ih
    · refine Or.inr ⟨c, t, by simp only [List.dropWhile_cons, h, Bool.false_eq_true, if_false], ?_⟩
      simp only [classMem, Bool.true_bne, Bool.not_eq_true', Bool.not_eq_false] at h
      simp only [classMem, Bool.false_bne]
      simpa using h

theorem lastContent_cons_of_empty {U : UnicodeTables} {v : Str} {rest : List Str} {j : Nat}
    (hv : stripComment U v = []) (h : lastContent U (v :: rest) = some j) :
    ∃ j1, lastContent U rest = some j1 ∧ j = j1 + 1 := by
  simp only [lastContent] at h
  cases hl : lastContent U rest with
  | none => simp [hl, hv] at h
  | some j1 =>
    rw [hl] at h
    simp only [Option.some.injEq] at h
    exact ⟨j1, rfl, h.symm⟩

/-- The stripped lines up to the last line with content keep that line as
their last line with content. -/
theorem lastContent_take (U : UnicodeTables) :
    ∀ (lines : List Str) (j : Nat), lastContent U lines = some j →
      lastContent U ((lines.map (stripComment U)).take (j + 1)) = some j ∧
        ((lines.map (stripComment U)).take (j + 1)).length = j + 1 := by
  intro lines
  induction lines with
  | nil => intro j h; simp [lastContent] at h
  | cons v rest ih =>
    intro j h
    simp only [lastContent] at h
    cases hl : lastContent U rest with
    | some j1 =>
      rw [hl] at h
      simp only [Option.some.injEq] at h
      subst h
      obtain ⟨h1, h2⟩ := ih j1 hl
      simp only [List.map_cons, List.take_succ_cons, lastContent, h1, List.length_cons, h2,
        and_self]
    | none =>
      rw [hl] at h
      by_cases hv : stripComment U v = []
      · simp [hv] at h
      · simp only [hv, ne_eq, not_false_eq_true, if_true, Option.some.injEq] at h
        subst h
        simp [lastContent, stripComment_idem, hv]

theorem firstContent_take (U : UnicodeTables) :
    ∀ (lines : List Str) (k j : Nat), firstContent U lines = some k →
      lastContent U lines = some j →
        firstContent U ((lines.map (stripComment U)).take (j + 1)) = some k := by
  intro lines
  induction lines with
  | nil => intro k j h; simp [firstContent] at h
  | cons v rest ih =>
    intro k j hk hj
    by_cases hv : stripComment U v = []
    · obtain ⟨j1, hj1, rfl⟩ := lastContent_cons_of_empty hv hj
      simp only [firstContent, hv, ne_eq, not_true_eq_false, if_false, Option.map_eq_some'] at hk
      obtain ⟨k1, hk1, rfl⟩ := hk
      simp only [List.map_cons, List.take_succ_cons, firstContent, stripComment_idem, hv,
        stripComment_nil, ne_eq, not_true_eq_false, if_false, ih k1 j1 hk1 hj1, Option.map_some']
    · simp only [firstContent, hv, ne_eq, not_false_eq_true, if_true, Option.some.injEq] at hk
      subst hk
      simp [firstContent, stripComment_idem, hv]

theorem content_drop (U : UnicodeTables) :
    ∀ (T : List Str) (k j : Nat), firstContent U T = some k → lastContent U T = some j →
      firstContent U (T.drop k) = some 0 ∧ lastContent U (T.drop k) = some (j - k) := by
  intro T
  induction T with
  | nil => intro k j h; simp [firstContent] at h
  | cons v rest ih =>
    intro k j hk hj
    by_cases hv : stripComment U v = []
    · obtain ⟨j1, hj1, rfl⟩ := lastContent_cons_of_empty hv hj
      simp only [firstContent, hv, ne_eq, not_true_eq_false, if_false, Option.map_eq_some'] at hk
      obtain ⟨k1, hk1, rfl⟩ := hk
      simpa using ih k1 j1 hk1 hj1
    · simp only [firstContent, hv, ne_eq, not_false_eq_true, if_true, Option.some.injEq] at hk
      subst hk
      simp [firstContent, hv, hj]

theorem firstContent_zero {U : UnicodeTables} {H : List Str} (h : firstContent U H = some 0) :
    ∃ l t, H = l :: t ∧ stripComment U l ≠ [] := by
  cases H with
  | nil => simp [firstContent] at h
  | cons l t =>
    refine ⟨l, t, rfl, ?_⟩
    intro hv
    simp [firstContent, hv] at h

theorem lastContent_last (U : UnicodeTables) :
    ∀ (T : List Str), lastContent U T = some (T.length - 1) →
      ∀ w, T.getLast? = some w → stripComment U w ≠ [] := by
  intro T
  induction T with
  | nil => intro _ w hw; simp at hw
  | cons v rest ih =>
    intro h w hw
    cases rest with
    | nil =>
      simp only [List.getLast?_singleton, Option.some.injEq] at hw
      subst hw
      intro hv
      simp [lastContent, hv] at h
    | cons u r =>
      rw [List.getLast?_cons_cons] at hw
      refine ih ?_ w hw
      simp only [lastContent] at h
      cases hl : lastContent U (u :: r) with
      | none =>
        simp only [lastContent] at hl
        rw [hl] at h
        by_cases hv : stripComment U v = [] <;> simp [hv] at h
      | some j1 =>
        simp only [lastContent] at hl
        rw [hl] at h
        simp only [Option.some.injEq, List.length_cons] at h ⊢
        omega

/-- What `cleanup` returns: a list that `cleanup` returns unchanged, whose
lines are stripped and whose first and last line have content. -/
theorem cleanup_result (U : UnicodeTables) (lines H : List Str) (h : cleanup U lines = some H) :
    firstContent U H = some 0 ∧ lastContent U H = some (H.length - 1) ∧
      (∀ l ∈ H, stripComment U l = l) ∧ cleanup U H = some H := by
  rw [cleanup_spec] at h
  cases hf : firstContent U lines with
  | none => simp [hf] at h
  | some k =>
    obtain ⟨j, hj, hkj, hjl⟩ := firstContent_le_lastContent U lines k hf
    simp only [hf, hj, Option.some.injEq] at h
    obtain ⟨hT, hTl⟩ := lastContent_take U lines j hj
    have hF := firstContent_take U lines k j hf hj
    obtain ⟨h0, hlast⟩ := content_drop U _ k j hF hT
    rw [h] at h0 hlast
    have hlen : H.length = j + 1 - k := by
      rw [← h, List.length_drop, hTl]
    have hfix : ∀ l ∈ H, stripComment U l = l := by
      intro l hl
      rw [← h] at hl
      have := List.mem_of_mem_take (List.mem_of_mem_drop hl)
      obtain ⟨v, _, rfl⟩ := List.mem_map.1 this
      exact stripComment_idem U v
    have hl' : lastContent U H = some (H.length - 1) := by
      rw [hlast, hlen]
      congr 1
      omega
    refine ⟨h0, hl', hfix, ?_⟩
    rw [cleanup_spec, h0, hl']
    have hm : H.map (stripComment U) = H := by
      conv_rhs => rw [← List.map_id H]
      exact List.map_congr_left (fun l hl => by simpa using hfix l hl)
    have hpos : H.length - 1 + 1 = H.length := by omega
    simp only [hm, hpos, List.take_length, List.drop_zero]

theorem responses_last_wins {σ : Type} (mk : Str → Ref) (ss : setOpResponses σ)
    (pre post : List Str) (l : Str) (c : Int) (hl : hasCode l c = true)
    (hpost : ∀ x ∈ post, hasCode x c = false) :
    statusOf mk ss (pre ++ l :: post) c = some { Ref := mk (refURI ss (lineValue l)) } := by
  have hn : post.reverse.find? (fun x => hasCode x c) = none := by
    rw [List.find?_eq_none]
    intro x hx
    simpa using hpost x (List.mem_reverse.1 hx)
  simp [statusOf, List.find?_append, hn, List.find?_cons, hl]

theorem responses_first_wins {σ : Type} (mk : Str → Ref) (ss : setOpResponses σ)
    (pre post : List Str) (l : Str) (hl : isDefaultLine l = true)
    (hpre : ∀ x ∈ pre, isDefaultLine x = false) :
    defaultOf mk ss (pre ++ l :: post) = some { Ref := mk (refURI ss (lineValue l)) } := by
  have hn : pre.find? isDefaultLine = none := by
    rw [List.find?_eq_none]
    intro x hx
    simpa using hpre x hx
  simp [defaultOf, List.find?_append, hn, List.find?_cons, hl]

/-- C25. For every list of lines with at least one line that has content
(something is left of it after the leading characters other than letters,
numbers and `+` are removed), `cleanup` returns a list `H` and `cleanup` of
`H` returns `H` again; `H` is not empty, its first and its last line are not
empty, and every line of `H` is empty or starts with a character of `\p{L}`,
of `\p{N}` or with `+`. So on a parser without a title setter that has not
worked out its title, `Description` returns `H` and, called again on the
parser it leaves, returns `H` once more. -/
theorem C25_cleanup_idempotent (U : UnicodeTables) (lines : List Str)
    (hc : ∃ l ∈ lines, stripComment U l ≠ []) :
    ∃ H, cleanup U lines = some H ∧ cleanup U H = some H ∧ H ≠ [] ∧
      (∀ l, H.head? = some l → l ≠ []) ∧ (∀ l, H.getLast? = some l → l ≠ []) ∧
      (∀ l ∈ H, l = [] ∨ ∃ c t, l = c :: t ∧
        classMem U false [.cat .L, .cat .N, .ch '+'] c = true) ∧
      ∀ (σ : Type) (st : sectionedParser σ), st.setTitle = none → st.workedOutTitle = false →
        st.header = lines →
          ∃ st1, st.Description U = some (H, st1) ∧ st1.Description U = some (H, st1) := by
  cases hcl : cleanup U lines with
  | none =>
    obtain ⟨l, hl, hne⟩ := hc
    exact absurd ((cleanup_none_iff U lines).1 hcl l hl) hne
  | some H =>
    obtain ⟨h0, hlast, hfix, hidem⟩ := cleanup_result U lines H hcl
    obtain ⟨l0, t0, hH, hl0⟩ := firstContent_zero h0
    refine ⟨H, rfl, hidem, by rw [hH]; simp, ?_, ?_, ?_, ?_⟩
    · intro l hl
      rw [hH] at hl
      simp only [List.head?_cons, Option.some.injEq] at hl
      subst hl
      rw [← hfix l0 (by rw [hH]; exact List.mem_cons_self _ _)]
      exact hl0
    · intro l hl
      rw [← hfix l (List.mem_of_getLast?_eq_some hl)]
      exact lastContent_last U H hlast l hl
    · intro l hl
      rw [← hfix l hl]
      exact stripComment_head U l
    · intro σ st hset hw hhead
      refine ⟨{ st with header := H }, ?_, ?_⟩
      · simp [sectionedParser.Description, sectionedParser.collectTitleDescription, hw, hset,
          hhead, hcl]
      · simp [sectionedParser.Description, sectionedParser.collectTitleDescription, hw, hset,
          hidem]

/-- Witness of C25: a comment with a blank line in front, an empty comment
line inside and a blank line behind. -/
theorem C25_cleanup_idempotent_witness :
    ∃ H, cleanup latin1 ["//".toList, "// Title.".toList, "//".toList, "// +more".toList,
        "// ".toList] = some H ∧ cleanup latin1 H = some H ∧ H ≠ [] :=
  (C25_cleanup_idempotent latin1 ["//".toList, "// Title.".toList, "//".toList,
    "// +more".toList, "// ".toList] ⟨"// Title.".toList, by decide, by decide⟩).imp
    (fun _ h => ⟨h.1, h.2.1, h.2.2.1⟩)

/-- C26. For every `spec.NewRef` and every list of lines (more than a single
empty line): `setOpResponses.Parse` returns no error exactly when every line
is no error on its own (it is no `key: name` line, or it has a name whose
reference `spec.NewRef` accepts), so that a key that comes again is never an
error. When `Parse` returns no error the setter is called once: under an
integer status code the status map holds the reference of the last line whose
key reads as that code, whatever lines with the same code come before it, and
the default is the reference of the first line whose key is `default`,
whatever `default` lines come after it. So `200: widgetResponse`,
`default: errorResponse`, `200: Widget`, `default: widgetResponse` gives 200
the definition `Widget` and the default `errorResponse`. -/
theorem C26_duplicate_keys {σ : Type} (newRef : Str → Except GoError Ref)
    (ss : setOpResponses σ) (lines : List Str) (w : σ)
    (hne : lines ≠ []) (hns : lines ≠ [[]]) :
    ((ss.Parse newRef lines w).1 = none ↔ ∀ l ∈ lines, lineAccepted newRef ss l = true) ∧
    ((ss.Parse newRef lines w).1 = none →
      ∃ d scr, ss.Parse newRef lines w = (none, ss.set d scr w) ∧
        (∀ pre l post c, lines = pre ++ l :: post → hasCode l c = true →
          (∀ x ∈ post, hasCode x c = false) →
            newRef (refURI ss (lineValue l)) = .ok (refOr newRef (refURI ss (lineValue l))) ∧
            codeGet scr c = some { Ref := refOr newRef (refURI ss (lineValue l)) }) ∧
        (∀ pre l post, lines = pre ++ l :: post → isDefaultLine l = true →
          (∀ x ∈ pre, isDefaultLine x = false) →
            newRef (refURI ss (lineValue l)) = .ok (refOr newRef (refURI ss (lineValue l))) ∧
            d = some { Ref := refOr newRef (refURI ss (lineValue l)) })) ∧
    widgetResponses.Parse NewRef
        ["200: widgetResponse".toList, "default: errorResponse".toList, "200: Widget".toList,
          "default: widgetResponse".toList] (none, []) =
      (none, (some { Ref := { uri := "#/responses/errorResponse".toList } },
        [(200, { Ref := { uri := "#/definitions/Widget".toList } })])) ∧
    countingResponses.Parse rejectPercent
        ["200: widgetResponse".toList, "200: widgetResponse".toList] 0 = (none, 1) := by
  refine ⟨Parse_error_iff newRef ss lines w, ?_, by decide, by decide⟩
  intro hok
  have hacc := (Parse_error_iff newRef ss lines w).1 hok
  have href : ∀ l ∈ lines, isEntry l = true →
      newRef (refURI ss (lineValue l)) = .ok (refOr newRef (refURI ss (lineValue l))) := by
    intro l hl he
    have h := hacc l hl
    simp only [lineAccepted, he, Bool.not_true, Bool.false_or, Bool.and_eq_true] at h
    exact (accepts_iff _ _).1 h.2
  obtain ⟨d, scr, hl, hd, hscr⟩ := responsesLoop_accepted_spec newRef ss lines hacc none []
  refine ⟨d, scr, ?_, ?_, ?_⟩
  · rw [setOpResponses_Parse_loop newRef ss lines w hne hns, hl]
  · intro pre l post c he hc hpost
    have hent : isEntry l = true := by
      simp only [hasCode, Bool.and_eq_true] at hc
      exact hc.1
    refine ⟨href l (by rw [he]; simp) hent, ?_⟩
    rw [hscr c, he, responses_last_wins (refOr newRef) ss pre post l c hc hpost]
  · intro pre l post he hdl hpre
    have hent : isEntry l = true := by
      simp only [isDefaultLine, Bool.and_eq_true] at hdl
      exact hdl.1
    refine ⟨href l (by rw [he]; simp) hent, ?_⟩
    rw [hd, he]
    simp only [Option.isNone_none, if_true]
    exact responses_first_wins (refOr newRef) ss pre post l hdl hpre

/-- Witness of C26: two lines for 200 and two `default` lines. -/
theorem C26_duplicate_keys_witness :
    (widgetResponses.Parse NewRef
        ["200: widgetResponse".toList, "default: errorResponse".toList, "200: Widget".toList,
          "default: widgetResponse".toList] (none, [])).1 = none ∧
    ∃ d scr, widgetResponses.Parse NewRef
        ["200: widgetResponse".toList, "default: errorResponse".toList, "200: Widget".toList,
          "default: widgetResponse".toList] (none, []) =
      (none, widgetResponses.set d scr (none, [])) :=
  ⟨by decide, ((C26_duplicate_keys NewRef widgetResponses
    ["200: widgetResponse".toList, "default: errorResponse".toList, "200: Widget".toList,
      "default: widgetResponse".toList] (none, []) (by decide) (by decide)).2.1 (by decide)).imp
    (fun _ h => h.imp (fun _ h2 => h2.1))⟩

end Scan
